import Mathlib

/-!
Natural-language test pipeline: plan generation, step execution, run coordination.

A shallow embedding of `src/llm-client.js`, `src/test-executor.js` and
`src/test-runner.js`.

* JavaScript values that reach the pipeline come from `JSON.parse` (the plan) or
  from configuration objects, so they are modelled by `JsVal`: the JSON values
  plus `undefined`.
* The browser, the file system, the clock and the inference service are the
  environment.  An `Env` answers every command as a function of the history of
  events so far; the history (`trace`) is threaded through the code as explicit
  state, together with the executor's `browser` and `page` fields.
* An `await`ed call that rejects and a `throw` are both the `error` case of an
  `Except`; `try`/`catch` is a case split on it, the state being kept.
-/

namespace PlaywrightLLM

/-! ## JavaScript values -/

/-- JSON values plus `undefined`.  A number is kept as the exact decimal
`mant * 10 ^ exp` of its literal. -/
inductive JsVal where
  | undefined : JsVal
  | null : JsVal
  | bool (b : Bool) : JsVal
  | num (mant : Int) (exp : Int) : JsVal
  | str (s : String) : JsVal
  | arr (xs : List JsVal) : JsVal
  | obj (kvs : List (String × JsVal)) : JsVal

namespace JsVal

instance : Inhabited JsVal := ⟨JsVal.undefined⟩

/-- Whether the decimal `mant * 10 ^ exp` is the double `0`: it is when the
mantissa is zero, or when the magnitude is at most `2 ^ (-1075)`, half of the
least positive double, which rounds to zero. -/
def numIsZero (mant exp : Int) : Bool :=
  if 0 ≤ exp then mant == 0
  else decide (mant.natAbs * 2 ^ 1075 ≤ 10 ^ exp.natAbs)

/-- JavaScript `ToBoolean`. -/
def truthy : JsVal → Bool
  | undefined => false
  | null => false
  | bool b => b
  | num m e => !numIsZero m e
  | str s => s != ""
  | arr _ => true
  | obj _ => true

/-- The operator `a || b`. -/
def or (a b : JsVal) : JsVal := if a.truthy then a else b

/-- The last binding of `k` in a property list (on a duplicate key `JSON.parse`
keeps the last value). -/
def lookupLast (k : String) : List (String × JsVal) → Option JsVal
  | [] => none
  | (k1, v) :: rest =>
    match lookupLast k rest with
    | some w => some w
    | none => if k1 = k then some v else none

/-- The value of the property read `v.k` on a value `v` that is neither
`undefined` nor `null`, for the property names the pipeline reads (`action`,
`selector`, `value`, `options`, `critical`, `text`, `visible`, `enabled`,
`steps`, `reasoning`, `response`, `baseUrl`, `credentials`, `username`,
`password`): the own property of an object, and `undefined` otherwise, none of
these names being on a built-in prototype.  On `undefined` and `null` it is the
value of the optional chain `v?.k`. -/
def prop (v : JsVal) (k : String) : JsVal :=
  match v with
  | obj kvs => (lookupLast k kvs).getD undefined
  | _ => undefined

/-- Property read `v.k`: a `TypeError` on `undefined` and `null`. -/
def get (v : JsVal) (k : String) : Except String JsVal :=
  match v with
  | undefined => .error ("Cannot read properties of undefined (reading \x27" ++ k ++ "\x27)")
  | null => .error ("Cannot read properties of null (reading \x27" ++ k ++ "\x27)")
  | w => .ok (w.prop k)

/-- The elements of an array. -/
def elems : JsVal → List JsVal
  | arr xs => xs
  | _ => []

/-- `Array.isArray`. -/
def isArray : JsVal → Bool
  | arr _ => true
  | _ => false

/-- The comparison `v === false`. -/
def isFalse : JsVal → Bool
  | bool false => true
  | _ => false

/-- The comparison `v === b` for a boolean `b`. -/
def strictEqBool (v : JsVal) (b : Bool) : Bool :=
  match v with
  | bool c => c == b
  | _ => false

/-- Whether a value is `undefined` or `null`. -/
def nullish : JsVal → Bool
  | undefined => true
  | null => true
  | _ => false

/-- The comparison `v !== undefined`. -/
def isDefined : JsVal → Bool
  | undefined => false
  | _ => true

end JsVal

/-! ## `JSON.parse`

A reference parser for the JSON grammar, used to evaluate `parseJsonResponse` on
concrete responses.  The general theorems take the parser as a parameter. -/

namespace Json

def lbrace : Char := Char.ofNat 123
def rbrace : Char := Char.ofNat 125
def lbracket : Char := Char.ofNat 91
def rbracket : Char := Char.ofNat 93
def dquote : Char := Char.ofNat 34
def backslash : Char := Char.ofNat 92

def isWs (c : Char) : Bool := c == ' ' || c == '\t' || c == '\n' || c == '\r'

def skipWs : List Char → List Char
  | [] => []
  | c :: cs => if isWs c then skipWs cs else c :: cs

def unexpectedEnd : String := "Unexpected end of JSON input"
def unexpectedToken : String := "Unexpected token in JSON"

def hexVal (c : Char) : Option Nat :=
  if '0' ≤ c ∧ c ≤ '9' then some (c.toNat - '0'.toNat)
  else if 'a' ≤ c ∧ c ≤ 'f' then some (c.toNat - 'a'.toNat + 10)
  else if 'A' ≤ c ∧ c ≤ 'F' then some (c.toNat - 'A'.toNat + 10)
  else none

def hex4 (a b c d : Char) : Option Nat :=
  match hexVal a, hexVal b, hexVal c, hexVal d with
  | some x, some y, some z, some w => some (((x * 16 + y) * 16 + z) * 16 + w)
  | _, _, _, _ => none

/-- The characters of a string literal after its opening quote, up to and
including the closing quote.  A surrogate pair of escapes is one character; a
lone surrogate escape, which a Lean string cannot hold, reads as U+FFFD.  The
fuel bounds the number of characters read. -/
def parseStringBody : Nat → List Char → List Char → Except String (String × List Char)
  | 0, _, _ => .error unexpectedEnd
  | _ + 1, [], _ => .error unexpectedEnd
  | fuel + 1, c :: cs, acc =>
    if c == dquote then .ok (String.mk acc.reverse, cs)
    else if c == backslash then
      match cs with
      | [] => .error unexpectedEnd
      | e :: cs1 =>
        if e == dquote then parseStringBody fuel cs1 (dquote :: acc)
        else if e == backslash then parseStringBody fuel cs1 (backslash :: acc)
        else if e == '/' then parseStringBody fuel cs1 ('/' :: acc)
        else if e == 'b' then parseStringBody fuel cs1 (Char.ofNat 8 :: acc)
        else if e == 'f' then parseStringBody fuel cs1 (Char.ofNat 12 :: acc)
        else if e == 'n' then parseStringBody fuel cs1 ('\n' :: acc)
        else if e == 'r' then parseStringBody fuel cs1 ('\r' :: acc)
        else if e == 't' then parseStringBody fuel cs1 ('\t' :: acc)
        else if e == 'u' then
          match cs1 with
          | a :: b :: c1 :: d :: cs2 =>
            match hex4 a b c1 d with
            | none => .error unexpectedToken
            | some hi =>
              if 0xD800 ≤ hi ∧ hi < 0xDC00 then
                match cs2 with
                | b1 :: u1 :: a2 :: b2 :: c2 :: d2 :: cs3 =>
                  match (if b1 == backslash && u1 == 'u' then hex4 a2 b2 c2 d2 else none) with
                  | some lo =>
                    if 0xDC00 ≤ lo ∧ lo < 0xE000 then
                      parseStringBody fuel cs3
                        (Char.ofNat (0x10000 + (hi - 0xD800) * 0x400 + (lo - 0xDC00)) :: acc)
                    else parseStringBody fuel cs2 (Char.ofNat 0xFFFD :: acc)
                  | none => parseStringBody fuel cs2 (Char.ofNat 0xFFFD :: acc)
                | _ => parseStringBody fuel cs2 (Char.ofNat 0xFFFD :: acc)
              else if 0xDC00 ≤ hi ∧ hi < 0xE000 then
                parseStringBody fuel cs2 (Char.ofNat 0xFFFD :: acc)
              else parseStringBody fuel cs2 (Char.ofNat hi :: acc)
          | _ => .error unexpectedEnd
        else .error unexpectedToken
    else if c.toNat < 32 then .error unexpectedToken
    else parseStringBody fuel cs (c :: acc)

def isDigit (c : Char) : Bool := decide ('0' ≤ c ∧ c ≤ '9')

/-- The leading digits of the input, their value continuing `acc`, and how many
there are. -/
def takeDigits : List Char → Nat → Nat → Nat × Nat × List Char
  | [], acc, n => (acc, n, [])
  | c :: cs, acc, n =>
    if isDigit c then takeDigits cs (acc * 10 + (c.toNat - '0'.toNat)) (n + 1)
    else (acc, n, c :: cs)

/-- A number literal: `-? (0 | [1-9][0-9]*) (. [0-9]+)? ([eE] [+-]? [0-9]+)?`. -/
def parseNumber (cs : List Char) : Except String (JsVal × List Char) :=
  let (neg, cs0) := match cs with
    | '-' :: r => (true, r)
    | _ => (false, cs)
  match cs0 with
  | [] => .error unexpectedEnd
  | c :: r =>
    if !isDigit c then .error unexpectedToken
    else
      let (ip, cs1) := if c == '0' then (0, r) else
        let t := takeDigits (c :: r) 0 0
        (t.1, t.2.2)
      let fracPart : Except String (Nat × Nat × List Char) := match cs1 with
        | '.' :: r1 =>
          let t := takeDigits r1 ip 0
          if t.2.1 == 0 then .error (if r1.isEmpty then unexpectedEnd else unexpectedToken)
          else .ok t
        | _ => .ok (ip, 0, cs1)
      match fracPart with
      | .error e => .error e
      | .ok (mant, nfrac, cs2) =>
        let expPart : Except String (Int × List Char) := match cs2 with
          | e :: r2 =>
            if e == 'e' || e == 'E' then
              let (eneg, r3) := match r2 with
                | '-' :: r4 => (true, r4)
                | '+' :: r4 => (false, r4)
                | _ => (false, r2)
              let t := takeDigits r3 0 0
              if t.2.1 == 0 then .error (if r3.isEmpty then unexpectedEnd else unexpectedToken)
              else .ok (if eneg then - (t.1 : Int) else (t.1 : Int), t.2.2)
            else .ok (0, cs2)
          | [] => .ok (0, cs2)
        match expPart with
        | .error e => .error e
        | .ok (ex, cs3) =>
          .ok (JsVal.num (if neg then - (mant : Int) else (mant : Int)) (ex - (nfrac : Int)), cs3)

/-- The input with the literal `lit` removed from its front. -/
def expectLit (lit : List Char) (cs : List Char) : Except String (List Char) :=
  if lit.isPrefixOf cs then .ok (cs.drop lit.length)
  else .error (if cs.length < lit.length then unexpectedEnd else unexpectedToken)

mutual
/-- One JSON value at the front of the input, leading white space skipped. -/
def parseValue : Nat → List Char → Except String (JsVal × List Char)
  | 0, _ => .error unexpectedEnd
  | fuel + 1, cs =>
    match skipWs cs with
    | [] => .error unexpectedEnd
    | c :: r =>
      if c == lbrace then
        match skipWs r with
        | [] => .error unexpectedEnd
        | c1 :: r1 =>
          if c1 == rbrace then .ok (JsVal.obj [], r1)
          else match parseMembers fuel (c1 :: r1) [] with
            | .error e => .error e
            | .ok (kvs, rest) => .ok (JsVal.obj kvs, rest)
      else if c == lbracket then
        match skipWs r with
        | [] => .error unexpectedEnd
        | c1 :: r1 =>
          if c1 == rbracket then .ok (JsVal.arr [], r1)
          else match parseElements fuel (c1 :: r1) [] with
            | .error e => .error e
            | .ok (xs, rest) => .ok (JsVal.arr xs, rest)
      else if c == dquote then
        match parseStringBody (r.length + 1) r [] with
        | .error e => .error e
        | .ok (s, rest) => .ok (JsVal.str s, rest)
      else if c == 't' then (expectLit "true".toList (c :: r)).map (fun rest => (JsVal.bool true, rest))
      else if c == 'f' then (expectLit "false".toList (c :: r)).map (fun rest => (JsVal.bool false, rest))
      else if c == 'n' then (expectLit "null".toList (c :: r)).map (fun rest => (JsVal.null, rest))
      else parseNumber (c :: r)
/-- The members of an object after its opening brace, up to and including the
closing brace. -/
def parseMembers : Nat → List Char → List (String × JsVal) → Except String (List (String × JsVal) × List Char)
  | 0, _, _ => .error unexpectedEnd
  | fuel + 1, cs, acc =>
    match skipWs cs with
    | [] => .error unexpectedEnd
    | c :: r =>
      if c == dquote then
        match parseStringBody (r.length + 1) r [] with
        | .error e => .error e
        | .ok (k, r1) =>
          match skipWs r1 with
          | [] => .error unexpectedEnd
          | c2 :: r2 =>
            if c2 == ':' then
              match parseValue fuel r2 with
              | .error e => .error e
              | .ok (v, r3) =>
                match skipWs r3 with
                | [] => .error unexpectedEnd
                | c4 :: r4 =>
                  if c4 == rbrace then .ok ((acc ++ [(k, v)]), r4)
                  else if c4 == ',' then parseMembers fuel r4 (acc ++ [(k, v)])
                  else .error unexpectedToken
            else .error unexpectedToken
      else .error unexpectedToken
/-- The elements of an array after its opening bracket, up to and including
the closing bracket. -/
def parseElements : Nat → List Char → List JsVal → Except String (List JsVal × List Char)
  | 0, _, _ => .error unexpectedEnd
  | fuel + 1, cs, acc =>
    match parseValue fuel cs with
    | .error e => .error e
    | .ok (v, r3) =>
      match skipWs r3 with
      | [] => .error unexpectedEnd
      | c4 :: r4 =>
        if c4 == rbracket then .ok ((acc ++ [v]), r4)
        else if c4 == ',' then parseElements fuel r4 (acc ++ [v])
        else .error unexpectedToken
end

/-- `JSON.parse(text)`: one value, white space around it, nothing else. -/
def parse (text : String) : Except String JsVal :=
  match parseValue (text.length + 1) text.toList with
  | .error e => .error e
  | .ok (v, rest) =>
    match skipWs rest with
    | [] => .ok v
    | _ :: _ => .error unexpectedToken

/-! The stages of `parseNumber`, named for the proofs. -/

/-- The sign of the exponent in `parseNumber`, and what follows it. -/
def expSign (r2 : List Char) : Bool × List Char :=
  match r2 with
  | '-' :: r4 => (true, r4)
  | '+' :: r4 => (false, r4)
  | _ => (false, r2)

/-- The exponent part of `parseNumber`. -/
def numExp (cs2 : List Char) : Except String (Int × List Char) :=
  match cs2 with
  | e :: r2 =>
    if e == 'e' || e == 'E' then
      let t := takeDigits (expSign r2).2 0 0
      if t.2.1 == 0 then
        .error (if (expSign r2).2.isEmpty then unexpectedEnd else unexpectedToken)
      else .ok (if (expSign r2).1 then - (t.1 : Int) else (t.1 : Int), t.2.2)
    else .ok (0, cs2)
  | [] => .ok (0, cs2)

/-- The fraction part of `parseNumber`. -/
def numFrac (ip : Nat) (cs1 : List Char) : Except String (Nat × Nat × List Char) :=
  match cs1 with
  | '.' :: r1 =>
    let t := takeDigits r1 ip 0
    if t.2.1 == 0 then .error (if r1.isEmpty then unexpectedEnd else unexpectedToken)
    else .ok t
  | _ => .ok (ip, 0, cs1)

/-- The part of `parseNumber` after the integer part. -/
def numTail (neg : Bool) (ip : Nat) (cs1 : List Char) : Except String (JsVal × List Char) :=
  match numFrac ip cs1 with
  | .error e => .error e
  | .ok (mant, nfrac, cs2) =>
    match numExp cs2 with
    | .error e => .error e
    | .ok (ex, cs3) =>
      .ok (JsVal.num (if neg then - (mant : Int) else (mant : Int)) (ex - (nfrac : Int)), cs3)

/-- The part of `parseNumber` after the sign. -/
def numBody (neg : Bool) (cs0 : List Char) : Except String (JsVal × List Char) :=
  match cs0 with
  | [] => .error unexpectedEnd
  | c :: r =>
    if !isDigit c then .error unexpectedToken
    else if c == '0' then numTail neg 0 r
    else numTail neg (takeDigits (c :: r) 0 0).1 (takeDigits (c :: r) 0 0).2.2

end Json

/-! ## Strings -/

/-- The method `String.prototype.toLowerCase`, as far as a comparison with an
ASCII case label can tell: the upper-case ASCII letters and the Kelvin sign
U+212A are the only characters whose lower-case form is ASCII; every other
character is kept, its lower-case form holding a non-ASCII character. -/
def jsToLower (s : String) : String :=
  String.mk (s.toList.map (fun c =>
    if 'A' ≤ c ∧ c ≤ 'Z' then Char.ofNat (c.toNat + 32)
    else if c = Char.ofNat 0x212A then 'k'
    else c))

/-- The method `text.includes(s)` on character lists. -/
def includesChars : List Char → List Char → Bool
  | [], s => s.isEmpty
  | c :: t, s => s.isPrefixOf (c :: t) || includesChars t s

/-- The method `text.includes(s)`. -/
def includes (text s : String) : Bool := includesChars text.toList s.toList

mutual
/-- JavaScript `ToString` on a JSON value; `numStr` is `Number::toString`. -/
def toStr (numStr : Int → Int → String) : JsVal → String
  | .undefined => "undefined"
  | .null => "null"
  | .bool true => "true"
  | .bool false => "false"
  | .num m e => numStr m e
  | .str s => s
  | .arr xs => joinElems numStr xs
  | .obj _ => "[object Object]"
/-- The method `Array.prototype.join` with the comma: `null` and `undefined`
elements are empty. -/
def joinElems (numStr : Int → Int → String) : List JsVal → String
  | [] => ""
  | x :: rest =>
    (match x with
      | .undefined => ""
      | .null => ""
      | y => toStr numStr y)
    ++ (match rest with
      | [] => ""
      | _ :: _ => "," ++ joinElems numStr rest)
end

/-- White space that `parseInt` skips (`StrWhiteSpaceChar`). -/
def isStrWhiteSpace (c : Char) : Bool :=
  let n := c.toNat
  n == 9 || n == 10 || n == 11 || n == 12 || n == 13 || n == 32 || n == 0xA0 || n == 0x1680
    || (0x2000 ≤ n && n ≤ 0x200A) || n == 0x2028 || n == 0x2029 || n == 0x202F
    || n == 0x205F || n == 0x3000 || n == 0xFEFF

/-- The value of the leading digits of the input in the given radix, and how
many there are. -/
def takeRadixDigits (radix : Nat) : List Char → Nat → Nat → Nat × Nat
  | [], acc, n => (acc, n)
  | c :: cs, acc, n =>
    match Json.hexVal c with
    | some d => if d < radix then takeRadixDigits radix cs (acc * radix + d) (n + 1) else (acc, n)
    | none => (acc, n)

/-- The function `parseInt(s)` with no radix argument; `none` is `NaN`.  The
result is the exact integer, which JavaScript rounds to a double. -/
def parseInt (s : String) : Option Int :=
  let cs := s.toList.dropWhile isStrWhiteSpace
  let (neg, cs1) := match cs with
    | '-' :: r => (true, r)
    | '+' :: r => (false, r)
    | _ => (false, cs)
  let (radix, cs2) := match cs1 with
    | '0' :: 'x' :: r => (16, r)
    | '0' :: 'X' :: r => (16, r)
    | _ => (10, cs1)
  let t := takeRadixDigits radix cs2 0 0
  if t.2 == 0 then none
  else some (if neg then - (t.1 : Int) else (t.1 : Int))

/-! ## Results -/

/-- One entry of `results` in `executeSteps`.  `timestamp` is the time value in
milliseconds of the `new Date()` whose ISO string the entry stores; the ISO
string of a date parses back to the same time value. -/
structure StepResult where
  step : Nat
  action : JsVal
  success : Bool
  result : Option String
  error : Option String
  timestamp : Int

/-- The object `executeSteps` returns. -/
structure ExecutionReport where
  totalSteps : Nat
  completedSteps : Nat
  failedSteps : Nat
  results : List StepResult
  duration : Int

/-- The object `generateTestSteps` returns. -/
structure Plan where
  steps : JsVal
  reasoning : JsVal
  model : JsVal
  rawResponse : JsVal

/-- The two objects `runTest` returns: `summary` and `errorSummary`. -/
inductive RunSummary where
  | summary (success : Bool) (description : String) (totalSteps completedSteps failedSteps : Nat)
      (duration : Int) (model reasoning : JsVal) (executionResults : List StepResult)
      (timestamp : Int) : RunSummary
  | errorSummary (description : String) (error : String) (steps : Nat) (duration : Int)
      (timestamp : Int) : RunSummary

/-- The field `success` of a run summary; `errorSummary` has `success: false`. -/
def RunSummary.success : RunSummary → Bool
  | .summary b _ _ _ _ _ _ _ _ _ => b
  | .errorSummary _ _ _ _ _ => false

/-- The field `description` of a run summary. -/
def RunSummary.description : RunSummary → String
  | .summary _ d _ _ _ _ _ _ _ _ => d
  | .errorSummary d _ _ _ _ => d

/-! ## The environment -/

/-- The three call sites of `takeScreenshot`: the `screenshot` action of
`executeStep`, the `catch` block of the loop, and the end of `executeSteps`. -/
inductive ShotOrigin where
  | stepAction
  | errorStep
  | finalResult
  deriving DecidableEq

/-- Commands sent to the environment. -/
inductive Cmd where
  | launch (headless slowMo : JsVal)
  | newPage
  | setViewportSize (width height : Nat)
  | goto (url : JsVal) (timeout : Nat)
  | waitForSelector (selector : JsVal) (timeout : Nat)
  | click (selector : JsVal)
  | fill (selector value : JsVal)
  | press (selector key : JsVal)
  | waitForTimeout (ms : JsVal)
  | scrollIntoViewIfNeeded (selector : JsVal)
  | scrollBy (x y : Int)
  | selectOption (selector value : JsVal)
  | hover (selector : JsVal)
  | textContent (selector : JsVal)
  | isVisible (selector : JsVal)
  | isEnabled (selector : JsVal)
  | screenshot (dir : String) (name : String) (time : Int)
  | browserClose
  | mkdir (dir : JsVal)
  | writeFile (dir : String) (time : Int) (summary : RunSummary)
  | generate (model : JsVal) (description : String) (baseUrl username password : JsVal)
  | delay (ms : Nat)

/-- What has happened so far: a command sent, a reading of the clock, or a call
of `takeScreenshot` with its call site and its name. -/
inductive Event where
  | cmd (c : Cmd)
  | now
  | shot (origin : ShotOrigin) (name : String)

/-- The environment: how each command sent after a given history turns out.
`run` is `none` when the promise is fulfilled and `some msg` when it is
rejected; the queries return their value or reject; `clock` is the time value
of `new Date()` and `Date.now()`; `generate` is the body `response.data` of the
HTTP response of the inference service, or the transport error. -/
structure Env where
  numToString : Int → Int → String
  run : List Event → Cmd → Option String
  textContent : List Event → JsVal → Except String (Option String)
  isVisible : List Event → JsVal → Except String Bool
  isEnabled : List Event → JsVal → Except String Bool
  clock : List Event → Int
  generate : List Event → Cmd → Except String JsVal

/-- The constructor options of `TestExecutor`, never assigned afterwards. -/
structure Options where
  headless : JsVal
  slowMo : JsVal
  screenshotDir : JsVal

/-- The defaults of the `TestExecutor` constructor. -/
def Options.default : Options :=
  { headless := .bool false, slowMo := .num 1000 0, screenshotDir := .str "./screenshots" }

/-- The mutable fields of a `TestExecutor` (`true` for a field that is not
`null`) and the history of events. -/
structure State where
  browser : Bool
  page : Bool
  trace : List Event

/-- A computation that reads and updates the state and returns or throws. -/
def M (α : Type) : Type := State → Except String α × State

namespace M

/-- Return a value. -/
def ret {α : Type} (a : α) : M α := fun s => (.ok a, s)

/-- Sequence two computations; an exception of the first skips the second. -/
def andThen {α β : Type} (m : M α) (f : α → M β) : M β := fun s =>
  match m s with
  | (.ok a, s1) => f a s1
  | (.error e, s1) => (.error e, s1)

/-- The statement `throw new Error(msg)`. -/
def raise {α : Type} (msg : String) : M α := fun s => (.error msg, s)

/-- The statement `try { m } catch (error) { h error.message }`. -/
def tryCatch {α : Type} (m : M α) (h : String → M α) : M α := fun s =>
  match m s with
  | (.ok a, s1) => (.ok a, s1)
  | (.error e, s1) => h e s1

/-- A pure expression that may throw. -/
def lift {α : Type} (x : Except String α) : M α := fun s => (x, s)

instance : Monad M where
  pure := ret
  bind := andThen

end M

/-- The expressions `new Date()` and `Date.now()`: the time value read, and the
state after the reading. -/
def clockRead (env : Env) (s : State) : Int × State :=
  (env.clock s.trace, { s with trace := s.trace ++ [.now] })

/-- The clock reading as a computation. -/
def now (env : Env) : M Int := fun s => (.ok (clockRead env s).1, (clockRead env s).2)

/-- Send a command and await it. -/
def send (env : Env) (c : Cmd) : M Unit := fun s =>
  let s1 := { s with trace := s.trace ++ [.cmd c] }
  match env.run s.trace c with
  | none => (.ok (), s1)
  | some msg => (.error msg, s1)

/-- A method call `this.page.method(...)`: a `TypeError` when `this.page` is
`null`. -/
def onPage {α : Type} (method : String) (m : M α) : M α := fun s =>
  if s.page then m s
  else (.error ("Cannot read properties of null (reading \x27" ++ method ++ "\x27)"), s)

/-- The statement `await new Promise(resolve => setTimeout(resolve, ms))`, which
cannot reject. -/
def sleep (ms : Nat) (s : State) : State :=
  { s with trace := s.trace ++ [.cmd (.delay ms)] }

/-- A query sent to the environment and awaited. -/
def query {α : Type} (c : Cmd) (answer : List Event → Except String α) : M α := fun s =>
  (answer s.trace, { s with trace := s.trace ++ [.cmd c] })

/-! ## `src/test-executor.js` -/

namespace TestExecutor

/-- The method `initialize` of the source: launch the browser, open a page, set
the viewport.  `this.browser` and `this.page` are assigned as soon as their
promise is fulfilled. -/
def initializeBrowser (env : Env) (cfg : Options) : M Unit := fun s =>
  match send env (.launch cfg.headless cfg.slowMo) s with
  | (.error e, s1) => (.error e, s1)
  | (.ok _, s1) =>
    match send env .newPage { s1 with browser := true } with
    | (.error e, s2) => (.error e, s2)
    | (.ok _, s2) => onPage "setViewportSize" (send env (.setViewportSize 1280 720)) { s2 with page := true }

/-- The call `path.join(dir, filename)`: a `TypeError` unless `dir` is a string. -/
def pathJoinDir : JsVal → Except String String
  | .str d => .ok d
  | _ => .error "The \"path\" argument must be of type string"

/-- The method `takeScreenshot(name)`: every exception is caught and logged, so
the call returns whatever happens.  `origin` records the call site. -/
def takeScreenshot (env : Env) (cfg : Options) (origin : ShotOrigin) (name : JsVal)
    (s : State) : State :=
  let label := toStr env.numToString name
  let body : M Unit := do
    send env (.mkdir cfg.screenshotDir)
    let t ← now env
    let dir ← M.lift (pathJoinDir cfg.screenshotDir)
    onPage "screenshot" (send env (.screenshot dir label t))
  (body { s with trace := s.trace ++ [.shot origin label] }).2

/-- The destructuring `const { ..., k, ... } = step`: a `TypeError` on
`undefined` and `null`. -/
def destructure (step : JsVal) (k : String) : Except String JsVal :=
  match step with
  | .undefined =>
    .error ("Cannot destructure property \x27" ++ k ++ "\x27 of \x27step\x27 as it is undefined.")
  | .null =>
    .error ("Cannot destructure property \x27" ++ k ++ "\x27 of \x27step\x27 as it is null.")
  | w => .ok (w.prop k)

/-- The method `executeVerification(step)`. -/
def executeVerification (env : Env) (step : JsVal) : M String := do
  let selector ← M.lift (destructure step "selector")
  let value ← M.lift (destructure step "value")
  let optionsField ← M.lift (destructure step "options")
  let options := if optionsField.isDefined then optionsField else JsVal.obj []
  let sel := toStr env.numToString selector
  let val := toStr env.numToString value
  M.tryCatch
    (do
      let text ← M.lift (options.get "text")
      if text.truthy then
        onPage "waitForSelector" (send env (.waitForSelector selector 5000))
        let content ← query (.textContent selector) (fun tr => env.textContent tr selector)
        match content with
        | none => M.raise "Cannot read properties of null (reading \x27includes\x27)"
        | some t =>
          if !includes t val then
            M.raise ("Texto esperado \x27" ++ val ++ "\x27 no encontrado en \x27" ++ t ++ "\x27")
          else pure ("Verificado texto \x27" ++ val ++ "\x27 en: " ++ sel)
      else
        let visible ← M.lift (options.get "visible")
        if visible.isDefined then
          let isVisible ← onPage "isVisible" (query (.isVisible selector) (fun tr => env.isVisible tr selector))
          if !visible.strictEqBool isVisible then
            M.raise ("Elemento " ++ sel ++ " debería estar "
              ++ (if visible.truthy then "visible" else "oculto"))
          else pure ("Verificado visibilidad de: " ++ sel)
        else
          let enabled ← M.lift (options.get "enabled")
          if enabled.isDefined then
            let isEnabled ← onPage "isEnabled" (query (.isEnabled selector) (fun tr => env.isEnabled tr selector))
            if !enabled.strictEqBool isEnabled then
              M.raise ("Elemento " ++ sel ++ " debería estar "
                ++ (if enabled.truthy then "habilitado" else "deshabilitado"))
            else pure ("Verificado estado de: " ++ sel)
          else
            onPage "waitForSelector" (send env (.waitForSelector selector 5000))
            pure ("Verificado elemento existe: " ++ sel))
    (fun msg => M.raise ("Verificación falló: " ++ msg))

/-- The binding `options = {}` of the destructuring in `executeVerification`,
on a step that is an object: the default applies to `undefined` only. -/
def optionsOf (step : JsVal) : JsVal :=
  if (step.prop "options").isDefined then step.prop "options" else JsVal.obj []

/-- The expression `action.toLowerCase()`: a `TypeError` unless `action` is a
string. -/
def actionToLowerCase : JsVal → Except String String
  | .str a => .ok (jsToLower a)
  | .undefined => .error "Cannot read properties of undefined (reading \x27toLowerCase\x27)"
  | .null => .error "Cannot read properties of null (reading \x27toLowerCase\x27)"
  | _ => .error "action.toLowerCase is not a function"

/-- The method `executeStep(step)`: the `switch` on the lower-cased action. -/
def executeStep (env : Env) (cfg : Options) (step : JsVal) : M String := do
  let action ← M.lift (destructure step "action")
  let selector ← M.lift (destructure step "selector")
  let value ← M.lift (destructure step "value")
  let sel := toStr env.numToString selector
  let val := toStr env.numToString value
  let kind ← M.lift (actionToLowerCase action)
  if kind = "navigate" ∨ kind = "goto" then
    onPage "goto" (send env (.goto (value.or selector) 30000))
    pure ("Navegado a: " ++ toStr env.numToString (value.or selector))
  else if kind = "click" then
    onPage "waitForSelector" (send env (.waitForSelector selector 10000))
    onPage "click" (send env (.click selector))
    pure ("Click en: " ++ sel)
  else if kind = "fill" ∨ kind = "type" then
    onPage "waitForSelector" (send env (.waitForSelector selector 10000))
    onPage "fill" (send env (.fill selector value))
    pure ("Llenado \x27" ++ val ++ "\x27 en: " ++ sel)
  else if kind = "press" then
    onPage "press" (send env (.press (selector.or (.str "body")) value))
    pure ("Presionado: " ++ val)
  else if kind = "wait" then
    if selector.truthy then
      onPage "waitForSelector" (send env (.waitForSelector selector 15000))
      pure ("Esperado elemento: " ++ sel)
    else
      let ms : JsVal := match parseInt val with
        | some n => JsVal.or (.num n 0) (.num 2000 0)
        | none => .num 2000 0
      onPage "waitForTimeout" (send env (.waitForTimeout ms))
      pure ("Esperado " ++ toStr env.numToString (value.or (.num 2000 0)) ++ "ms")
  else if kind = "screenshot" then
    let filename ← (if value.truthy then pure value
      else do
        let t ← now env
        pure (JsVal.str ("screenshot-" ++ toString t)))
    (fun s => (.ok (), takeScreenshot env cfg .stepAction filename s))
    pure ("Screenshot tomado: " ++ toStr env.numToString filename)
  else if kind = "scroll" then
    if selector.truthy then
      onPage "locator" (send env (.scrollIntoViewIfNeeded selector))
    else
      onPage "evaluate" (send env (.scrollBy 0 500))
    pure "Scroll realizado"
  else if kind = "verify" ∨ kind = "assert" then
    executeVerification env step
  else if kind = "select" then
    onPage "waitForSelector" (send env (.waitForSelector selector 10000))
    onPage "selectOption" (send env (.selectOption selector value))
    pure ("Seleccionado \x27" ++ val ++ "\x27 en: " ++ sel)
  else if kind = "hover" then
    onPage "waitForSelector" (send env (.waitForSelector selector 10000))
    onPage "hover" (send env (.hover selector))
    pure ("Hover en: " ++ sel)
  else
    M.raise ("Acción desconocida: " ++ toStr env.numToString action)

/-- The `case` labels of the `switch` of `executeStep`, grouped by the clause
they lead to. -/
def caseGroups : List (List String) :=
  [["navigate", "goto"], ["click"], ["fill", "type"], ["press"], ["wait"], ["screenshot"],
   ["scroll"], ["verify", "assert"], ["select"], ["hover"]]

/-- The `case` labels of the `switch` of `executeStep`. -/
def caseLabels : List String := caseGroups.flatten

/-- The entry pushed after `executeStep` returned. -/
def successResult (i : Nat) (action : JsVal) (result : String) (t : Int) : StepResult :=
  { step := i + 1, action := action, success := true, result := some result, error := none,
    timestamp := t }

/-- The entry pushed in the `catch` block. -/
def failureResult (i : Nat) (action : JsVal) (msg : String) (t : Int) : StepResult :=
  { step := i + 1, action := action, success := false, result := none, error := some msg,
    timestamp := t }

/-- The `catch` block of the loop of `executeSteps` at index `i`: the error
screenshot, the failed entry, and whether the loop breaks
(`step.critical !== false`). -/
def catchBlock (env : Env) (cfg : Options) (i : Nat) (step action : JsVal) (msg : String)
    (results : List StepResult) (s : State) : (List StepResult × Bool) × State :=
  let s1 := takeScreenshot env cfg .errorStep (.str ("error-step-" ++ toString (i + 1))) s
  let (t, s2) := clockRead env s1
  ((results ++ [failureResult i action msg t], !(step.prop "critical").isFalse), s2)

/-- The pause `if (this.options.slowMo && i < steps.length - 1) await
this.page.waitForTimeout(this.options.slowMo)`, inside the `try` block. -/
def pause (env : Env) (cfg : Options) (total i : Nat) : M Unit := fun s =>
  if cfg.slowMo.truthy && decide ((i : Int) < (total : Int) - 1) then
    onPage "waitForTimeout" (send env (.waitForTimeout cfg.slowMo)) s
  else (.ok (), s)

/-- One turn of the loop of `executeSteps` at index `i` of `total`: the read of
`step.action` before the `try` (an exception there leaves `executeSteps`), the
`try` block (the step, the pushed entry, the pause) and the `catch` block.  The
result is the `results` array after the turn and whether the loop breaks.  An
entry pushed in the `try` block stays when the pause after it throws. -/
def iteration (env : Env) (cfg : Options) (total i : Nat) (step : JsVal)
    (results : List StepResult) : M (List StepResult × Bool) := fun s =>
  match step.get "action" with
  | .error e => (.error e, s)
  | .ok action =>
    match executeStep env cfg step s with
    | (.ok result, s1) =>
      let (t, s2) := clockRead env s1
      let results1 := results ++ [successResult i action result t]
      match pause env cfg total i s2 with
      | (.ok _, s3) => (.ok (results1, false), s3)
      | (.error msg, s3) =>
        let (out, s4) := catchBlock env cfg i step action msg results1 s3
        (.ok out, s4)
    | (.error msg, s1) =>
      let (out, s2) := catchBlock env cfg i step action msg results s1
      (.ok out, s2)

/-- The loop `for (let i = 0; i < steps.length; i++)` of `executeSteps`, from
index `i` with the steps that remain. -/
def stepLoop (env : Env) (cfg : Options) (total : Nat) :
    List JsVal → Nat → List StepResult → M (List StepResult)
  | [], _, results => fun s => (.ok results, s)
  | step :: rest, i, results => fun s =>
    match iteration env cfg total i step results s with
    | (.error e, s1) => (.error e, s1)
    | (.ok (results1, true), s1) => (.ok results1, s1)
    | (.ok (results1, false), s1) => stepLoop env cfg total rest (i + 1) results1 s1

/-- The object returned by `executeSteps`. -/
def report (steps : List JsVal) (results : List StepResult) : ExecutionReport :=
  { totalSteps := steps.length
    completedSteps := (results.filter (fun r => r.success)).length
    failedSteps := (results.filter (fun r => !r.success)).length
    results := results
    duration :=
      match results.head?, results.getLast? with
      | some first, some last => last.timestamp - first.timestamp
      | _, _ => 0 }

/-- The statement `if (!this.browser) { await this.initialize(); }`. -/
def ensureBrowser (env : Env) (cfg : Options) : M Unit := fun s =>
  if !s.browser then initializeBrowser env cfg s else (.ok (), s)

/-- The method `executeSteps(steps)`. -/
def executeSteps (env : Env) (cfg : Options) (steps : List JsVal) : M ExecutionReport := fun s =>
  match ensureBrowser env cfg s with
  | (.error e, s1) => (.error e, s1)
  | (.ok _, s1) =>
    match stepLoop env cfg steps.length steps 0 [] s1 with
    | (.error e, s2) => (.error e, s2)
    | (.ok results, s2) =>
      (.ok (report steps results), takeScreenshot env cfg .finalResult (.str "final-result") s2)

/-- The method `close()`. -/
def close (env : Env) : M Unit := fun s =>
  if s.browser then
    match send env .browserClose s with
    | (.error e, s1) => (.error e, s1)
    | (.ok _, s1) => (.ok (), { s1 with browser := false, page := false })
  else (.ok (), s)

end TestExecutor

/-! ## `src/llm-client.js` -/

namespace LLMClient

/-- The greedy `[\s\S]*\}` from a position on: the longest run of characters
that ends in a closing brace. -/
def greedyToClose : List Char → Option (List Char)
  | [] => none
  | c :: rest =>
    match greedyToClose rest with
    | some m => some (c :: m)
    | none => if c = Json.rbrace then some [c] else none

/-- The match of `/\{[\s\S]*\}/`: at the leftmost position where the pattern
matches, the longest match. -/
def regexMatch : List Char → Option (List Char)
  | [] => none
  | c :: rest =>
    if c = Json.lbrace then
      match greedyToClose rest with
      | some m => some (c :: m)
      | none => regexMatch rest
    else regexMatch rest

/-- The two steps of both fallback objects; `label` is the screenshot name. -/
def fallbackSteps (label : String) : JsVal :=
  .arr [.obj [("action", .str "navigate"), ("value", .str "https://www.saucedemo.com")],
        .obj [("action", .str "screenshot"), ("value", .str label)]]

/-- The object returned when the response has no match. -/
def noJsonFallback : JsVal :=
  .obj [("steps", fallbackSteps "fallback-test"),
        ("reasoning", .str "Fallback: No se pudo parsear respuesta del LLM")]

/-- The object returned by the `catch` block. -/
def errorFallback (msg : String) : JsVal :=
  .obj [("steps", fallbackSteps "error-fallback"),
        ("reasoning", .str ("Error parsing: " ++ msg))]

/-- The `try` block of `parseJsonResponse(response)`; `parse` is `JSON.parse`.
A response that is not a string has no method `match`, a `TypeError`. -/
def parseJsonResponseTry (parse : String → Except String JsVal) (response : JsVal) :
    Except String JsVal :=
  match response with
  | .str text =>
    match regexMatch text.toList with
    | some jsonMatch => parse (String.mk jsonMatch)
    | none => .ok noJsonFallback
  | .undefined => .error "Cannot read properties of undefined (reading \x27match\x27)"
  | .null => .error "Cannot read properties of null (reading \x27match\x27)"
  | _ => .error "response.match is not a function"

/-- The method `parseJsonResponse(response)`: the `try` block, and the `catch`
block that returns the error fallback. -/
def parseJsonResponse (parse : String → Except String JsVal) (response : JsVal) :
    Except String JsVal :=
  match parseJsonResponseTry parse response with
  | .ok parsed => .ok parsed
  | .error msg => .ok (errorFallback msg)

/-- The request of `generateTestSteps`: the model and the values that
`buildPrompt` puts into the prompt.  `context.baseUrl` is a `TypeError` when
`context` is `null`; an `undefined` context is the default `{}`. -/
def buildPrompt (model : JsVal) (description : String) (context : JsVal) : Except String Cmd :=
  let ctx := if context.isDefined then context else JsVal.obj []
  match ctx.get "baseUrl" with
  | .error e => .error e
  | .ok baseUrl =>
    .ok (.generate model description
      (baseUrl.or (.str "https://www.saucedemo.com"))
      (((ctx.prop "credentials").prop "username").or (.str "standard_user"))
      (((ctx.prop "credentials").prop "password").or (.str "secret_sauce")))

/-- The method `generateTestSteps(description, context)`. -/
def generateTestSteps (env : Env) (parse : String → Except String JsVal) (model : JsVal)
    (description : String) (context : JsVal) : M Plan := fun s =>
  match buildPrompt model description context with
  | .error e => (.error e, s)
  | .ok request =>
    M.tryCatch
      (do
        let data ← query request (fun tr => env.generate tr request)
        let llmResponse ← M.lift (data.get "response")
        let parsed ← M.lift (parseJsonResponse parse llmResponse)
        let steps ← M.lift (parsed.get "steps")
        let reasoning ← M.lift (parsed.get "reasoning")
        pure { steps := steps.or (.arr []), reasoning := reasoning.or (.str "Test steps generated"),
               model := model, rawResponse := llmResponse })
      (fun msg => M.raise ("LLM Error: " ++ msg)) s

end LLMClient

/-! ## `src/test-runner.js` -/

namespace TestRunner

/-- What a `TestRunner` holds besides its executor: the executor options, the
option `saveResults`, the model of its `LLMClient`, and `JSON.parse`. -/
structure Runner where
  cfg : Options
  saveResults : JsVal
  model : JsVal
  parse : String → Except String JsVal

/-- The method `saveTestResults(summary)`: every exception is caught. -/
def saveTestResults (env : Env) (summary : RunSummary) (s : State) : State :=
  let body : M Unit := do
    send env (.mkdir (.str "./test-results"))
    let t ← now env
    send env (.writeFile "./test-results" t summary)
  (body s).2

/-- The callback of `steps.forEach` in `runTest`, which reads `step.action` of
every step in turn. -/
def logSteps : List JsVal → Except String Unit
  | [] => .ok ()
  | step :: rest =>
    match step.get "action" with
    | .error e => .error e
    | .ok _ => logSteps rest

/-- The `catch` block of `runTest`; `count` is `steps.length` at that time. -/
def catchBlock (env : Env) (r : Runner) (startTime : Int) (description : String)
    (msg : String) (count : Nat) (s : State) : RunSummary × State :=
  let (t1, s1) := clockRead env s
  let (t2, s2) := clockRead env s1
  let errorSummary := RunSummary.errorSummary description msg count (t1 - startTime) t2
  (errorSummary, if r.saveResults.truthy then saveTestResults env errorSummary s2 else s2)

/-- The `try` and `catch` blocks of `runTest`: the summary that `runTest` is
about to return when the `finally` block starts. -/
def tryCatchBlocks (env : Env) (r : Runner) (startTime : Int) (description : String)
    (context : JsVal) (s : State) : RunSummary × State :=
  match LLMClient.generateTestSteps env r.parse r.model description context s with
  | (.error msg, s1) => catchBlock env r startTime description msg 0 s1
  | (.ok llmResponse, s1) =>
    if !llmResponse.steps.truthy || !llmResponse.steps.isArray then
      catchBlock env r startTime description "LLM no generó pasos válidos" 0 s1
    else
      let steps := llmResponse.steps.elems
      match logSteps steps with
      | .error msg => catchBlock env r startTime description msg steps.length s1
      | .ok _ =>
        match TestExecutor.executeSteps env r.cfg steps s1 with
        | (.error msg, s2) => catchBlock env r startTime description msg steps.length s2
        | (.ok executionResults, s2) =>
          let success := executionResults.failedSteps == 0
          let (t1, s3) := clockRead env s2
          let (t2, s4) := clockRead env s3
          let summary := RunSummary.summary success description executionResults.totalSteps
            executionResults.completedSteps executionResults.failedSteps (t1 - startTime)
            llmResponse.model llmResponse.reasoning executionResults.results t2
          (summary, if r.saveResults.truthy then saveTestResults env summary s4 else s4)

/-- The method `runTest(description, context)`: the `finally` block closes the
executor, and an exception of `close` replaces the summary. -/
def runTest (env : Env) (r : Runner) (description : String) (context : JsVal) :
    M RunSummary := fun s =>
  let (startTime, s0) := clockRead env s
  let (summary, s1) := tryCatchBlocks env r startTime description context s0
  match TestExecutor.close env s1 with
  | (.error e, s2) => (.error e, s2)
  | (.ok _, s2) => (.ok summary, s2)

/-- The object `runMultipleTests` returns.  `successRate` is the quotient
`successful / results.length`, which JavaScript rounds to a double; `none` is the
`NaN` of `0 / 0`. -/
structure BatchSummary where
  totalTests : Nat
  successful : Nat
  failed : Int
  successRate : Option ℚ
  results : List RunSummary

/-- The loop of `runMultipleTests` from index `i` of `total`, with the
descriptions that remain: an exception of `runTest` leaves the loop. -/
def batchLoop (env : Env) (r : Runner) (context : JsVal) (total : Nat) :
    List String → Nat → List RunSummary → M (List RunSummary)
  | [], _, results => fun s => (.ok results, s)
  | description :: rest, i, results => fun s =>
    match runTest env r description context s with
    | (.error e, s1) => (.error e, s1)
    | (.ok result, s1) =>
      batchLoop env r context total rest (i + 1) (results ++ [result])
        (if (i : Int) < (total : Int) - 1 then sleep 3000 s1 else s1)

/-- The method `runMultipleTests(testDescriptions, globalContext)`. -/
def runMultipleTests (env : Env) (r : Runner) (testDescriptions : List String)
    (globalContext : JsVal) : M BatchSummary := fun s =>
  match batchLoop env r globalContext testDescriptions.length testDescriptions 0 [] s with
  | (.error e, s1) => (.error e, s1)
  | (.ok results, s1) =>
    let successful := (results.filter (fun x => x.success)).length
    (.ok { totalTests := results.length
           successful := successful
           failed := (results.length : Int) - (successful : Int)
           successRate :=
             if results.length = 0 then none else some ((successful : ℚ) / (results.length : ℚ))
           results := results }, s1)

end TestRunner

/-! ## Concrete environments for evaluation -/

namespace Demo

/-- Decimal rendering of integers, enough for the numbers of the examples. -/
def numToString (m e : Int) : String := if e = 0 then toString m else toString m ++ "e" ++ toString e

/-- An environment in which every command succeeds, every element is visible
and enabled and has no text, and the clock advances by one at each event. -/
def calm : Env :=
  { numToString := numToString
    run := fun _ _ => none
    textContent := fun _ _ => .ok (some "")
    isVisible := fun _ _ => .ok true
    isEnabled := fun _ _ => .ok true
    clock := fun tr => tr.length
    generate := fun _ _ => .error "connect ECONNREFUSED" }

/-- The state of a new `TestExecutor`. -/
def fresh : State := { browser := false, page := false, trace := [] }

def navigateStep : JsVal := .obj [("action", .str "navigate"), ("value", .str "https://x")]
def bogusStep : JsVal := .obj [("action", .str "dance")]

/-- The object of the scenario of the specification, as text. -/
def planText : String :=
  "\x7b\"reasoning\":\"ok\",\"steps\":[\x7b\"action\":\"navigate\",\"value\":\"https://x\"\x7d]\x7d"

/-- The object of the scenario of the specification. -/
def planObject : JsVal :=
  .obj [("reasoning", .str "ok"), ("steps", .arr [navigateStep])]

/-- The calm environment with an inference service that answers `text`. -/
def serviceSays (text : String) : Env :=
  { calm with generate := fun _ _ => .ok (.obj [("response", .str text)]) }

/-- A response with prose, the object, and prose that holds braces. -/
def proseWithBraces : String :=
  "Sure! Here you go: " ++ planText ++ " Replace \x7burl\x7d as needed."

/-- The calm environment with a wall clock that is set back by one millisecond
at every event. -/
def clockSetBack : Env :=
  { calm with clock := fun tr => 1000 - (tr.length : Int) }

/-- A runner with the default executor options that saves its results. -/
def runner : TestRunner.Runner :=
  { cfg := Options.default, saveResults := .bool true, model := .str "llama3", parse := Json.parse }

def closedMsg : String := "Target page, context or browser has been closed"

/-- The environment whose service answers the plan of the specification and
whose browser rejects `browser.close()`. -/
def closeRejects : Env :=
  { serviceSays planText with
    run := fun _ c => match c with
      | .browserClose => some closedMsg
      | _ => none }

/-- The pause of `executeSteps` under the default `slowMo` of 1000. -/
def isPause : Cmd → Bool
  | .waitForTimeout (.num 1000 0) => true
  | _ => false

/-- Whether the inter-step pause has been sent. -/
def pauseSent (tr : List Event) : Bool :=
  tr.any (fun ev => match ev with
    | .cmd c => isPause c
    | _ => false)

/-- An environment in which the browser window is closed while the first
inter-step pause is pending: that pause and every later browser command reject;
the file system keeps working. -/
def closedDuringPause : Env :=
  { numToString := numToString
    run := fun tr c =>
      match c with
      | .mkdir _ => none
      | .writeFile _ _ _ => none
      | _ => if isPause c || pauseSent tr then some closedMsg else none
    textContent := fun tr _ => if pauseSent tr then .error closedMsg else .ok (some "")
    isVisible := fun tr _ => if pauseSent tr then .error closedMsg else .ok true
    isEnabled := fun tr _ => if pauseSent tr then .error closedMsg else .ok true
    clock := fun tr => tr.length
    generate := fun _ _ => .error "connect ECONNREFUSED" }

/-- The step `{ action: "wait", value: "100", critical: false }`. -/
def softWaitStep : JsVal :=
  .obj [("action", .str "wait"), ("value", .str "100"), ("critical", .bool false)]

/-- The step `{ action: "click", selector: "#go", critical: false }`. -/
def softClickStep : JsVal :=
  .obj [("action", .str "click"), ("selector", .str "#go"), ("critical", .bool false)]

/-- The state of an executor whose session is open. -/
def ready : State := { browser := true, page := true, trace := [] }

/-- The step `navigateStep` with its action written `GoTo`. -/
def gotoStep : JsVal := .obj [("action", .str "GoTo"), ("value", .str "https://x")]

/-- The step `bogusStep` with its action written `Dance`. -/
def bogusStepCapital : JsVal := .obj [("action", .str "Dance")]

/-- The calm environment in which every element has the text `Swag Labs`. -/
def titled : Env :=
  { calm with textContent := fun _ _ => .ok (some "Swag Labs") }

/-- The text verification of `tests/test-quick.js`. -/
def textStep : JsVal :=
  .obj [("action", .str "verify"), ("selector", .str ".login_logo"), ("value", .str "Swag Labs"),
    ("options", .obj [("text", .bool true)])]

/-- The step `textStep` with `visible` and `enabled` set against the page. -/
def textHiddenStep : JsVal :=
  .obj [("action", .str "verify"), ("selector", .str ".login_logo"), ("value", .str "Swag Labs"),
    ("options", .obj [("text", .bool true), ("visible", .bool false), ("enabled", .bool false)])]

/-- A verification that expects the element to be hidden, with `enabled` set
as well. -/
def hiddenStep : JsVal :=
  .obj [("action", .str "verify"), ("selector", .str ".login_logo"),
    ("options", .obj [("visible", .bool false), ("enabled", .bool true)])]

/-- A verification that expects the element to be disabled. -/
def disabledStep : JsVal :=
  .obj [("action", .str "verify"), ("selector", .str ".login_logo"),
    ("options", .obj [("enabled", .bool false)])]

/-- A verification without options. -/
def presenceStep : JsVal :=
  .obj [("action", .str "verify"), ("selector", .str ".login_logo")]

/-- A verification whose expected text is in `options.text` and that has no
`value`. -/
def textInOptionsStep : JsVal :=
  .obj [("action", .str "verify"), ("selector", .str ".login_logo"),
    ("options", .obj [("text", .str "Swag")])]

/-- A verification whose `options.text` is not in the page and whose `value`
is. -/
def textFlagStep : JsVal :=
  .obj [("action", .str "verify"), ("selector", .str ".login_logo"), ("value", .str "Labs"),
    ("options", .obj [("text", .str "Sauce")])]

/-- A response that holds two objects, each of them valid. -/
def twoObjects : String := "\x7b\"steps\":[]\x7d \x7b\"steps\":[]\x7d"

/-- The step `{ action: "dance", critical: false }`. -/
def softBogusStep : JsVal := .obj [("action", .str "dance"), ("critical", .bool false)]

end Demo

/-- A command `page.waitForTimeout(...)`. -/
def Event.isWaitForTimeout : Event → Bool
  | .cmd (.waitForTimeout _) => true
  | _ => false

/-- The computation never throws an error with the message `msg`. -/
def Avoids {α : Type} (msg : String) (m : M α) : Prop :=
  ∀ s, (m s).1 ≠ .error msg

/-! ## How the operations change the state

Every operation leaves `browser` and `page` alone, except `initialize` and
`close`, and only appends events to the history. -/

/-- A call of `takeScreenshot` from the loop of `executeSteps` or from its end. -/
def Event.isLoopShot : Event → Bool
  | .shot .errorStep _ => true
  | .shot .finalResult _ => true
  | _ => false

/-- The names of the calls of `takeScreenshot` from the `catch` block of the loop,
in order. -/
def errorShots (evs : List Event) : List String :=
  evs.filterMap (fun ev => match ev with
    | .shot .errorStep name => some name
    | _ => none)

/-- The names of the calls of `takeScreenshot` from the end of `executeSteps`. -/
def finalShots (evs : List Event) : List String :=
  evs.filterMap (fun ev => match ev with
    | .shot .finalResult name => some name
    | _ => none)

/-- The timestamps of `results` do not decrease along the list, and none is
later than a reading of the clock after the history `tr` or a later one. -/
def Stamped (env : Env) (results : List StepResult) (tr : List Event) : Prop :=
  (∀ r ∈ results, ∀ ext, r.timestamp ≤ env.clock (tr ++ ext))
    ∧ results.Pairwise (fun a b => a.timestamp ≤ b.timestamp)

/-- The events that only the executor produces while it opens a session and
runs steps: the calls of `takeScreenshot` and the browser commands other than
`browser.close()`. -/
def Event.isExecution : Event → Bool
  | .shot _ _ => true
  | .now => false
  | .cmd (.generate _ _ _ _ _) => false
  | .cmd (.mkdir _) => false
  | .cmd (.writeFile _ _ _) => false
  | .cmd .browserClose => false
  | .cmd (.delay _) => false
  | .cmd _ => true

/-- A call of `takeScreenshot`, from any call site. -/
def Event.isShot : Event → Bool
  | .shot _ _ => true
  | _ => false

/-- The computation `m` leaves `browser` and `page` alone and appends to the
history only events that satisfy `P`. -/
structure Appends {α : Type} (P : Event → Prop) (m : M α) : Prop where
  frame : ∀ s, ∃ evs, (m s).2 = { s with trace := s.trace ++ evs } ∧ ∀ ev ∈ evs, P ev

namespace Appends

variable {α β : Type} {P : Event → Prop}

theorem nothing (m : M α) (h : ∀ s, (m s).2 = s) : Appends P m := by
  refine ⟨fun s => ⟨[], ?_, by simp⟩⟩
  rw [h s]
  simp

theorem pure (a : α) : Appends P (Pure.pure a : M α) :=
  nothing _ (fun _ => rfl)

theorem raise (msg : String) : Appends P (M.raise msg : M α) :=
  nothing _ (fun _ => rfl)

theorem lift (x : Except String α) : Appends P (M.lift x) :=
  nothing _ (fun _ => rfl)

theorem one (m : M α) (ev : Event) (hev : P ev)
    (h : ∀ s, (m s).2 = { s with trace := s.trace ++ [ev] }) : Appends P m :=
  ⟨fun s => ⟨[ev], h s, by simpa using hev⟩⟩

theorem send (env : Env) (c : Cmd) (h : P (.cmd c)) : Appends P (PlaywrightLLM.send env c) := by
  refine one _ (.cmd c) h (fun s => ?_)
  unfold PlaywrightLLM.send
  cases env.run s.trace c <;> rfl

theorem now (env : Env) (h : P .now) : Appends P (PlaywrightLLM.now env) :=
  one _ .now h (fun _ => rfl)

theorem query (c : Cmd) (answer : List Event → Except String α) (h : P (.cmd c)) :
    Appends P (PlaywrightLLM.query c answer) :=
  one _ (.cmd c) h (fun _ => rfl)

theorem onPage (method : String) (m : M α) (h : Appends P m) :
    Appends P (PlaywrightLLM.onPage method m) := by
  refine ⟨fun s => ?_⟩
  unfold PlaywrightLLM.onPage
  by_cases hp : s.page = true
  · simpa [hp] using h.frame s
  · refine ⟨[], ?_, by simp⟩
    rw [if_neg hp]
    simp

theorem bind (m : M α) (f : α → M β) (hm : Appends P m) (hf : ∀ a, Appends P (f a)) :
    Appends P (m >>= f) := by
  refine ⟨fun s => ?_⟩
  obtain ⟨evs, h1, hP1⟩ := hm.frame s
  show ∃ evs, (M.andThen m f s).2 = _ ∧ _
  unfold M.andThen
  rcases hms : m s with ⟨r, s1⟩
  rw [hms] at h1
  simp only at h1
  subst h1
  cases r with
  | error e => exact ⟨evs, rfl, hP1⟩
  | ok a =>
    obtain ⟨evs2, h2, hP2⟩ := (hf a).frame { s with trace := s.trace ++ evs }
    refine ⟨evs ++ evs2, ?_, ?_⟩
    · simp only [h2, List.append_assoc]
    · intro ev hev
      rcases List.mem_append.mp hev with h | h
      · exact hP1 ev h
      · exact hP2 ev h

theorem tryCatch (m : M α) (f : String → M α) (hm : Appends P m) (hf : ∀ e, Appends P (f e)) :
    Appends P (M.tryCatch m f) := by
  refine ⟨fun s => ?_⟩
  obtain ⟨evs, h1, hP1⟩ := hm.frame s
  unfold M.tryCatch
  rcases hms : m s with ⟨r, s1⟩
  rw [hms] at h1
  simp only at h1
  subst h1
  cases r with
  | ok a => exact ⟨evs, rfl, hP1⟩
  | error e =>
    obtain ⟨evs2, h2, hP2⟩ := (hf e).frame { s with trace := s.trace ++ evs }
    refine ⟨evs ++ evs2, ?_, ?_⟩
    · simp only [h2, List.append_assoc]
    · intro ev hev
      rcases List.mem_append.mp hev with h | h
      · exact hP1 ev h
      · exact hP2 ev h

theorem ite (c : Prop) [Decidable c] (a b : M α) (ha : Appends P a) (hb : Appends P b) :
    Appends P (if c then a else b) := by
  split
  · exact ha
  · exact hb

theorem weaken {Q : Event → Prop} (m : M α) (h : Appends P m) (hPQ : ∀ ev, P ev → Q ev) :
    Appends Q m := by
  refine ⟨fun s => ?_⟩
  obtain ⟨evs, h1, hP1⟩ := h.frame s
  exact ⟨evs, h1, fun ev hev => hPQ ev (hP1 ev hev)⟩

end Appends

namespace TestExecutor

/-- What `takeScreenshot` does to the state: one call marker, then commands and
clock readings. -/
theorem takeScreenshot_eq (env : Env) (cfg : Options) (origin : ShotOrigin) (name : JsVal)
    (s : State) :
    ∃ evs, takeScreenshot env cfg origin name s
        = { s with trace := s.trace ++ (.shot origin (toStr env.numToString name) :: evs) }
      ∧ ∀ ev ∈ evs, ev.isShot = false := by
  have h : Appends (fun ev => ev.isShot = false)
      (do
        send env (.mkdir cfg.screenshotDir)
        let t ← now env
        let dir ← M.lift (pathJoinDir cfg.screenshotDir)
        onPage "screenshot" (send env (.screenshot dir (toStr env.numToString name) t)) : M Unit) := by
    repeat (first
      | refine Appends.bind _ _ ?_ ?_
      | exact Appends.send _ _ rfl
      | exact Appends.now _ rfl
      | exact Appends.lift _
      | refine Appends.onPage _ _ ?_
      | intro _)
  obtain ⟨evs, h1, h2⟩ :=
    h.frame { s with trace := s.trace ++ [.shot origin (toStr env.numToString name)] }
  refine ⟨evs, ?_, h2⟩
  unfold takeScreenshot
  simp only [h1, List.append_assoc, List.singleton_append]

theorem takeScreenshot_appends (env : Env) (cfg : Options) (name : JsVal) :
    Appends (fun ev => ev.isLoopShot = false)
      (fun s => (.ok (), takeScreenshot env cfg .stepAction name s) : M Unit) := by
  refine ⟨fun s => ?_⟩
  obtain ⟨evs, h1, h2⟩ := takeScreenshot_eq env cfg .stepAction name s
  refine ⟨_, h1, ?_⟩
  intro ev hev
  rcases List.mem_cons.mp hev with h | h
  · subst h; rfl
  · have := h2 ev h
    cases ev <;> simp_all [Event.isShot, Event.isLoopShot]

theorem executeVerification_appends (env : Env) (step : JsVal) :
    Appends (fun ev => ev.isLoopShot = false) (executeVerification env step) := by
  unfold executeVerification
  repeat (first
    | refine Appends.bind _ _ ?_ ?_
    | refine Appends.tryCatch _ _ ?_ ?_
    | exact Appends.send _ _ rfl
    | exact Appends.now _ rfl
    | exact Appends.query _ _ rfl
    | exact Appends.lift _
    | exact Appends.raise _
    | exact Appends.pure _
    | refine Appends.onPage _ _ ?_
    | refine Appends.ite _ _ _ ?_ ?_
    | intro _
    | split
    | dsimp only)

theorem executeStep_appends (env : Env) (cfg : Options) (step : JsVal) :
    Appends (fun ev => ev.isLoopShot = false) (executeStep env cfg step) := by
  unfold executeStep
  repeat (first
    | exact executeVerification_appends _ _
    | exact takeScreenshot_appends _ _ _
    | refine Appends.bind _ _ ?_ ?_
    | exact Appends.send _ _ rfl
    | exact Appends.now _ rfl
    | exact Appends.lift _
    | exact Appends.raise _
    | exact Appends.pure _
    | refine Appends.onPage _ _ ?_
    | refine Appends.ite _ _ _ ?_ ?_
    | intro _
    | split
    | dsimp only)

theorem pause_appends (env : Env) (cfg : Options) (total i : Nat) :
    Appends (fun ev => ev.isShot = false) (pause env cfg total i) := by
  refine ⟨fun s => ?_⟩
  unfold pause
  split
  · exact (Appends.onPage (P := fun ev => ev.isShot = false) _ _
      (Appends.send _ _ rfl)).frame s
  · exact ⟨[], by simp, by simp⟩

/-- The outcomes of one turn of the loop that do not leave `executeSteps`: the
step and the pause succeed; the step succeeds and the pause throws; the step
throws. -/
theorem iteration_cases {env : Env} {cfg : Options} {total i : Nat} {step : JsVal}
    {results : List StepResult} {s s1 : State} {out : List StepResult × Bool}
    (h : iteration env cfg total i step results s = (.ok out, s1)) :
    ∃ action, step.get "action" = .ok action ∧
      ((∃ result sa, executeStep env cfg step s = (.ok result, sa)
          ∧ pause env cfg total i (clockRead env sa).2 = (.ok (), s1)
          ∧ out = (results ++ [successResult i action result (clockRead env sa).1], false))
      ∨ (∃ result sa msg sb, executeStep env cfg step s = (.ok result, sa)
          ∧ pause env cfg total i (clockRead env sa).2 = (.error msg, sb)
          ∧ (out, s1) = catchBlock env cfg i step action msg
              (results ++ [successResult i action result (clockRead env sa).1]) sb)
      ∨ (∃ msg sa, executeStep env cfg step s = (.error msg, sa)
          ∧ (out, s1) = catchBlock env cfg i step action msg results sa)) := by
  unfold iteration at h
  cases hact : step.get "action" with
  | error e => simp [hact] at h
  | ok action =>
    refine ⟨action, rfl, ?_⟩
    simp only [hact] at h
    rcases hex : executeStep env cfg step s with ⟨r, sa⟩
    rw [hex] at h
    cases r with
    | error msg =>
      right; right
      refine ⟨msg, sa, rfl, ?_⟩
      simp only [Prod.mk.injEq, Except.ok.injEq] at h
      exact Prod.ext h.1.symm h.2.symm
    | ok result =>
      simp only at h
      rcases hp : pause env cfg total i (clockRead env sa).2 with ⟨r2, sb⟩
      rw [hp] at h
      cases r2 with
      | ok u =>
        left
        simp only [Prod.mk.injEq, Except.ok.injEq] at h
        refine ⟨result, sa, rfl, ?_, h.1.symm⟩
        rw [← h.2]
        exact hp
      | error msg =>
        right; left
        simp only [Prod.mk.injEq, Except.ok.injEq] at h
        exact ⟨result, sa, msg, sb, rfl, hp, Prod.ext h.1.symm h.2.symm⟩

theorem catchBlock_fst (env : Env) (cfg : Options) (i : Nat) (step action : JsVal)
    (msg : String) (results : List StepResult) (s : State) :
    ∃ t, (catchBlock env cfg i step action msg results s).1
      = (results ++ [failureResult i action msg t], !(step.prop "critical").isFalse) :=
  ⟨_, rfl⟩

/-- An invariant of the `results` array and the state that every turn keeps
holds when the loop ends. -/
theorem stepLoop_inv (env : Env) (cfg : Options) (total : Nat)
    (Inv : List StepResult → State → Prop)
    (hiter : ∀ i step results s out s1, Inv results s →
      iteration env cfg total i step results s = (.ok out, s1) → Inv out.1 s1) :
    ∀ (steps : List JsVal) (i : Nat) (results : List StepResult) (s : State)
      (rs : List StepResult) (s1 : State),
      Inv results s → stepLoop env cfg total steps i results s = (.ok rs, s1) → Inv rs s1 := by
  intro steps
  induction steps with
  | nil =>
    intro i results s rs s1 hinv h
    simp only [stepLoop, Prod.mk.injEq, Except.ok.injEq] at h
    rw [← h.1, ← h.2]
    exact hinv
  | cons step rest ih =>
    intro i results s rs s1 hinv h
    unfold stepLoop at h
    rcases hit : iteration env cfg total i step results s with ⟨r, s2⟩
    rw [hit] at h
    cases r with
    | error e => simp at h
    | ok out =>
      obtain ⟨results1, brk⟩ := out
      have hinv1 := hiter i step results s _ _ hinv hit
      cases brk with
      | true =>
        simp only [Prod.mk.injEq, Except.ok.injEq] at h
        rw [← h.1, ← h.2]
        exact hinv1
      | false => exact ih (i + 1) results1 s2 rs s1 hinv1 h

/-- The loop only adds entries to `results`. -/
theorem stepLoop_extends (env : Env) (cfg : Options) (total : Nat) (steps : List JsVal) (i : Nat)
    (results : List StepResult) (s : State) (rs : List StepResult) (s1 : State)
    (h : stepLoop env cfg total steps i results s = (.ok rs, s1)) :
    ∃ ext, rs = results ++ ext := by
  refine stepLoop_inv env cfg total (fun rs _ => ∃ ext, rs = results ++ ext) ?_ steps i results s
    rs s1 ⟨[], by simp⟩ h
  intro i step res s out s1 hinv hit
  obtain ⟨ext, hext⟩ := hinv
  obtain ⟨action, -, hc⟩ := iteration_cases hit
  rcases hc with ⟨result, sa, -, -, hout⟩ | ⟨result, sa, msg, sb, -, -, hout⟩ | ⟨msg, sa, -, hout⟩
  · exact ⟨ext ++ [_], by rw [hout, hext, List.append_assoc]⟩
  · obtain ⟨t, ht⟩ := catchBlock_fst env cfg i step action msg
      (res ++ [successResult i action result (clockRead env sa).1]) sb
    rw [← hout] at ht
    have ho : out = (_, _) := ht
    exact ⟨ext ++ [successResult i action result (clockRead env sa).1,
      failureResult i action msg t], by rw [ho, hext]; simp only [List.append_assoc,
      List.cons_append, List.nil_append]⟩
  · obtain ⟨t, ht⟩ := catchBlock_fst env cfg i step action msg res sa
    rw [← hout] at ht
    have ho : out = (_, _) := ht
    exact ⟨ext ++ [failureResult i action msg t], by
      rw [ho, hext]
      simp only [List.append_assoc]⟩

/-- A run of the loop over the steps `pre` that records only successes does not
break, pushes one entry per step, and is the start of the run over `pre ++ rest`. -/
theorem stepLoop_all_success (env : Env) (cfg : Options) (total : Nat) (rest : List JsVal) :
    ∀ (pre : List JsVal) (i : Nat) (acc : List StepResult) (s : State) (rs : List StepResult)
      (sk : State),
      stepLoop env cfg total pre i acc s = (.ok rs, sk) → (∀ r ∈ rs, r.success = true) →
      stepLoop env cfg total (pre ++ rest) i acc s = stepLoop env cfg total rest (i + pre.length) rs sk
        ∧ ∃ ext, rs = acc ++ ext ∧ ext.map (fun x => x.step) = List.range' (i + 1) pre.length := by
  intro pre
  induction pre with
  | nil =>
    intro i acc s rs sk h _
    simp only [stepLoop, Prod.mk.injEq, Except.ok.injEq] at h
    rw [← h.1, ← h.2]
    exact ⟨by simp, [], by simp⟩
  | cons step pre ih =>
    intro i acc s rs sk h hall
    have h0 := h
    unfold stepLoop at h
    rcases hit : iteration env cfg total i step acc s with ⟨r, s2⟩
    rw [hit] at h
    cases r with
    | error e => simp at h
    | ok out =>
      obtain ⟨results1, brk⟩ := out
      obtain ⟨action, -, hc⟩ := iteration_cases hit
      have hsub : ∃ ext, rs = results1 ++ ext := by
        cases brk with
        | true =>
          simp only [Prod.mk.injEq, Except.ok.injEq] at h
          exact ⟨[], by simp [h.1]⟩
        | false => exact stepLoop_extends env cfg total pre (i + 1) results1 s2 rs sk h
      obtain ⟨ext1, hext1⟩ := hsub
      have hno : ∀ x msg t, results1 = x ++ [failureResult i action msg t] → False := by
        intro x msg t hx
        have hmem : failureResult i action msg t ∈ rs := by
          rw [hext1, hx]; simp
        have := hall _ hmem
        simp [failureResult] at this
      rcases hc with ⟨result, sa, -, -, hout⟩ | ⟨result, sa, msg, sb, -, -, hout⟩ | ⟨msg, sa, -, hout⟩
      · simp only [Prod.mk.injEq] at hout
        obtain ⟨hres, hbrk⟩ := hout
        subst hbrk
        simp only at h
        obtain ⟨hrun, ext, hext, hsteps⟩ := ih (i + 1) results1 s2 rs sk h hall
        refine ⟨?_, [successResult i action result (clockRead env sa).1] ++ ext, ?_, ?_⟩
        · rw [List.cons_append]
          conv_lhs => unfold stepLoop
          rw [hit]
          simp only [hrun, List.length_cons]
          congr 1
          omega
        · rw [hext, hres, List.append_assoc]
        · simp only [List.singleton_append, List.map_cons, hsteps, List.length_cons, successResult]
          rw [List.range'_succ]
      · exfalso
        obtain ⟨t, ht⟩ := catchBlock_fst env cfg i step action msg
          (acc ++ [successResult i action result (clockRead env sa).1]) sb
        rw [← hout] at ht
        simp only [Prod.mk.injEq] at ht
        exact hno _ _ _ ht.1
      · exfalso
        obtain ⟨t, ht⟩ := catchBlock_fst env cfg i step action msg acc sa
        rw [← hout] at ht
        simp only [Prod.mk.injEq] at ht
        exact hno _ _ _ ht.1

theorem get_of_not_nullish (v : JsVal) (k : String) (h : v.nullish = false) :
    v.get k = .ok (v.prop k) := by
  cases v <;> simp_all [JsVal.nullish, JsVal.get]

theorem iteration_returns (env : Env) (cfg : Options) (total i : Nat) (step : JsVal)
    (results : List StepResult) (s : State) (h : step.nullish = false) :
    ∃ out s1, iteration env cfg total i step results s = (.ok out, s1) := by
  unfold iteration
  rw [get_of_not_nullish step "action" h]
  simp only
  rcases executeStep env cfg step s with ⟨r, sa⟩
  cases r with
  | error msg => exact ⟨_, _, rfl⟩
  | ok result =>
    simp only
    rcases pause env cfg total i (clockRead env sa).2 with ⟨r2, sb⟩
    cases r2 with
    | ok u => exact ⟨_, _, rfl⟩
    | error msg => exact ⟨_, _, rfl⟩

theorem stepLoop_returns (env : Env) (cfg : Options) (total : Nat) :
    ∀ (steps : List JsVal) (i : Nat) (results : List StepResult) (s : State),
      (∀ step ∈ steps, step.nullish = false) →
      ∃ rs s1, stepLoop env cfg total steps i results s = (.ok rs, s1) := by
  intro steps
  induction steps with
  | nil => intro i results s _; exact ⟨_, _, rfl⟩
  | cons step rest ih =>
    intro i results s h
    obtain ⟨out, s1, hit⟩ := iteration_returns env cfg total i step results s
      (h step (by simp))
    obtain ⟨results1, brk⟩ := out
    unfold stepLoop
    rw [hit]
    cases brk with
    | true => exact ⟨_, _, rfl⟩
    | false => exact ih (i + 1) results1 s1 (fun st hst => h st (by simp [hst]))

/-- With an open session, or one that opens, and a plan whose steps are neither
`null` nor `undefined`, `executeSteps` returns a report. -/
theorem executeSteps_returns (env : Env) (cfg : Options) (steps : List JsVal) (s s1 : State)
    (hready : ensureBrowser env cfg s = (.ok (), s1))
    (hsteps : ∀ step ∈ steps, step.nullish = false) :
    ∃ r s2, executeSteps env cfg steps s = (.ok r, s2) := by
  obtain ⟨rs, s2, h⟩ := stepLoop_returns env cfg steps.length steps 0 [] s1 hsteps
  unfold executeSteps
  rw [hready]
  simp only [h]
  exact ⟨_, _, rfl⟩

/-- What `executeSteps` returns, in terms of the loop. -/
theorem executeSteps_ok {env : Env} {cfg : Options} {steps : List JsVal} {s s2 : State}
    {r : ExecutionReport} (h : executeSteps env cfg steps s = (.ok r, s2)) :
    ∃ s0 rs s1, ensureBrowser env cfg s = (.ok (), s0)
      ∧ stepLoop env cfg steps.length steps 0 [] s0 = (.ok rs, s1)
      ∧ r = report steps rs
      ∧ s2 = takeScreenshot env cfg .finalResult (.str "final-result") s1 := by
  unfold executeSteps at h
  rcases he : ensureBrowser env cfg s with ⟨r0, s0⟩
  rw [he] at h
  cases r0 with
  | error e => simp at h
  | ok u =>
    simp only at h
    rcases hl : stepLoop env cfg steps.length steps 0 [] s0 with ⟨r1, s1⟩
    rw [hl] at h
    cases r1 with
    | error e => simp at h
    | ok rs =>
      simp only [Prod.mk.injEq, Except.ok.injEq] at h
      exact ⟨s0, rs, s1, rfl, hl, h.1.symm, h.2.symm⟩

/-- The name that the `catch` block of the loop gives its screenshot. -/
theorem toStr_str (numStr : Int → Int → String) (x : String) : toStr numStr (.str x) = x := by
  simp [toStr]

/-- The `catch` block of the loop: the call of `takeScreenshot`, its commands,
the clock reading; one failed entry with that reading. -/
theorem catchBlock_eq (env : Env) (cfg : Options) (i : Nat) (step action : JsVal)
    (msg : String) (results : List StepResult) (s : State) :
    ∃ evs, (∀ ev ∈ evs, ev.isShot = false)
      ∧ catchBlock env cfg i step action msg results s
        = ((results ++ [failureResult i action msg
              (env.clock (s.trace ++ .shot .errorStep ("error-step-" ++ toString (i + 1)) :: evs))],
            !(step.prop "critical").isFalse),
          { s with trace := s.trace
              ++ (.shot .errorStep ("error-step-" ++ toString (i + 1)) :: evs ++ [.now]) }) := by
  obtain ⟨evs, h1, h2⟩ := takeScreenshot_eq env cfg .errorStep
    (.str ("error-step-" ++ toString (i + 1))) s
  rw [toStr_str] at h1
  refine ⟨evs, h2, ?_⟩
  unfold catchBlock
  simp only [h1, clockRead, List.append_assoc, List.cons_append]

theorem ensureBrowser_trace (env : Env) (cfg : Options) (s : State) :
    ∃ evs, (ensureBrowser env cfg s).2.trace = s.trace ++ evs ∧ ∀ ev ∈ evs, ev.isShot = false := by
  unfold ensureBrowser
  by_cases hb : s.browser = true
  · simp only [hb, Bool.not_true, Bool.false_eq_true, if_false]
    exact ⟨[], by simp, by simp⟩
  · have hb2 : s.browser = false := by simpa using hb
    simp only [hb2, Bool.not_false, if_true]
    unfold initializeBrowser send onPage
    cases env.run s.trace (.launch cfg.headless cfg.slowMo) with
    | some e => exact ⟨[.cmd (.launch cfg.headless cfg.slowMo)], rfl, by simp [Event.isShot]⟩
    | none =>
      simp only
      cases env.run (s.trace ++ [Event.cmd (.launch cfg.headless cfg.slowMo)]) .newPage with
      | some e =>
        exact ⟨[.cmd (.launch cfg.headless cfg.slowMo), .cmd .newPage], by simp,
          by simp [Event.isShot]⟩
      | none =>
        simp only [if_true]
        cases env.run (s.trace ++ [Event.cmd (.launch cfg.headless cfg.slowMo)]
            ++ [Event.cmd .newPage]) (.setViewportSize 1280 720) with
        | some e =>
          exact ⟨[.cmd (.launch cfg.headless cfg.slowMo), .cmd .newPage,
            .cmd (.setViewportSize 1280 720)], by simp, by simp [Event.isShot]⟩
        | none =>
          exact ⟨[.cmd (.launch cfg.headless cfg.slowMo), .cmd .newPage,
            .cmd (.setViewportSize 1280 720)], by simp, by simp [Event.isShot]⟩

theorem Stamped.push {env : Env} (hmono : ∀ tr ext, env.clock tr ≤ env.clock (tr ++ ext))
    {results : List StepResult} {tr : List Event} (h : Stamped env results tr)
    (evs more : List Event) (x : StepResult) (hx : x.timestamp = env.clock (tr ++ evs)) :
    Stamped env (results ++ [x]) (tr ++ evs ++ .now :: more) := by
  obtain ⟨hb, hp⟩ := h
  refine ⟨?_, ?_⟩
  · intro r hr ext
    rcases List.mem_append.mp hr with h1 | h1
    · have := hb r h1 (evs ++ .now :: more ++ ext)
      simpa [List.append_assoc] using this
    · simp only [List.mem_singleton] at h1
      subst h1
      rw [hx]
      have := hmono (tr ++ evs) (.now :: more ++ ext)
      simpa [List.append_assoc] using this
  · rw [List.pairwise_append]
    refine ⟨hp, List.pairwise_singleton _ _, ?_⟩
    intro a ha b hb2
    simp only [List.mem_singleton] at hb2
    subst hb2
    rw [hx]
    have := hb a ha evs
    exact this

theorem Stamped.extend {env : Env} {results : List StepResult} {tr : List Event}
    (h : Stamped env results tr) (evs : List Event) : Stamped env results (tr ++ evs) := by
  refine ⟨fun r hr ext => ?_, h.2⟩
  have := h.1 r hr (evs ++ ext)
  simpa [List.append_assoc] using this

theorem executeStep_state {env : Env} {cfg : Options} {step : JsVal} {s sa : State}
    {r : Except String String} (h : executeStep env cfg step s = (r, sa)) :
    ∃ evs, sa = { s with trace := s.trace ++ evs } ∧ ∀ ev ∈ evs, ev.isLoopShot = false := by
  obtain ⟨evs, h1, h2⟩ := (executeStep_appends env cfg step).frame s
  rw [h] at h1
  exact ⟨evs, h1, h2⟩

theorem pause_state {env : Env} {cfg : Options} {total i : Nat} {s sa : State}
    {r : Except String Unit} (h : pause env cfg total i s = (r, sa)) :
    ∃ evs, sa = { s with trace := s.trace ++ evs } ∧ ∀ ev ∈ evs, ev.isShot = false := by
  obtain ⟨evs, h1, h2⟩ := (pause_appends env cfg total i).frame s
  rw [h] at h1
  exact ⟨evs, h1, h2⟩

/-- Under a clock that is never set back, every turn of the loop keeps the
timestamps in order. -/
theorem iteration_stamped {env : Env} (hmono : ∀ tr ext, env.clock tr ≤ env.clock (tr ++ ext))
    (cfg : Options) (total i : Nat) (step : JsVal) (results : List StepResult) (s : State)
    (out : List StepResult × Bool) (s1 : State) (hinv : Stamped env results s.trace)
    (hit : iteration env cfg total i step results s = (.ok out, s1)) :
    Stamped env out.1 s1.trace := by
  obtain ⟨action, -, hc⟩ := iteration_cases hit
  rcases hc with ⟨result, sa, hex, hp, hout⟩ | ⟨result, sa, msg, sb, hex, hp, hout⟩
    | ⟨msg, sa, hex, hout⟩
  · obtain ⟨e1, hsa, -⟩ := executeStep_state hex
    obtain ⟨e2, hs1, -⟩ := pause_state hp
    subst hsa
    subst hs1
    rw [hout]
    simp only [clockRead]
    have := Stamped.push hmono hinv e1 e2 (successResult i action result
      (env.clock (s.trace ++ e1))) rfl
    simpa [List.append_assoc] using this
  · obtain ⟨e1, hsa, -⟩ := executeStep_state hex
    obtain ⟨e2, hsb, -⟩ := pause_state hp
    subst hsa
    subst hsb
    simp only [clockRead] at hout
    obtain ⟨e3, -, hcb⟩ := catchBlock_eq env cfg i step action msg
      (results ++ [successResult i action result (env.clock (s.trace ++ e1))])
      { browser := s.browser, page := s.page, trace := s.trace ++ e1 ++ [.now] ++ e2 }
    rw [hcb] at hout
    simp only [Prod.mk.injEq] at hout
    obtain ⟨ho, hs⟩ := hout
    subst ho
    subst hs
    have h1 := Stamped.push hmono hinv e1 e2 (successResult i action result
      (env.clock (s.trace ++ e1))) rfl
    have h2 := Stamped.push hmono h1
      (.shot .errorStep ("error-step-" ++ toString (i + 1)) :: e3) []
      (failureResult i action msg (env.clock (s.trace ++ e1 ++ [.now] ++ e2
        ++ .shot .errorStep ("error-step-" ++ toString (i + 1)) :: e3)))
      (by simp [failureResult, List.append_assoc])
    simpa [List.append_assoc] using h2
  · obtain ⟨e1, hsa, -⟩ := executeStep_state hex
    subst hsa
    obtain ⟨e3, -, hcb⟩ := catchBlock_eq env cfg i step action msg results
      { browser := s.browser, page := s.page, trace := s.trace ++ e1 }
    rw [hcb] at hout
    simp only [Prod.mk.injEq] at hout
    obtain ⟨ho, hs⟩ := hout
    subst ho
    subst hs
    have h2 := Stamped.push hmono hinv
      (e1 ++ .shot .errorStep ("error-step-" ++ toString (i + 1)) :: e3) []
      (failureResult i action msg (env.clock (s.trace ++ e1
        ++ .shot .errorStep ("error-step-" ++ toString (i + 1)) :: e3)))
      (by simp [failureResult, List.append_assoc])
    simpa [List.append_assoc] using h2

theorem pairwise_head_le_last (l : List StepResult)
    (hp : l.Pairwise (fun a b => a.timestamp ≤ b.timestamp)) (a b : StepResult)
    (ha : l.head? = some a) (hb : l.getLast? = some b) : a.timestamp ≤ b.timestamp := by
  cases l with
  | nil => simp at ha
  | cons x t =>
    simp only [List.head?_cons, Option.some.injEq] at ha
    subst ha
    cases t with
    | nil =>
      simp only [List.getLast?_singleton, Option.some.injEq] at hb
      subst hb
      exact le_refl _
    | cons y t =>
      have hmem : b ∈ y :: t := by
        have : (y :: t).getLast? = some b := by
          rw [List.getLast?_cons_cons] at hb
          exact hb
        exact List.mem_of_getLast?_eq_some this
      exact List.rel_of_pairwise_cons hp hmem

end TestExecutor

theorem errorShots_append (a b : List Event) : errorShots (a ++ b) = errorShots a ++ errorShots b := by
  simp [errorShots, List.filterMap_append]

theorem finalShots_append (a b : List Event) : finalShots (a ++ b) = finalShots a ++ finalShots b := by
  simp [finalShots, List.filterMap_append]

theorem errorShots_quiet (evs : List Event) (h : ∀ ev ∈ evs, ev.isLoopShot = false) :
    errorShots evs = [] := by
  induction evs with
  | nil => rfl
  | cons ev evs ih =>
    have h1 := h ev (by simp)
    have h2 := ih (fun e he => h e (by simp [he]))
    unfold errorShots at h2 ⊢
    rw [List.filterMap_cons, h2]
    cases ev with
    | shot origin name => cases origin <;> simp_all [Event.isLoopShot]
    | cmd c => rfl
    | now => rfl

theorem finalShots_quiet (evs : List Event) (h : ∀ ev ∈ evs, ev.isLoopShot = false) :
    finalShots evs = [] := by
  induction evs with
  | nil => rfl
  | cons ev evs ih =>
    have h1 := h ev (by simp)
    have h2 := ih (fun e he => h e (by simp [he]))
    unfold finalShots at h2 ⊢
    rw [List.filterMap_cons, h2]
    cases ev with
    | shot origin name => cases origin <;> simp_all [Event.isLoopShot]
    | cmd c => rfl
    | now => rfl

theorem not_loopShot_of_not_shot (evs : List Event) (h : ∀ ev ∈ evs, ev.isShot = false) :
    ∀ ev ∈ evs, ev.isLoopShot = false := by
  intro ev hev
  have := h ev hev
  cases ev with
  | shot origin name => simp [Event.isShot] at this
  | cmd c => rfl
  | now => rfl

theorem loopShots_length (evs : List Event) :
    (evs.filter Event.isLoopShot).length = (errorShots evs).length + (finalShots evs).length := by
  induction evs with
  | nil => rfl
  | cons ev evs ih =>
    unfold errorShots finalShots at ih ⊢
    cases ev with
    | shot origin name =>
      cases origin <;> simp [Event.isLoopShot, List.filter_cons, List.filterMap_cons, ih] <;> omega
    | cmd c => simp [Event.isLoopShot, List.filter_cons, List.filterMap_cons, ih]
    | now => simp [Event.isLoopShot, List.filter_cons, List.filterMap_cons, ih]

theorem errorShots_now : errorShots [Event.now] = [] := rfl

theorem finalShots_now : finalShots [Event.now] = [] := rfl

theorem errorShots_catch (name : String) (e3 : List Event) (q3 : ∀ ev ∈ e3, ev.isShot = false) :
    errorShots (.shot .errorStep name :: e3 ++ [.now]) = [name] := by
  have h3 := errorShots_quiet e3 (not_loopShot_of_not_shot e3 q3)
  have : (Event.shot .errorStep name :: e3 ++ [.now]) = [.shot .errorStep name] ++ e3 ++ [.now] := by
    simp
  rw [this, errorShots_append, errorShots_append, h3, errorShots_now]
  rfl

theorem finalShots_catch (name : String) (e3 : List Event) (q3 : ∀ ev ∈ e3, ev.isShot = false) :
    finalShots (.shot .errorStep name :: e3 ++ [.now]) = [] := by
  have h3 := finalShots_quiet e3 (not_loopShot_of_not_shot e3 q3)
  have : (Event.shot .errorStep name :: e3 ++ [.now]) = [.shot .errorStep name] ++ e3 ++ [.now] := by
    simp
  rw [this, finalShots_append, finalShots_append, h3, finalShots_now]
  rfl

namespace TestExecutor

/-- Every turn of the loop calls `takeScreenshot` from the `catch` block once
for each failed entry that it pushes, under the name of the step, and never from
the end of `executeSteps`. -/
theorem iteration_shots (env : Env) (cfg : Options) (total : Nat) (tr0 : List Event)
    (i : Nat) (step : JsVal) (results : List StepResult) (s : State)
    (out : List StepResult × Bool) (s1 : State)
    (hinv : ∃ evs, s.trace = tr0 ++ evs
      ∧ errorShots evs = (results.filter (fun x => !x.success)).map
          (fun x => "error-step-" ++ toString x.step)
      ∧ finalShots evs = [])
    (hit : iteration env cfg total i step results s = (.ok out, s1)) :
    ∃ evs, s1.trace = tr0 ++ evs
      ∧ errorShots evs = (out.1.filter (fun x => !x.success)).map
          (fun x => "error-step-" ++ toString x.step)
      ∧ finalShots evs = [] := by
  obtain ⟨evs, htr, herr, hfin⟩ := hinv
  obtain ⟨action, -, hc⟩ := iteration_cases hit
  have hsucc : ∀ (result : String) (t : Int),
      List.filter (fun x => !x.success) [successResult i action result t] = [] := by
    intro result t; rfl
  have hfail : ∀ (msg : String) (t : Int),
      List.map (fun x => "error-step-" ++ toString x.step)
        (List.filter (fun x => !x.success) [failureResult i action msg t])
        = ["error-step-" ++ toString (i + 1)] := by
    intro msg t; rfl
  rcases hc with ⟨result, sa, hex, hp, hout⟩ | ⟨result, sa, msg, sb, hex, hp, hout⟩
    | ⟨msg, sa, hex, hout⟩
  · obtain ⟨e1, hsa, q1⟩ := executeStep_state hex
    obtain ⟨e2, hs1, q2⟩ := pause_state hp
    subst hsa
    subst hs1
    refine ⟨evs ++ e1 ++ [.now] ++ e2, ?_, ?_, ?_⟩
    · simp [clockRead, htr, List.append_assoc]
    · rw [hout]
      simp only [errorShots_append, herr, errorShots_quiet e1 q1, errorShots_now,
        errorShots_quiet e2 (not_loopShot_of_not_shot e2 q2), List.filter_append, hsucc,
        List.append_nil]
    · simp only [finalShots_append, hfin, finalShots_quiet e1 q1, finalShots_now,
        finalShots_quiet e2 (not_loopShot_of_not_shot e2 q2), List.append_nil]
  · obtain ⟨e1, hsa, q1⟩ := executeStep_state hex
    obtain ⟨e2, hsb, q2⟩ := pause_state hp
    subst hsa
    subst hsb
    simp only [clockRead] at hout
    obtain ⟨e3, q3, hcb⟩ := catchBlock_eq env cfg i step action msg
      (results ++ [successResult i action result (env.clock (s.trace ++ e1))])
      { browser := s.browser, page := s.page, trace := s.trace ++ e1 ++ [.now] ++ e2 }
    rw [hcb] at hout
    simp only [Prod.mk.injEq] at hout
    obtain ⟨ho, hs⟩ := hout
    subst ho
    subst hs
    refine ⟨evs ++ e1 ++ [.now] ++ e2
      ++ (.shot .errorStep ("error-step-" ++ toString (i + 1)) :: e3 ++ [.now]), ?_, ?_, ?_⟩
    · simp [htr, List.append_assoc]
    · simp only [errorShots_append, herr, errorShots_quiet e1 q1, errorShots_now,
        errorShots_quiet e2 (not_loopShot_of_not_shot e2 q2), errorShots_catch _ e3 q3,
        List.filter_append, hsucc, List.append_nil, List.map_append, hfail]
    · simp only [finalShots_append, hfin, finalShots_quiet e1 q1, finalShots_now,
        finalShots_quiet e2 (not_loopShot_of_not_shot e2 q2), finalShots_catch _ e3 q3,
        List.append_nil]
  · obtain ⟨e1, hsa, q1⟩ := executeStep_state hex
    subst hsa
    obtain ⟨e3, q3, hcb⟩ := catchBlock_eq env cfg i step action msg results
      { browser := s.browser, page := s.page, trace := s.trace ++ e1 }
    rw [hcb] at hout
    simp only [Prod.mk.injEq] at hout
    obtain ⟨ho, hs⟩ := hout
    subst ho
    subst hs
    refine ⟨evs ++ e1
      ++ (.shot .errorStep ("error-step-" ++ toString (i + 1)) :: e3 ++ [.now]), ?_, ?_, ?_⟩
    · simp [htr, List.append_assoc]
    · simp only [errorShots_append, herr, errorShots_quiet e1 q1, errorShots_catch _ e3 q3,
        List.filter_append, List.append_nil, List.map_append, hfail]
    · simp only [finalShots_append, hfin, finalShots_quiet e1 q1, finalShots_catch _ e3 q3,
        List.append_nil]

end TestExecutor

/-! ## The session fields along a run -/

namespace TestExecutor

theorem iteration_flags (env : Env) (cfg : Options) (total i : Nat) (step : JsVal)
    (results : List StepResult) (s : State) :
    (iteration env cfg total i step results s).2.browser = s.browser
      ∧ (iteration env cfg total i step results s).2.page = s.page := by
  unfold iteration
  cases step.get "action" with
  | error e => exact ⟨rfl, rfl⟩
  | ok action =>
    simp only
    rcases hex : executeStep env cfg step s with ⟨r, sa⟩
    obtain ⟨e1, hsa, -⟩ := executeStep_state hex
    subst hsa
    cases r with
    | error msg =>
      obtain ⟨e3, -, hcb⟩ := catchBlock_eq env cfg i step action msg results
        { browser := s.browser, page := s.page, trace := s.trace ++ e1 }
      simp only
      rw [hcb]
      exact ⟨rfl, rfl⟩
    | ok result =>
      simp only
      rcases hp : pause env cfg total i
        (clockRead env { browser := s.browser, page := s.page, trace := s.trace ++ e1 }).2
        with ⟨r2, sb⟩
      obtain ⟨e2, hsb, -⟩ := pause_state hp
      subst hsb
      cases r2 with
      | ok u => exact ⟨rfl, rfl⟩
      | error msg =>
        simp only [clockRead]
        obtain ⟨e3, -, hcb⟩ := catchBlock_eq env cfg i step action msg
          (results ++ [successResult i action result (env.clock (s.trace ++ e1))])
          { browser := s.browser, page := s.page, trace := s.trace ++ e1 ++ [.now] ++ e2 }
        rw [hcb]
        exact ⟨rfl, rfl⟩

theorem stepLoop_flags (env : Env) (cfg : Options) (total : Nat) :
    ∀ (steps : List JsVal) (i : Nat) (results : List StepResult) (s : State),
      (stepLoop env cfg total steps i results s).2.browser = s.browser
        ∧ (stepLoop env cfg total steps i results s).2.page = s.page := by
  intro steps
  induction steps with
  | nil => intro i results s; exact ⟨rfl, rfl⟩
  | cons step rest ih =>
    intro i results s
    have hf := iteration_flags env cfg total i step results s
    unfold stepLoop
    rcases hit : iteration env cfg total i step results s with ⟨r, s1⟩
    rw [hit] at hf
    simp only at hf
    cases r with
    | error e => exact hf
    | ok out =>
      obtain ⟨results1, brk⟩ := out
      cases brk with
      | true => exact hf
      | false =>
        have := ih (i + 1) results1 s1
        simp only
        rw [this.1, this.2]
        exact hf

theorem takeScreenshot_flags (env : Env) (cfg : Options) (origin : ShotOrigin) (name : JsVal)
    (s : State) :
    (takeScreenshot env cfg origin name s).browser = s.browser
      ∧ (takeScreenshot env cfg origin name s).page = s.page := by
  obtain ⟨evs, h, -⟩ := takeScreenshot_eq env cfg origin name s
  rw [h]
  exact ⟨rfl, rfl⟩

/-- The method `initialize` assigns `browser` before `page`. -/
theorem ensureBrowser_flags (env : Env) (cfg : Options) (s : State)
    (hinv : s.page = true → s.browser = true) :
    (ensureBrowser env cfg s).2.page = true → (ensureBrowser env cfg s).2.browser = true := by
  unfold ensureBrowser
  by_cases hb : s.browser = true
  · rw [if_neg (by simp [hb])]
    intro _
    exact hb
  · have hb2 : s.browser = false := by simpa using hb
    have hp2 : s.page = false := by
      cases hp : s.page with
      | false => rfl
      | true => exact absurd (hinv hp) hb
    simp only [hb2, Bool.not_false, if_true]
    unfold initializeBrowser send onPage
    cases env.run s.trace (.launch cfg.headless cfg.slowMo) with
    | some e => simp [hp2]
    | none =>
      simp only
      cases env.run (s.trace ++ [Event.cmd (.launch cfg.headless cfg.slowMo)]) .newPage with
      | some e => simp
      | none =>
        simp only [if_true]
        cases env.run (s.trace ++ [Event.cmd (.launch cfg.headless cfg.slowMo)]
            ++ [Event.cmd .newPage]) (.setViewportSize 1280 720) with
        | some e => simp
        | none => simp

/-- After `ensureBrowser` has returned, a page is open, unless the executor
held a browser without a page before. -/
theorem ensureBrowser_page (env : Env) (cfg : Options) (s s0 : State)
    (h : ensureBrowser env cfg s = (.ok (), s0)) (hinv : s.browser = true → s.page = true) :
    s0.page = true := by
  unfold ensureBrowser at h
  by_cases hb : s.browser = true
  · rw [if_neg (by simp [hb])] at h
    simp only [Prod.mk.injEq, true_and] at h
    rw [← h]
    exact hinv hb
  · have hb2 : s.browser = false := by simpa using hb
    simp only [hb2, Bool.not_false, if_true] at h
    unfold initializeBrowser at h
    rcases h1 : send env (.launch cfg.headless cfg.slowMo) s with ⟨r1, s1⟩
    rw [h1] at h
    cases r1 with
    | error e => simp at h
    | ok u1 =>
      simp only at h
      rcases h2 : send env .newPage { s1 with browser := true } with ⟨r2, s2⟩
      rw [h2] at h
      cases r2 with
      | error e => simp at h
      | ok u2 =>
        simp only at h
        unfold onPage at h
        simp only [if_true] at h
        obtain ⟨evs, hfr, -⟩ := (Appends.send (P := fun _ => True) env (.setViewportSize 1280 720)
          trivial).frame { s2 with page := true }
        rcases h3 : send env (.setViewportSize 1280 720) { s2 with page := true } with ⟨r3, s3⟩
        rw [h3] at h hfr
        simp only [Prod.mk.injEq] at h
        simp only at hfr
        rw [← h.2, hfr]

theorem bind_ok {α β : Type} {m : M α} {f : α → M β} {s s1 : State} {a : α}
    (h : m s = (.ok a, s1)) : (m >>= f) s = f a s1 := by
  show M.andThen m f s = _
  unfold M.andThen
  rw [h]

theorem send_ok (env : Env) (c : Cmd) (s : State) (h : env.run s.trace c = none) :
    send env c s = (.ok (), { s with trace := s.trace ++ [.cmd c] }) := by
  unfold send
  rw [h]

theorem send_trace (env : Env) (c : Cmd) (s : State) :
    (send env c s).2.trace = s.trace ++ [.cmd c] := by
  unfold send
  cases env.run s.trace c <;> rfl

/-- When the directory is a string that can be created and a page is open,
`takeScreenshot` ends by sending the screenshot command. -/
theorem takeScreenshot_sends (env : Env) (cfg : Options) (origin : ShotOrigin) (name : JsVal)
    (s : State) (d : String) (hdir : cfg.screenshotDir = .str d)
    (hmk : ∀ tr, env.run tr (.mkdir cfg.screenshotDir) = none) (hpage : s.page = true) :
    ∃ tr t, (takeScreenshot env cfg origin name s).trace
      = tr ++ [.cmd (.screenshot d (toStr env.numToString name) t)] := by
  unfold takeScreenshot
  simp only
  rw [bind_ok (send_ok env _ _ (hmk _))]
  rw [bind_ok (show now env _ = (.ok _, _) from rfl)]
  rw [hdir]
  rw [bind_ok (show M.lift (pathJoinDir (.str d)) _ = (.ok d, _) from rfl)]
  unfold onPage
  simp only [clockRead, hpage, if_true]
  rw [send_trace]
  exact ⟨_, _, rfl⟩

/-- Whatever `executeSteps` does, a page is never held without a browser. -/
theorem executeSteps_flags (env : Env) (cfg : Options) (steps : List JsVal) (s : State)
    (hinv : s.page = true → s.browser = true) :
    (executeSteps env cfg steps s).2.page = true → (executeSteps env cfg steps s).2.browser = true := by
  have h0 := ensureBrowser_flags env cfg s hinv
  unfold executeSteps
  rcases he : ensureBrowser env cfg s with ⟨r0, s0⟩
  rw [he] at h0
  simp only at h0
  cases r0 with
  | error e => exact h0
  | ok u =>
    simp only
    have hl := stepLoop_flags env cfg steps.length steps 0 [] s0
    rcases hloop : stepLoop env cfg steps.length steps 0 [] s0 with ⟨r1, s1⟩
    rw [hloop] at hl
    simp only at hl
    cases r1 with
    | error e =>
      simp only
      rw [hl.1, hl.2]
      exact h0
    | ok rs =>
      simp only
      have ht := takeScreenshot_flags env cfg .finalResult (.str "final-result") s1
      rw [ht.1, ht.2, hl.1, hl.2]
      exact h0

theorem nullish_of_get {step action : JsVal} {k : String} (h : step.get k = .ok action) :
    step.nullish = false := by
  cases step <;> simp_all [JsVal.get, JsVal.nullish]

/-- A run of the loop that returns without a failed entry has reached every
step, so none is `null` or `undefined`. -/
theorem stepLoop_no_failure (env : Env) (cfg : Options) (total : Nat) :
    ∀ (steps : List JsVal) (i : Nat) (results : List StepResult) (s : State)
      (rs : List StepResult) (s1 : State),
      stepLoop env cfg total steps i results s = (.ok rs, s1) →
      rs.filter (fun x => !x.success) = [] →
      ∀ step ∈ steps, step.nullish = false := by
  intro steps
  induction steps with
  | nil => intro i results s rs s1 _ _ step hstep; simp at hstep
  | cons st rest ih =>
    intro i results s rs s1 h hnf step hstep
    unfold stepLoop at h
    rcases hit : iteration env cfg total i st results s with ⟨r, s2⟩
    rw [hit] at h
    cases r with
    | error e => simp at h
    | ok out =>
      obtain ⟨results1, brk⟩ := out
      obtain ⟨action, hact, hc⟩ := iteration_cases hit
      cases brk with
      | false =>
        rcases List.mem_cons.mp hstep with hs | hs
        · subst hs
          exact nullish_of_get hact
        · exact ih (i + 1) results1 s2 rs s1 h hnf step hs
      | true =>
        exfalso
        simp only [Prod.mk.injEq, Except.ok.injEq] at h
        obtain ⟨hrs, -⟩ := h
        subst hrs
        have hmem : ∀ msg t x, results1 = x ++ [failureResult i action msg t] → False := by
          intro msg t x hx
          have : failureResult i action msg t ∈ results1.filter (fun x => !x.success) := by
            rw [hx]
            simp [failureResult]
          rw [hnf] at this
          simp at this
        rcases hc with ⟨result, sa, -, -, hout⟩ | ⟨result, sa, msg, sb, -, -, hout⟩
          | ⟨msg, sa, -, hout⟩
        · simp at hout
        · obtain ⟨t, ht⟩ := catchBlock_fst env cfg i st action msg
            (results ++ [successResult i action result (clockRead env sa).1]) sb
          rw [← hout] at ht
          simp only [Prod.mk.injEq] at ht
          exact hmem _ _ _ ht.1
        · obtain ⟨t, ht⟩ := catchBlock_fst env cfg i st action msg results sa
          rw [← hout] at ht
          simp only [Prod.mk.injEq] at ht
          exact hmem _ _ _ ht.1

theorem executeSteps_no_failure {env : Env} {cfg : Options} {steps : List JsVal} {s s2 : State}
    {r : ExecutionReport} (h : executeSteps env cfg steps s = (.ok r, s2))
    (h0 : r.failedSteps = 0) : ∀ step ∈ steps, step.nullish = false := by
  obtain ⟨s0, rs, s1, -, hloop, hr, -⟩ := executeSteps_ok h
  subst hr
  simp only [report, List.length_eq_zero] at h0
  exact stepLoop_no_failure env cfg steps.length steps 0 [] s0 rs s1 hloop h0

end TestExecutor

namespace LLMClient

theorem buildPrompt_generate {model : JsVal} {description : String} {context : JsVal}
    {request : Cmd} (h : buildPrompt model description context = .ok request) :
    ∃ a b c, request = .generate model description a b c := by
  unfold buildPrompt at h
  dsimp only at h
  generalize (if context.isDefined = true then context else JsVal.obj []) = ctx at h
  cases hg : ctx.get "baseUrl" with
  | error e => simp [hg] at h
  | ok b =>
    simp only [hg, Except.ok.injEq] at h
    exact ⟨_, _, _, h.symm⟩

/-- The generator sends its request and nothing else. -/
theorem generateTestSteps_state (env : Env) (parse : String → Except String JsVal)
    (model : JsVal) (description : String) (context : JsVal) (s : State) :
    ∃ evs, (generateTestSteps env parse model description context s).2
        = { s with trace := s.trace ++ evs }
      ∧ ∀ ev ∈ evs, ev.isExecution = false := by
  unfold generateTestSteps
  cases hb : buildPrompt model description context with
  | error e => exact ⟨[], by simp, by simp⟩
  | ok request =>
    obtain ⟨a, b, c, hreq⟩ := buildPrompt_generate hb
    subst hreq
    have h : Appends (fun ev => ev.isExecution = false)
        (M.tryCatch
          (do
            let data ← query (.generate model description a b c)
              (fun tr => env.generate tr (.generate model description a b c))
            let llmResponse ← M.lift (data.get "response")
            let parsed ← M.lift (parseJsonResponse parse llmResponse)
            let steps ← M.lift (parsed.get "steps")
            let reasoning ← M.lift (parsed.get "reasoning")
            pure { steps := steps.or (.arr []), reasoning := reasoning.or (.str "Test steps generated"),
                   model := model, rawResponse := llmResponse })
          (fun msg => M.raise ("LLM Error: " ++ msg)) : M Plan) := by
      repeat (first
        | refine Appends.tryCatch _ _ ?_ ?_
        | refine Appends.bind _ _ ?_ ?_
        | exact Appends.query _ _ rfl
        | exact Appends.lift _
        | exact Appends.raise _
        | exact Appends.pure _
        | intro _)
    exact h.frame s

end LLMClient

namespace TestRunner

theorem saveTestResults_state (env : Env) (summary : RunSummary) (s : State) :
    ∃ evs, saveTestResults env summary s = { s with trace := s.trace ++ evs }
      ∧ ∀ ev ∈ evs, ev.isExecution = false := by
  have h : Appends (fun ev => ev.isExecution = false)
      (do
        send env (.mkdir (.str "./test-results"))
        let t ← now env
        send env (.writeFile "./test-results" t summary) : M Unit) := by
    repeat (first
      | refine Appends.bind _ _ ?_ ?_
      | exact Appends.send _ _ rfl
      | exact Appends.now _ rfl
      | intro _)
  exact h.frame s

/-- The `catch` block of `runTest` returns an error summary with the message and
the number of steps, reads the clock and saves; it sends no browser command. -/
theorem catchBlock_state (env : Env) (r : Runner) (startTime : Int) (description msg : String)
    (count : Nat) (s : State) :
    ∃ d t evs, catchBlock env r startTime description msg count s
        = (.errorSummary description msg count d t, { s with trace := s.trace ++ evs })
      ∧ ∀ ev ∈ evs, ev.isExecution = false := by
  unfold catchBlock
  simp only [clockRead]
  by_cases hs : r.saveResults.truthy = true
  · simp only [hs, if_true]
    obtain ⟨evs, h1, h2⟩ := saveTestResults_state env
      (.errorSummary description msg count (env.clock s.trace - startTime)
        (env.clock (s.trace ++ [.now])))
      { browser := s.browser, page := s.page, trace := s.trace ++ [.now] ++ [.now] }
    refine ⟨env.clock s.trace - startTime, env.clock (s.trace ++ [.now]), [.now, .now] ++ evs,
      ?_, ?_⟩
    · rw [h1]
      simp [List.append_assoc]
    · intro ev hev
      rcases List.mem_append.mp hev with h | h
      · simp only [List.mem_cons, List.mem_singleton, List.not_mem_nil, or_false] at h
        rcases h with h | h <;> subst h <;> rfl
      · exact h2 ev h
  · simp only [hs, if_false]
    refine ⟨env.clock s.trace - startTime, env.clock (s.trace ++ [.now]), [.now, .now], ?_, ?_⟩
    · simp [List.append_assoc]
    · intro ev hev
      simp only [List.mem_cons, List.mem_singleton, List.not_mem_nil, or_false] at hev
      rcases hev with h | h <;> subst h <;> rfl

end TestRunner

/-! ## The claims about `executeSteps` -/

namespace TestExecutor

/-- C1 (fail-fast default).  Take a plan `pre ++ step :: post` and a session that
is open or opens.  If the loop over the steps `pre` records only successes, and
`executeStep` throws on `step`, an object whose `critical` is not `false`, then
`executeSteps` returns a report with one entry per step of `pre` and one for
`step`: the steps numbered 1 to k, the first k - 1 successful and the last
failed, `completedSteps = k - 1` and `failedSteps = 1`, where k is the position
of `step`.  The final state is the one after the `catch` block of `step` and the
final screenshot: no step of `post` is executed. -/
theorem executeSteps_fail_fast (env : Env) (cfg : Options) (pre : List JsVal) (step : JsVal)
    (post : List JsVal) (s0 s sk sf : State) (rs : List StepResult) (action : JsVal)
    (msg : String)
    (hready : ensureBrowser env cfg s0 = (.ok (), s))
    (hpre : stepLoop env cfg (pre ++ step :: post).length pre 0 [] s = (.ok rs, sk))
    (hsucc : ∀ r ∈ rs, r.success = true)
    (hact : step.get "action" = .ok action)
    (hfail : executeStep env cfg step sk = (.error msg, sf))
    (hcrit : (step.prop "critical").isFalse = false) :
    ∃ r, executeSteps env cfg (pre ++ step :: post) s0
        = (.ok r, takeScreenshot env cfg .finalResult (.str "final-result")
            (catchBlock env cfg pre.length step action msg rs sf).2)
      ∧ r.results.length = pre.length + 1
      ∧ r.results.map (fun x => x.step) = List.range' 1 (pre.length + 1)
      ∧ r.results.map (fun x => x.success) = List.replicate pre.length true ++ [false]
      ∧ r.completedSteps = pre.length
      ∧ r.failedSteps = 1
      ∧ r.totalSteps = pre.length + 1 + post.length := by
  obtain ⟨hrun, ext, hext, hsteps⟩ :=
    stepLoop_all_success env cfg (pre ++ step :: post).length (step :: post) pre 0 [] s rs sk
      hpre hsucc
  simp only [List.nil_append] at hext
  subst hext
  obtain ⟨t, ht⟩ := catchBlock_fst env cfg pre.length step action msg rs sf
  have hloop : stepLoop env cfg (pre ++ step :: post).length (pre ++ step :: post) 0 [] s
      = (.ok (rs ++ [failureResult pre.length action msg t]),
          (catchBlock env cfg pre.length step action msg rs sf).2) := by
    rw [hrun]
    unfold stepLoop iteration
    simp only [hact, hfail, Nat.zero_add]
    rw [show catchBlock env cfg pre.length step action msg rs sf
        = ((catchBlock env cfg pre.length step action msg rs sf).1,
            (catchBlock env cfg pre.length step action msg rs sf).2) from rfl, ht]
    simp [hcrit]
  have hlen : rs.length = pre.length := by
    have := congrArg List.length hsteps
    simpa using this
  have hfilt : rs.filter (fun r => r.success) = rs :=
    List.filter_eq_self.mpr (fun r hr => hsucc r hr)
  have hfilt2 : rs.filter (fun r => !r.success) = [] :=
    List.filter_eq_nil_iff.mpr (fun r hr => by simp [hsucc r hr])
  have hmap : rs.map (fun x => x.success) = List.replicate pre.length true := by
    rw [← hlen]
    exact List.eq_replicate_iff.mpr ⟨by simp, by
      intro b hb
      obtain ⟨r, hr, rfl⟩ := List.mem_map.mp hb
      exact hsucc r hr⟩
  refine ⟨report (pre ++ step :: post) (rs ++ [failureResult pre.length action msg t]), ?_, ?_, ?_,
    ?_, ?_, ?_, ?_⟩
  · unfold executeSteps
    rw [hready]
    simp only [hloop]
  · simp [report, hlen]
  · simp only [report, List.map_append, hsteps, List.map_cons, List.map_nil, failureResult]
    rw [List.range'_concat]
    simp [Nat.add_comm]
  · simp only [report, List.map_append, hmap, List.map_cons, List.map_nil, failureResult]
  · simp [report, List.filter_append, hfilt, hlen, failureResult]
  · simp [report, List.filter_append, hfilt2, failureResult]
  · simp [report]
    omega

/-- C1 at a plan of three steps whose second step has an unknown action: two
entries, one success, one failure. -/
theorem executeSteps_fail_fast_witness :
    ∃ r, (executeSteps Demo.calm Options.default
          [Demo.navigateStep, Demo.bogusStep, Demo.navigateStep] Demo.fresh).1 = .ok r
      ∧ r.results.map (fun x => (x.step, x.success)) = [(1, true), (2, false)]
      ∧ r.completedSteps = 1 ∧ r.failedSteps = 1 ∧ r.totalSteps = 3 := by
  obtain ⟨r, h, -, h1, h2, h3, h4, h5⟩ :=
    executeSteps_fail_fast Demo.calm Options.default [Demo.navigateStep] Demo.bogusStep
      [Demo.navigateStep] Demo.fresh _ _ _ _ _ _ rfl rfl (by decide) rfl rfl rfl
  refine ⟨r, congrArg Prod.fst h, ?_, h3, h4, h5⟩
  have e1 : r.results.map (fun x => (x.step, x.success))
      = (r.results.map (fun x => x.step)).zip (r.results.map (fun x => x.success)) := by
    rw [List.zip_map']
  rw [e1, h1, h2]
  rfl

/-- Continuation when no pause throws.  The loop over steps that are neither
`null` nor `undefined`, each of which has `critical: false` if `executeStep` can
throw on it, pushes exactly one entry per step, in plan order, and does not
break, provided that the pause after a step never throws. -/
theorem stepLoop_continues (env : Env) (cfg : Options) (total : Nat)
    (hpause : ∀ i st, ∃ st1, pause env cfg total i st = (.ok (), st1)) :
    ∀ (steps : List JsVal) (i : Nat) (acc : List StepResult) (s : State),
      (∀ step ∈ steps, step.nullish = false) →
      (∀ step ∈ steps, ∀ st msg st1, executeStep env cfg step st = (.error msg, st1) →
        (step.prop "critical").isFalse = true) →
      ∃ ext s1, stepLoop env cfg total steps i acc s = (.ok (acc ++ ext), s1)
        ∧ ext.map (fun x => x.step) = List.range' (i + 1) steps.length
        ∧ ext.map (fun x => x.action) = steps.map (fun st => st.prop "action") := by
  intro steps
  induction steps with
  | nil =>
    intro i acc s _ _
    exact ⟨[], s, by simp [stepLoop], rfl, rfl⟩
  | cons step rest ih =>
    intro i acc s hobj hsoft
    have hget := get_of_not_nullish step "action" (hobj step (by simp))
    have hobj2 : ∀ st ∈ rest, st.nullish = false := fun st hst => hobj st (by simp [hst])
    have hsoft2 : ∀ st ∈ rest, ∀ st0 msg st1, executeStep env cfg st st0 = (.error msg, st1) →
        (st.prop "critical").isFalse = true := fun st hst => hsoft st (by simp [hst])
    rcases hex : executeStep env cfg step s with ⟨re, sa⟩
    cases re with
    | ok result =>
      obtain ⟨sb, hp⟩ := hpause i (clockRead env sa).2
      obtain ⟨ext, s1, hrun, hsteps, hacts⟩ := ih (i + 1)
        (acc ++ [successResult i (step.prop "action") result (clockRead env sa).1]) sb hobj2 hsoft2
      refine ⟨successResult i (step.prop "action") result (clockRead env sa).1 :: ext, s1, ?_, ?_, ?_⟩
      · unfold stepLoop iteration
        simp only [hget, hex, hp, hrun, List.append_assoc, List.singleton_append]
      · simp only [List.map_cons, hsteps, List.length_cons, successResult]
        rw [List.range'_succ]
      · simp only [List.map_cons, hacts, successResult]
    | error msg =>
      have hcrit := hsoft step (by simp) s msg sa hex
      obtain ⟨e3, -, hcb⟩ := catchBlock_eq env cfg i step (step.prop "action") msg acc sa
      rw [hcrit] at hcb
      obtain ⟨ext, s1, hrun, hsteps, hacts⟩ := ih (i + 1)
        (acc ++ [failureResult i (step.prop "action") msg
          (env.clock (sa.trace ++ .shot .errorStep ("error-step-" ++ toString (i + 1)) :: e3))])
        { sa with trace := sa.trace
            ++ (.shot .errorStep ("error-step-" ++ toString (i + 1)) :: e3 ++ [.now]) }
        hobj2 hsoft2
      refine ⟨failureResult i (step.prop "action") msg
        (env.clock (sa.trace ++ .shot .errorStep ("error-step-" ++ toString (i + 1)) :: e3))
        :: ext, s1, ?_, ?_, ?_⟩
      · unfold stepLoop iteration
        simp only [hget, hex, hcb, Bool.not_true, hrun, List.append_assoc, List.singleton_append]
      · simp only [List.map_cons, hsteps, List.length_cons, failureResult]
        rw [List.range'_succ]
      · simp only [List.map_cons, hacts, failureResult]

/-- What C2 states holds whenever the pause between steps does not throw: with a
session that is open or opens, steps that are neither `null` nor `undefined`,
and `critical: false` on every step on which `executeStep` can throw,
`executeSteps` returns a report with exactly one entry per step, in plan order. -/
theorem executeSteps_continues (env : Env) (cfg : Options) (steps : List JsVal) (s0 s : State)
    (hready : ensureBrowser env cfg s0 = (.ok (), s))
    (hobj : ∀ step ∈ steps, step.nullish = false)
    (hsoft : ∀ step ∈ steps, ∀ st msg st1, executeStep env cfg step st = (.error msg, st1) →
      (step.prop "critical").isFalse = true)
    (hpause : ∀ i st, ∃ st1, pause env cfg steps.length i st = (.ok (), st1)) :
    ∃ r s2, executeSteps env cfg steps s0 = (.ok r, s2)
      ∧ r.results.length = steps.length
      ∧ r.results.map (fun x => x.step) = List.range' 1 steps.length
      ∧ r.results.map (fun x => x.action) = steps.map (fun st => st.prop "action")
      ∧ r.completedSteps + r.failedSteps = steps.length := by
  obtain ⟨ext, s1, hrun, hsteps, hacts⟩ :=
    stepLoop_continues env cfg steps.length hpause steps 0 [] s hobj hsoft
  simp only [List.nil_append, Nat.zero_add] at hrun hsteps
  have hlen : ext.length = steps.length := by
    have := congrArg List.length hsteps
    simpa using this
  refine ⟨report steps ext, takeScreenshot env cfg .finalResult (.str "final-result") s1,
    ?_, ?_, ?_, ?_, ?_⟩
  · unfold executeSteps
    rw [hready]
    simp only [hrun]
  · simp [report, hlen]
  · simp [report, hsteps]
  · simp [report, hacts]
  · simp only [report, ← List.countP_eq_length_filter]
    have := List.length_eq_countP_add_countP (fun x : StepResult => x.success) ext
    simp only [Bool.not_eq_true] at this
    rw [← hlen, this]
    congr 1
    apply List.countP_congr
    intro x _
    simp

/-- The continuation at a plan of two steps with `critical: false` under no
pause: the browser rejects every command, both steps fail, both are recorded. -/
theorem executeSteps_continues_witness :
    ∃ r s2, executeSteps { Demo.calm with run := fun _ c => match c with
          | .waitForTimeout _ => some Demo.closedMsg
          | .waitForSelector _ _ => some Demo.closedMsg
          | _ => none }
        { Options.default with slowMo := .num 0 0 }
        [Demo.softWaitStep, Demo.softClickStep] Demo.fresh = (.ok r, s2)
      ∧ r.results.length = 2
      ∧ r.results.map (fun x => x.step) = [1, 2] := by
  obtain ⟨r, s2, h, h1, h2, -, -⟩ := executeSteps_continues
    { Demo.calm with run := fun _ c => match c with
        | .waitForTimeout _ => some Demo.closedMsg
        | .waitForSelector _ _ => some Demo.closedMsg
        | _ => none }
    { Options.default with slowMo := .num 0 0 }
    [Demo.softWaitStep, Demo.softClickStep] Demo.fresh _ rfl (by decide)
    (by
      intro step hstep st msg st1 _
      simp only [List.mem_cons, List.mem_singleton, List.not_mem_nil, or_false] at hstep
      rcases hstep with h | h <;> subst h <;> rfl)
    (by
      intro i st
      exact ⟨st, rfl⟩)
  exact ⟨r, s2, h, h1, h2⟩

/-- C2 at a failing input.  The plan has two steps, both with `critical: false`,
under the default `slowMo`.  The first step succeeds and the browser is closed
during the pause after it, which is inside the `try` block: the `catch` block
records a failure for step 1 after its success, and the report has three entries
for two steps, numbered 1, 1, 2. -/
theorem executeSteps_pause_failure :
    [Demo.softWaitStep, Demo.softClickStep].all (fun st => (st.prop "critical").isFalse) = true
    ∧ (executeSteps Demo.closedDuringPause Options.default
          [Demo.softWaitStep, Demo.softClickStep] Demo.fresh).1.toOption.map
        (fun r => (r.totalSteps, r.completedSteps, r.failedSteps,
          r.results.map (fun x => (x.step, x.success))))
      = some (2, 1, 2, [(1, true), (1, false), (2, false)]) := by
  decide

end TestExecutor

/-! ## The claims about `parseJsonResponse` -/

namespace LLMClient

theorem greedyToClose_none (post : List Char) (h : Json.rbrace ∉ post) :
    greedyToClose post = none := by
  induction post with
  | nil => rfl
  | cons c post ih =>
    have hc : c ≠ Json.rbrace := fun e => h (by simp [e])
    have hp : Json.rbrace ∉ post := fun e => h (by simp [e])
    simp [greedyToClose, ih hp, hc]

theorem greedyToClose_append (mid post : List Char) (h : Json.rbrace ∉ post) :
    greedyToClose (mid ++ Json.rbrace :: post) = some (mid ++ [Json.rbrace]) := by
  induction mid with
  | nil => simp [greedyToClose, greedyToClose_none post h]
  | cons c mid ih => simp [greedyToClose, ih]

/-- The match is the text from the first opening brace to the last closing
brace. -/
theorem regexMatch_span (pre mid post : List Char) (hpre : Json.lbrace ∉ pre)
    (hpost : Json.rbrace ∉ post) :
    regexMatch (pre ++ Json.lbrace :: mid ++ Json.rbrace :: post)
      = some (Json.lbrace :: mid ++ [Json.rbrace]) := by
  induction pre with
  | nil =>
    have hg := greedyToClose_append mid post hpost
    simp only [List.nil_append, List.cons_append, regexMatch, if_true]
    simp only [List.append_eq] at hg ⊢
    rw [hg]
  | cons c pre ih =>
    have hc : c ≠ Json.lbrace := fun e => hpre (by simp [e])
    have hp : Json.lbrace ∉ pre := fun e => hpre (by simp [e])
    have := ih hp
    simp only [List.cons_append] at this ⊢
    simp only [regexMatch, hc, if_false]
    exact this

theorem regexMatch_head (cs m : List Char) (h : regexMatch cs = some m) :
    ∃ r, m = Json.lbrace :: r := by
  induction cs with
  | nil => simp [regexMatch] at h
  | cons c cs ih =>
    unfold regexMatch at h
    by_cases hc : c = Json.lbrace
    · simp only [hc, if_true] at h
      cases hg : greedyToClose cs with
      | none =>
        rw [hg] at h
        exact ih h
      | some g =>
        rw [hg] at h
        simp only [Option.some.injEq] at h
        exact ⟨g, h.symm⟩
    · simp only [hc, if_false] at h
      exact ih h

/-- A text with a brace at both ends has a middle. -/
theorem braces_middle (cs : List Char) (hhead : cs.head? = some Json.lbrace)
    (hlast : cs.getLast? = some Json.rbrace) :
    ∃ mid, cs = Json.lbrace :: mid ++ [Json.rbrace] := by
  cases cs with
  | nil => simp at hhead
  | cons c rest =>
    simp only [List.head?_cons, Option.some.injEq] at hhead
    subst hhead
    rcases List.eq_nil_or_concat rest with hr | ⟨mid, d, hr⟩
    · subst hr
      simp only [List.getLast?_singleton, Option.some.injEq] at hlast
      exact absurd hlast (by decide)
    · subst hr
      simp only [List.concat_eq_append] at hlast ⊢
      rw [← List.cons_append, List.getLast?_append] at hlast
      simp only [List.getLast?_singleton, Option.or, Option.some.injEq] at hlast
      subst hlast
      exact ⟨mid, by simp⟩

theorem parseJsonResponse_of_match (parse : String → Except String JsVal) (text : String)
    (m : List Char) (h : regexMatch text.toList = some m) :
    parseJsonResponse parse (.str text)
      = match parse (String.mk m) with
        | .ok parsed => .ok parsed
        | .error msg => .ok (errorFallback msg) := by
  simp only [parseJsonResponse, parseJsonResponseTry, h]

theorem get_obj (kvs : List (String × JsVal)) (k : String) :
    (JsVal.obj kvs).get k = .ok ((JsVal.obj kvs).prop k) := rfl

/-- What `generateTestSteps` returns once the service has answered with a body
whose `response` can be read and `parseJsonResponse` has returned an object. -/
theorem generateTestSteps_of_parsed (env : Env) (parse : String → Except String JsVal)
    (model : JsVal) (description : String) (context : JsVal) (request : Cmd) (data raw : JsVal)
    (kvs : List (String × JsVal)) (s : State)
    (hbuild : buildPrompt model description context = .ok request)
    (hgen : env.generate s.trace request = .ok data)
    (hraw : data.get "response" = .ok raw)
    (hparsed : parseJsonResponse parse raw = .ok (.obj kvs)) :
    generateTestSteps env parse model description context s
      = (.ok { steps := ((JsVal.obj kvs).prop "steps").or (.arr [])
               reasoning := ((JsVal.obj kvs).prop "reasoning").or (.str "Test steps generated")
               model := model
               rawResponse := raw },
          { s with trace := s.trace ++ [.cmd request] }) := by
  simp only [generateTestSteps, hbuild, M.tryCatch, bind, M.andThen, query, hgen, M.lift, hraw,
    hparsed, get_obj, pure, M.ret]

/-- C3 as amended (extraction of an embedded object).  Let the response be
`pre ++ obj ++ post`, where `obj` begins with an opening brace and ends with a
closing brace and is valid JSON with value `v`, `pre` holds no opening brace and
`post` holds no closing brace.  Then `parseJsonResponse` returns `v`; and when
`v` is an object, the plan of `generateTestSteps` has its `steps` and its
`reasoning`, a falsy one being replaced by the default. -/
theorem parseJsonResponse_embedded (parse : String → Except String JsVal)
    (pre obj post : String) (v : JsVal)
    (hhead : obj.toList.head? = some Json.lbrace)
    (hlast : obj.toList.getLast? = some Json.rbrace)
    (hpre : Json.lbrace ∉ pre.toList) (hpost : Json.rbrace ∉ post.toList)
    (hvalid : parse obj = .ok v) :
    parseJsonResponse parse (.str (pre ++ obj ++ post)) = .ok v
    ∧ ∀ (env : Env) (model : JsVal) (description : String) (context : JsVal) (request : Cmd)
        (data : JsVal) (kvs : List (String × JsVal)) (s : State),
        buildPrompt model description context = .ok request →
        env.generate s.trace request = .ok data →
        data.get "response" = .ok (.str (pre ++ obj ++ post)) →
        v = .obj kvs →
        (generateTestSteps env parse model description context s).1
          = .ok { steps := (v.prop "steps").or (.arr [])
                  reasoning := (v.prop "reasoning").or (.str "Test steps generated")
                  model := model
                  rawResponse := .str (pre ++ obj ++ post) } := by
  obtain ⟨mid, hmid⟩ := braces_middle obj.toList hhead hlast
  have hm : regexMatch (pre ++ obj ++ post).toList = some obj.toList := by
    have := regexMatch_span pre.toList mid post.toList hpre hpost
    simp only [String.toList, String.data_append] at hmid ⊢
    rw [hmid]
    simpa using this
  have hres : parseJsonResponse parse (.str (pre ++ obj ++ post)) = .ok v := by
    rw [parseJsonResponse_of_match parse _ _ hm]
    have : String.mk obj.toList = obj := rfl
    rw [this, hvalid]
  refine ⟨hres, ?_⟩
  intro env model description context request data kvs s hbuild hgen hraw hv
  subst hv
  rw [generateTestSteps_of_parsed env parse model description context request data _ kvs s hbuild
    hgen hraw hres]

/-- C3 at the scenario of the specification: prose, then the object. -/
theorem parseJsonResponse_embedded_witness :
    parseJsonResponse Json.parse (.str ("Sure! Here you go: " ++ Demo.planText ++ ""))
      = .ok Demo.planObject
    ∧ (generateTestSteps (Demo.serviceSays ("Sure! Here you go: " ++ Demo.planText ++ ""))
        Json.parse (.str "llama3") "login" (.obj []) Demo.fresh).1
      = .ok { steps := .arr [Demo.navigateStep], reasoning := .str "ok", model := .str "llama3",
              rawResponse := .str ("Sure! Here you go: " ++ Demo.planText ++ "") } := by
  obtain ⟨h1, h2⟩ := parseJsonResponse_embedded Json.parse "Sure! Here you go: " Demo.planText ""
    Demo.planObject (by decide) (by decide) (by decide) (by decide) rfl
  exact ⟨h1, h2 (Demo.serviceSays ("Sure! Here you go: " ++ Demo.planText ++ "")) (.str "llama3")
    "login" (.obj []) _ _ _ Demo.fresh rfl rfl rfl rfl⟩

/-- C3 fails as stated: the response holds the valid object `planText`, followed
by prose with braces; the match runs to the last closing brace, does not parse,
and `parseJsonResponse` returns the error fallback instead of the object. -/
theorem parseJsonResponse_trailing_brace :
    Json.parse Demo.planText = .ok Demo.planObject
    ∧ parseJsonResponse Json.parse (.str Demo.proseWithBraces)
        = .ok (errorFallback Json.unexpectedToken)
    ∧ parseJsonResponse Json.parse (.str Demo.proseWithBraces) ≠ .ok Demo.planObject := by
  refine ⟨rfl, rfl, ?_⟩
  have h : parseJsonResponse Json.parse (.str Demo.proseWithBraces)
      = .ok (errorFallback Json.unexpectedToken) := rfl
  rw [h]
  intro hc
  have h2 := congrArg (fun r => match r with
    | .ok (JsVal.obj ((k, _) :: _)) => k
    | _ => "") hc
  exact absurd h2 (by decide)

theorem append_ne_empty (a b : String) (h : a ≠ "") : a ++ b ≠ "" := by
  intro hc
  have hl := congrArg String.length hc
  rw [String.length_append] at hl
  have ha : a.length ≠ 0 := by
    intro h0
    apply h
    cases a with
    | mk data =>
      have hd : data = [] := List.length_eq_zero.mp h0
      subst hd
      rfl
  have h0 : ("" : String).length = 0 := rfl
  omega

/-- C4 (fallback plan).  When the response has no match, or when the match does
not parse, `parseJsonResponse` returns an object with exactly two steps, a
`navigate` to `https://www.saucedemo.com` followed by a `screenshot`, and a
reasoning that is not empty and names the failure: the fixed fallback sentence,
or `Error parsing: ` followed by the message of the parser. -/
theorem parseJsonResponse_fallback (parse : String → Except String JsVal) (text : String)
    (h : regexMatch text.toList = none
      ∨ ∃ m msg, regexMatch text.toList = some m ∧ parse (String.mk m) = .error msg) :
    ∃ label reasoning,
      parseJsonResponse parse (.str text)
        = .ok (.obj [("steps", .arr
                [.obj [("action", .str "navigate"), ("value", .str "https://www.saucedemo.com")],
                 .obj [("action", .str "screenshot"), ("value", .str label)]]),
              ("reasoning", .str reasoning)])
      ∧ reasoning ≠ ""
      ∧ (reasoning = "Fallback: No se pudo parsear respuesta del LLM"
          ∨ ∃ msg, reasoning = "Error parsing: " ++ msg) := by
  rcases h with h | ⟨m, msg, hm, hp⟩
  · refine ⟨"fallback-test", "Fallback: No se pudo parsear respuesta del LLM", ?_, by decide,
      Or.inl rfl⟩
    simp only [parseJsonResponse, parseJsonResponseTry, h]
    rfl
  · refine ⟨"error-fallback", "Error parsing: " ++ msg, ?_, append_ne_empty _ _ (by decide),
      Or.inr ⟨msg, rfl⟩⟩
    rw [parseJsonResponse_of_match parse text m hm, hp]
    rfl

/-- C4 at plain prose with no brace. -/
theorem parseJsonResponse_fallback_witness :
    ∃ label reasoning,
      parseJsonResponse Json.parse (.str "I cannot help with that.")
        = .ok (.obj [("steps", .arr
                [.obj [("action", .str "navigate"), ("value", .str "https://www.saucedemo.com")],
                 .obj [("action", .str "screenshot"), ("value", .str label)]]),
              ("reasoning", .str reasoning)])
      ∧ reasoning ≠ ""
      ∧ (reasoning = "Fallback: No se pudo parsear respuesta del LLM"
          ∨ ∃ msg, reasoning = "Error parsing: " ++ msg) :=
  parseJsonResponse_fallback Json.parse "I cannot help with that." (Or.inl (by decide))

theorem parseValue_lbrace (fuel : Nat) (r : List Char) (v : JsVal) (rest : List Char)
    (h : Json.parseValue fuel (Json.lbrace :: r) = .ok (v, rest)) : ∃ kvs, v = .obj kvs := by
  cases fuel with
  | zero => simp [Json.parseValue] at h
  | succ fuel =>
    have hws : Json.skipWs (Json.lbrace :: r) = Json.lbrace :: r := by
      simp [Json.skipWs, Json.isWs, Json.lbrace]
    unfold Json.parseValue at h
    rw [hws] at h
    simp only [beq_self_eq_true, if_true] at h
    split at h
    · simp at h
    · split at h
      · simp only [Except.ok.injEq, Prod.mk.injEq] at h
        exact ⟨[], h.1.symm⟩
      · split at h
        · simp at h
        · simp only [Except.ok.injEq, Prod.mk.injEq] at h
          exact ⟨_, h.1.symm⟩

theorem parse_lbrace (r : List Char) (v : JsVal)
    (h : Json.parse (String.mk (Json.lbrace :: r)) = .ok v) : ∃ kvs, v = .obj kvs := by
  unfold Json.parse at h
  split at h
  · simp at h
  · rename_i w rest hv
    split at h
    · simp only [Except.ok.injEq] at h
      subst h
      exact parseValue_lbrace _ r w rest hv
    · simp at h

/-- With the reference parser, `parseJsonResponse` returns an object. -/
theorem parseJsonResponse_object (response : JsVal) :
    ∃ kvs, parseJsonResponse Json.parse response = .ok (.obj kvs) := by
  unfold parseJsonResponse
  cases hres : parseJsonResponseTry Json.parse response with
  | error msg => exact ⟨_, rfl⟩
  | ok v =>
    have hv : ∃ kvs, v = .obj kvs := by
      unfold parseJsonResponseTry at hres
      split at hres
      · rename_i text
        split at hres
        · rename_i m hm
          obtain ⟨r, hr⟩ := regexMatch_head _ _ hm
          subst hr
          exact parse_lbrace r v hres
        · simp only [Except.ok.injEq] at hres
          exact ⟨_, hres.symm⟩
      all_goals simp at hres
    obtain ⟨kvs, hk⟩ := hv
    exact ⟨kvs, by rw [hk]⟩

/-- C5 (`parseJsonResponse` never raises).  Whatever `JSON.parse` does and
whatever the response is, a string or not, `parseJsonResponse` returns a value
and does not throw; with the reference parser the value is an object; and then
`generateTestSteps` returns a plan whenever the service has answered with a
body whose `response` can be read. -/
theorem parseJsonResponse_never_raises :
    (∀ (parse : String → Except String JsVal) (response : JsVal),
        ∃ v, parseJsonResponse parse response = .ok v)
    ∧ (∀ response : JsVal, ∃ kvs, parseJsonResponse Json.parse response = .ok (.obj kvs))
    ∧ (∀ (env : Env) (model : JsVal) (description : String) (context : JsVal) (request : Cmd)
        (data raw : JsVal) (s : State),
        buildPrompt model description context = .ok request →
        env.generate s.trace request = .ok data →
        data.get "response" = .ok raw →
        ∃ plan s1, generateTestSteps env Json.parse model description context s = (.ok plan, s1)) := by
  refine ⟨?_, parseJsonResponse_object, ?_⟩
  · intro parse response
    unfold parseJsonResponse
    cases parseJsonResponseTry parse response with
    | ok v => exact ⟨v, rfl⟩
    | error msg => exact ⟨_, rfl⟩
  · intro env model description context request data raw s hbuild hgen hraw
    obtain ⟨kvs, hk⟩ := parseJsonResponse_object raw
    exact ⟨_, _, generateTestSteps_of_parsed env Json.parse model description context request data
      raw kvs s hbuild hgen hraw hk⟩

/-- C5 at responses with unbalanced and malformed braces, at the empty string and
at a response that is not a string. -/
theorem parseJsonResponse_never_raises_witness :
    parseJsonResponse Json.parse (.str "\x7d\x7b \x7b\"steps\": [\x7d")
        = .ok (errorFallback Json.unexpectedToken)
    ∧ parseJsonResponse Json.parse (.str "") = .ok noJsonFallback
    ∧ parseJsonResponse Json.parse .undefined
        = .ok (errorFallback "Cannot read properties of undefined (reading \x27match\x27)")
    ∧ ∃ plan s1, generateTestSteps (Demo.serviceSays "\x7d\x7b \x7b\"steps\": [\x7d") Json.parse
        (.str "llama3") "login" (.obj []) Demo.fresh = (.ok plan, s1) :=
  ⟨rfl, rfl, rfl,
    parseJsonResponse_never_raises.2.2 (Demo.serviceSays "\x7d\x7b \x7b\"steps\": [\x7d")
      (.str "llama3") "login" (.obj []) _ _ _ Demo.fresh rfl rfl rfl⟩

end LLMClient

namespace TestExecutor

/-- C6 (derived counts).  Whenever `executeSteps` returns a report,
`completedSteps` is the number of entries of `results` with `success` true,
`failedSteps` the number with `success` false, their sum is the length of
`results`, and `totalSteps` is the length of the plan.  It does return one when
the session is open or opens and no step is `null` or `undefined`. -/
theorem executeSteps_counts (env : Env) (cfg : Options) (steps : List JsVal) (s : State) :
    (∀ r s2, executeSteps env cfg steps s = (.ok r, s2) →
        r.completedSteps = r.results.countP (fun x => x.success)
        ∧ r.failedSteps = r.results.countP (fun x => !x.success)
        ∧ r.completedSteps + r.failedSteps = r.results.length
        ∧ r.totalSteps = steps.length)
    ∧ (∀ s1, ensureBrowser env cfg s = (.ok (), s1) → (∀ step ∈ steps, step.nullish = false) →
        ∃ r s2, executeSteps env cfg steps s = (.ok r, s2)) := by
  refine ⟨?_, fun s1 h1 h2 => executeSteps_returns env cfg steps s s1 h1 h2⟩
  intro r s2 h
  obtain ⟨s0, rs, s1, -, -, hr, -⟩ := executeSteps_ok h
  subst hr
  refine ⟨?_, ?_, ?_, rfl⟩
  · simp only [report, List.countP_eq_length_filter]
  · simp only [report, List.countP_eq_length_filter]
  · simp only [report, ← List.countP_eq_length_filter]
    have := List.length_eq_countP_add_countP (fun x : StepResult => x.success) rs
    simp only [Bool.not_eq_true] at this
    rw [this]
    congr 1
    apply List.countP_congr
    intro x _
    simp

/-- C6 at a plan of two steps, the second with an unknown action. -/
theorem executeSteps_counts_witness :
    (executeSteps Demo.calm Options.default [Demo.navigateStep, Demo.bogusStep]
        Demo.fresh).1.toOption.map
        (fun r => (r.completedSteps, r.failedSteps, r.results.length, r.totalSteps))
      = some (1, 1, 2, 2)
    ∧ ∃ r s2, executeSteps Demo.calm Options.default [Demo.navigateStep, Demo.bogusStep]
        Demo.fresh = (.ok r, s2) :=
  ⟨by decide,
    (executeSteps_counts Demo.calm Options.default [Demo.navigateStep, Demo.bogusStep]
      Demo.fresh).2 _ rfl (by decide)⟩

/-- C7 as amended (duration).  In the report that `executeSteps` returns,
`duration` is 0 when `results` is empty and otherwise the timestamp of the last
entry minus the timestamp of the first; it is not negative when the clock is
never set back during the run. -/
theorem executeSteps_duration (env : Env) (cfg : Options) (steps : List JsVal) (s s2 : State)
    (r : ExecutionReport) (h : executeSteps env cfg steps s = (.ok r, s2)) :
    (r.results = [] → r.duration = 0)
    ∧ (∀ first last, r.results.head? = some first → r.results.getLast? = some last →
        r.duration = last.timestamp - first.timestamp)
    ∧ ((∀ tr ext, env.clock tr ≤ env.clock (tr ++ ext)) → 0 ≤ r.duration) := by
  obtain ⟨s0, rs, s1, -, hloop, hr, -⟩ := executeSteps_ok h
  subst hr
  refine ⟨?_, ?_, ?_⟩
  · intro he
    simp only [report] at he
    simp [report, he]
  · intro first last hf hl
    simp only [report] at hf hl ⊢
    rw [hf, hl]
  · intro hmono
    have hst : Stamped env rs s1.trace :=
      stepLoop_inv env cfg steps.length (fun rs st => Stamped env rs st.trace)
        (fun i step results st out st1 hinv hit =>
          iteration_stamped hmono cfg steps.length i step results st out st1 hinv hit)
        steps 0 [] s0 rs s1 ⟨by simp, List.Pairwise.nil⟩ hloop
    simp only [report]
    cases hf : rs.head? with
    | none => simp
    | some first =>
      cases hl : rs.getLast? with
      | none => simp
      | some last =>
        have := pairwise_head_le_last rs hst.2 first last hf hl
        simp only
        omega

/-- C7 at a plan of two steps under a clock that advances. -/
theorem executeSteps_duration_witness :
    (executeSteps Demo.calm Options.default [Demo.navigateStep, Demo.navigateStep]
        Demo.fresh).1.toOption.map (fun r => (r.results.map (fun x => x.timestamp), r.duration))
      = some ([4, 7], 3)
    ∧ ∀ r s2, executeSteps Demo.calm Options.default [Demo.navigateStep, Demo.navigateStep]
        Demo.fresh = (.ok r, s2) → 0 ≤ r.duration := by
  refine ⟨by decide, fun r s2 h => ?_⟩
  refine (executeSteps_duration Demo.calm Options.default _ Demo.fresh s2 r h).2.2 ?_
  intro tr ext
  simp [Demo.calm]

/-- C7 fails as stated: the wall clock is set back during the run, the second
timestamp is earlier than the first, and `duration` is negative. -/
theorem executeSteps_duration_negative :
    (executeSteps Demo.clockSetBack Options.default [Demo.navigateStep, Demo.navigateStep]
        Demo.fresh).1.toOption.map (fun r => (r.results.map (fun x => x.timestamp), r.duration))
      = some ([996, 993], -3) := by
  decide

/-- C8 (final screenshot).  Whenever `executeSteps` returns a report, the events
of the call are those of the session and the loop, then one call of
`takeScreenshot` named `final-result` from the end of `executeSteps`, then only
the commands of that call.  The loop makes no call from the end of
`executeSteps` and one call from its `catch` block for each failed entry, named
`error-step-i` after the step, in order.  So the calls that are not made by a
`screenshot` step number `failedSteps + 1`.  A report is returned when the
session is open or opens and no step is `null` or `undefined`.  `takeScreenshot`
catches its own exceptions; when the screenshot directory is a string that can
be created and the executor does not hold a browser without a page, the final
call sends its screenshot command, the last event before the report is
returned. -/
theorem executeSteps_screenshots (env : Env) (cfg : Options) (steps : List JsVal) (s : State) :
    (∀ r s2, executeSteps env cfg steps s = (.ok r, s2) →
      ∃ loopEvs finalEvs,
        s2.trace = s.trace ++ loopEvs ++ .shot .finalResult "final-result" :: finalEvs
        ∧ (∀ ev ∈ finalEvs, ev.isShot = false)
        ∧ finalShots loopEvs = []
        ∧ errorShots loopEvs = (r.results.filter (fun x => !x.success)).map
            (fun x => "error-step-" ++ toString x.step)
        ∧ ((loopEvs ++ .shot .finalResult "final-result" :: finalEvs).filter
            Event.isLoopShot).length = r.failedSteps + 1)
    ∧ (∀ s1, ensureBrowser env cfg s = (.ok (), s1) → (∀ step ∈ steps, step.nullish = false) →
        ∃ r s2, executeSteps env cfg steps s = (.ok r, s2))
    ∧ (∀ r s2 d, executeSteps env cfg steps s = (.ok r, s2) → cfg.screenshotDir = .str d →
        (∀ tr, env.run tr (.mkdir cfg.screenshotDir) = none) →
        (s.browser = true → s.page = true) →
        ∃ tr t, s2.trace = tr ++ [.cmd (.screenshot d "final-result" t)]) := by
  refine ⟨?_, fun s1 h1 h2 => executeSteps_returns env cfg steps s s1 h1 h2, ?_⟩
  rotate_left
  · intro r s2 d h hdir hmk hinv
    obtain ⟨s0, rs, s1, hready, hloop, -, hs2⟩ := executeSteps_ok h
    have hp0 := ensureBrowser_page env cfg s s0 hready hinv
    have hl := (stepLoop_flags env cfg steps.length steps 0 [] s0).2
    rw [hloop] at hl
    simp only at hl
    obtain ⟨tr, t, hsend⟩ := takeScreenshot_sends env cfg .finalResult (.str "final-result") s1 d
      hdir hmk (by rw [hl, hp0])
    rw [toStr_str] at hsend
    exact ⟨tr, t, by rw [hs2, hsend]⟩
  intro r s2 h
  obtain ⟨s0, rs, s1, hready, hloop, hr, hs2⟩ := executeSteps_ok h
  obtain ⟨e0, he0, q0⟩ := ensureBrowser_trace env cfg s
  rw [hready] at he0
  simp only at he0
  have hinv := stepLoop_inv env cfg steps.length
    (fun rs st => ∃ evs, st.trace = s.trace ++ evs
      ∧ errorShots evs = (rs.filter (fun x => !x.success)).map
          (fun x => "error-step-" ++ toString x.step)
      ∧ finalShots evs = [])
    (fun i step results st out st1 hinv hit =>
      iteration_shots env cfg steps.length s.trace i step results st out st1 hinv hit)
    steps 0 [] s0 rs s1
    ⟨e0, he0, by
      rw [errorShots_quiet e0 (not_loopShot_of_not_shot e0 q0)]
      rfl, finalShots_quiet e0 (not_loopShot_of_not_shot e0 q0)⟩ hloop
  obtain ⟨loopEvs, htr, herr, hfin⟩ := hinv
  obtain ⟨finalEvs, hshot, qf⟩ := takeScreenshot_eq env cfg .finalResult (.str "final-result") s1
  rw [toStr_str] at hshot
  have hff : finalShots (.shot .finalResult "final-result" :: finalEvs) = ["final-result"] := by
    have h3 := finalShots_quiet finalEvs (not_loopShot_of_not_shot finalEvs qf)
    have : (Event.shot .finalResult "final-result" :: finalEvs)
        = [.shot .finalResult "final-result"] ++ finalEvs := rfl
    rw [this, finalShots_append, h3]
    rfl
  have hfe : errorShots (.shot .finalResult "final-result" :: finalEvs) = [] := by
    have h3 := errorShots_quiet finalEvs (not_loopShot_of_not_shot finalEvs qf)
    have : (Event.shot .finalResult "final-result" :: finalEvs)
        = [.shot .finalResult "final-result"] ++ finalEvs := rfl
    rw [this, errorShots_append, h3]
    rfl
  subst hr
  refine ⟨loopEvs, finalEvs, ?_, qf, hfin, herr, ?_⟩
  · rw [hs2, hshot]
    simp only [htr, List.append_assoc]
  · rw [loopShots_length, errorShots_append, finalShots_append, herr, hfin, hff, hfe]
    simp [report]

/-- C8 at a plan of three steps, the second a `screenshot` step named
`final-result` and the third an unknown action: one call from the `catch` block,
one from the end, and the call of the step apart. -/
theorem executeSteps_screenshots_witness :
    ((executeSteps Demo.calm Options.default
        [Demo.navigateStep, .obj [("action", .str "screenshot"), ("value", .str "final-result")],
          Demo.bogusStep] Demo.fresh).2.trace.filter Event.isShot).length = 3
    ∧ ∀ r s2, executeSteps Demo.calm Options.default
        [Demo.navigateStep, .obj [("action", .str "screenshot"), ("value", .str "final-result")],
          Demo.bogusStep] Demo.fresh = (.ok r, s2) →
        (s2.trace.filter Event.isLoopShot).length = r.failedSteps + 1
          ∧ ∃ tr t, s2.trace = tr ++ [.cmd (.screenshot "./screenshots" "final-result" t)] := by
  refine ⟨by decide, fun r s2 h => ⟨?_, ?_⟩⟩
  · obtain ⟨loopEvs, finalEvs, htr, -, -, -, hcount⟩ :=
      (executeSteps_screenshots Demo.calm Options.default _ Demo.fresh).1 r s2 h
    rw [htr, List.append_assoc]
    exact hcount
  · exact (executeSteps_screenshots Demo.calm Options.default _ Demo.fresh).2.2 r s2
      "./screenshots" h rfl (fun _ => rfl) (by decide)

end TestExecutor

/-! ## The claims about `runTest` -/

namespace TestRunner

theorem close_state (env : Env) (s : State) :
    ∃ evs, (TestExecutor.close env s).2.trace = s.trace ++ evs
      ∧ ∀ ev ∈ evs, ev = .cmd .browserClose := by
  unfold TestExecutor.close
  by_cases hb : s.browser = true
  · simp only [hb, if_true]
    unfold send
    cases env.run s.trace .browserClose with
    | none => exact ⟨[.cmd .browserClose], rfl, by simp⟩
    | some e => exact ⟨[.cmd .browserClose], rfl, by simp⟩
  · simp only [hb, if_false]
    exact ⟨[], by simp, by simp⟩

theorem runTest_ok {env : Env} {r : Runner} {description : String} {context : JsVal}
    {s sEnd : State} {summary : RunSummary}
    (h : runTest env r description context s = (.ok summary, sEnd)) :
    summary = (tryCatchBlocks env r (clockRead env s).1 description context (clockRead env s).2).1
      ∧ TestExecutor.close env
          (tryCatchBlocks env r (clockRead env s).1 description context (clockRead env s).2).2
        = (.ok (), sEnd) := by
  unfold runTest at h
  simp only at h
  rcases hc : TestExecutor.close env
    (tryCatchBlocks env r (clockRead env s).1 description context (clockRead env s).2).2
    with ⟨rc, sc⟩
  rw [hc] at h
  cases rc with
  | error e => simp at h
  | ok u =>
    simp only [Prod.mk.injEq, Except.ok.injEq] at h
    exact ⟨h.1.symm, by rw [h.2]⟩

/-- The `try` and `catch` blocks when the generator throws, and when it returns
steps that are not an array: the error summary, and no event of the executor. -/
theorem tryCatchBlocks_degraded (env : Env) (r : Runner) (startTime : Int)
    (description : String) (context : JsVal) (s : State) :
    (∀ msg s1, LLMClient.generateTestSteps env r.parse r.model description context s
        = (.error msg, s1) →
      ∃ d t evs, tryCatchBlocks env r startTime description context s
          = (.errorSummary description msg 0 d t, { s with trace := s.trace ++ evs })
        ∧ ∀ ev ∈ evs, ev.isExecution = false)
    ∧ (∀ plan s1, LLMClient.generateTestSteps env r.parse r.model description context s
        = (.ok plan, s1) → plan.steps.isArray = false →
      ∃ d t evs, tryCatchBlocks env r startTime description context s
          = (.errorSummary description "LLM no generó pasos válidos" 0 d t,
              { s with trace := s.trace ++ evs })
        ∧ ∀ ev ∈ evs, ev.isExecution = false) := by
  obtain ⟨e1, hg, q1⟩ :=
    LLMClient.generateTestSteps_state env r.parse r.model description context s
  constructor
  · intro msg s1 hgen
    rw [hgen] at hg
    simp only at hg
    subst hg
    obtain ⟨d, t, e2, hcb, q2⟩ := catchBlock_state env r startTime description msg 0
      { browser := s.browser, page := s.page, trace := s.trace ++ e1 }
    refine ⟨d, t, e1 ++ e2, ?_, ?_⟩
    · unfold tryCatchBlocks
      rw [hgen]
      simp only [hcb, List.append_assoc]
    · intro ev hev
      rcases List.mem_append.mp hev with h | h
      · exact q1 ev h
      · exact q2 ev h
  · intro plan s1 hgen harr
    rw [hgen] at hg
    simp only at hg
    subst hg
    obtain ⟨d, t, e2, hcb, q2⟩ := catchBlock_state env r startTime description
      "LLM no generó pasos válidos" 0
      { browser := s.browser, page := s.page, trace := s.trace ++ e1 }
    refine ⟨d, t, e1 ++ e2, ?_, ?_⟩
    · unfold tryCatchBlocks
      rw [hgen]
      simp only [harr, Bool.not_false, Bool.or_true, if_true, hcb, List.append_assoc]
    · intro ev hev
      rcases List.mem_append.mp hev with h | h
      · exact q1 ev h
      · exact q2 ev h

theorem logSteps_ok (steps : List JsVal) (h : ∀ step ∈ steps, step.nullish = false) :
    logSteps steps = .ok () := by
  induction steps with
  | nil => rfl
  | cons step rest ih =>
    unfold logSteps
    rw [TestExecutor.get_of_not_nullish step "action" (h step (by simp))]
    exact ih (fun st hst => h st (by simp [hst]))

/-- The summary that `runTest` is about to return has `success` true exactly
when the generator returned an array of steps and `executeSteps` returned a
report without a failed step. -/
theorem tryCatchBlocks_success (env : Env) (r : Runner) (startTime : Int)
    (description : String) (context : JsVal) (s : State) :
    (tryCatchBlocks env r startTime description context s).1.success = true ↔
      ∃ plan s1 steps rep s2,
        LLMClient.generateTestSteps env r.parse r.model description context s = (.ok plan, s1)
        ∧ plan.steps = .arr steps
        ∧ TestExecutor.executeSteps env r.cfg steps s1 = (.ok rep, s2)
        ∧ rep.failedSteps = 0 := by
  have hcatch : ∀ msg count st,
      (catchBlock env r startTime description msg count st).1.success = false := by
    intro msg count st
    obtain ⟨d, t, evs, h, -⟩ := catchBlock_state env r startTime description msg count st
    rw [h]
    rfl
  constructor
  · intro h
    unfold tryCatchBlocks at h
    rcases hgen : LLMClient.generateTestSteps env r.parse r.model description context s
      with ⟨rg, s1⟩
    rw [hgen] at h
    cases rg with
    | error msg =>
      simp only [hcatch] at h
      exact absurd h (by simp)
    | ok plan =>
      simp only at h
      split at h
      · simp only [hcatch] at h
        exact absurd h (by simp)
      · rename_i hvalid
        cases hsteps : plan.steps with
        | arr steps =>
          rw [hsteps] at h
          simp only [JsVal.elems] at h
          cases hlog : logSteps steps with
          | error msg =>
            rw [hlog] at h
            simp only [hcatch] at h
            exact absurd h (by simp)
          | ok u =>
            rw [hlog] at h
            simp only at h
            rcases hex : TestExecutor.executeSteps env r.cfg steps s1 with ⟨re, s2⟩
            rw [hex] at h
            cases re with
            | error msg =>
              simp only [hcatch] at h
              exact absurd h (by simp)
            | ok rep =>
              simp only [RunSummary.success, clockRead, beq_iff_eq] at h
              exact ⟨plan, s1, steps, rep, s2, rfl, hsteps, hex, h⟩
        | undefined => simp [hsteps, JsVal.isArray] at hvalid
        | null => simp [hsteps, JsVal.isArray] at hvalid
        | bool b => simp [hsteps, JsVal.isArray] at hvalid
        | num m e => simp [hsteps, JsVal.isArray] at hvalid
        | str x => simp [hsteps, JsVal.isArray] at hvalid
        | obj kvs => simp [hsteps, JsVal.isArray] at hvalid
  · rintro ⟨plan, s1, steps, rep, s2, hgen, hsteps, hex, h0⟩
    have hlog := logSteps_ok steps (TestExecutor.executeSteps_no_failure hex h0)
    unfold tryCatchBlocks
    rw [hgen]
    simp only [hsteps, JsVal.truthy, JsVal.isArray, Bool.not_true, Bool.or_self,
      Bool.false_eq_true, if_false, JsVal.elems, hlog, hex, clockRead, h0]
    rfl

/-- C9 (success determination).  Let `runTest` return a summary.  Its `success`
is true exactly when the generator returned a plan whose `steps` is an array,
`executeSteps` returned a report on these steps, and the report has
`failedSteps = 0`.  When the generator throws, the summary is the error summary
with the message of the exception and a step count of 0; when `steps` is not an
array it is the error summary with the message `LLM no generó pasos válidos`; in
both cases `success` is false and the run holds no event of the executor: no
browser command other than `close` and no call of `takeScreenshot`. -/
theorem runTest_success (env : Env) (r : Runner) (description : String) (context : JsVal)
    (s sEnd : State) (summary : RunSummary)
    (h : runTest env r description context s = (.ok summary, sEnd)) :
    (summary.success = true ↔
      ∃ plan s1 steps rep s2,
        LLMClient.generateTestSteps env r.parse r.model description context (clockRead env s).2
          = (.ok plan, s1)
        ∧ plan.steps = .arr steps
        ∧ TestExecutor.executeSteps env r.cfg steps s1 = (.ok rep, s2)
        ∧ rep.failedSteps = 0)
    ∧ (∀ msg s1,
        LLMClient.generateTestSteps env r.parse r.model description context (clockRead env s).2
          = (.error msg, s1) →
        (∃ d t, summary = .errorSummary description msg 0 d t) ∧ summary.success = false
          ∧ ∃ evs, sEnd.trace = s.trace ++ evs ∧ ∀ ev ∈ evs, ev.isExecution = false)
    ∧ (∀ plan s1,
        LLMClient.generateTestSteps env r.parse r.model description context (clockRead env s).2
          = (.ok plan, s1) →
        plan.steps.isArray = false →
        (∃ d t, summary = .errorSummary description "LLM no generó pasos válidos" 0 d t)
          ∧ summary.success = false
          ∧ ∃ evs, sEnd.trace = s.trace ++ evs ∧ ∀ ev ∈ evs, ev.isExecution = false) := by
  obtain ⟨hsum, hclose⟩ := runTest_ok h
  obtain ⟨ec, hc, qc⟩ := close_state env
    (tryCatchBlocks env r (clockRead env s).1 description context (clockRead env s).2).2
  rw [hclose] at hc
  simp only at hc
  obtain ⟨hd1, hd2⟩ := tryCatchBlocks_degraded env r (clockRead env s).1 description context
    (clockRead env s).2
  have hfinish : ∀ (msg : String) (d t : Int) (evs : List Event),
      tryCatchBlocks env r (clockRead env s).1 description context (clockRead env s).2
        = (.errorSummary description msg 0 d t,
            { (clockRead env s).2 with trace := (clockRead env s).2.trace ++ evs }) →
      (∀ ev ∈ evs, ev.isExecution = false) →
      (∃ d t, summary = .errorSummary description msg 0 d t) ∧ summary.success = false
        ∧ ∃ evs, sEnd.trace = s.trace ++ evs ∧ ∀ ev ∈ evs, ev.isExecution = false := by
    intro msg d t evs htc q
    rw [htc] at hsum hc
    refine ⟨⟨d, t, hsum⟩, by rw [hsum]; rfl, [.now] ++ evs ++ ec, ?_, ?_⟩
    · rw [hc]
      simp [clockRead, List.append_assoc]
    · intro ev hev
      rcases List.mem_append.mp hev with h1 | h1
      · rcases List.mem_append.mp h1 with h2 | h2
        · simp only [List.mem_singleton] at h2
          subst h2
          rfl
        · exact q ev h2
      · rw [qc ev h1]
        rfl
  refine ⟨?_, ?_, ?_⟩
  · rw [hsum]
    exact tryCatchBlocks_success env r (clockRead env s).1 description context (clockRead env s).2
  · intro msg s1 hgen
    obtain ⟨d, t, evs, htc, q⟩ := hd1 msg s1 hgen
    exact hfinish msg d t evs htc q
  · intro plan s1 hgen harr
    obtain ⟨d, t, evs, htc, q⟩ := hd2 plan s1 hgen harr
    exact hfinish _ d t evs htc q

/-- C9 at a run whose generator answers the plan of the specification and whose
single step succeeds. -/
theorem runTest_success_witness :
    (runTest (Demo.serviceSays Demo.planText) Demo.runner "open the page" (.obj [])
        Demo.fresh).1.toOption.map RunSummary.success = some true
    ∧ ∃ plan s1 steps rep s2,
        LLMClient.generateTestSteps (Demo.serviceSays Demo.planText) Json.parse (.str "llama3")
            "open the page" (.obj []) (clockRead (Demo.serviceSays Demo.planText) Demo.fresh).2
          = (.ok plan, s1)
        ∧ plan.steps = .arr steps
        ∧ TestExecutor.executeSteps (Demo.serviceSays Demo.planText) Options.default steps s1
          = (.ok rep, s2)
        ∧ rep.failedSteps = 0 :=
  ⟨by decide,
    (runTest_success (Demo.serviceSays Demo.planText) Demo.runner "open the page" (.obj [])
      Demo.fresh _ _ rfl).1.mp (by decide)⟩

/-- The `try` and `catch` blocks of `runTest` never leave a page without a
browser. -/
theorem tryCatchBlocks_flags (env : Env) (r : Runner) (startTime : Int) (description : String)
    (context : JsVal) (s : State) (hinv : s.page = true → s.browser = true) :
    (tryCatchBlocks env r startTime description context s).2.page = true →
      (tryCatchBlocks env r startTime description context s).2.browser = true := by
  have hcatch : ∀ msg count (st : State), (st.page = true → st.browser = true) →
      (catchBlock env r startTime description msg count st).2.page = true →
        (catchBlock env r startTime description msg count st).2.browser = true := by
    intro msg count st hst
    obtain ⟨d, t, evs, h, -⟩ := catchBlock_state env r startTime description msg count st
    rw [h]
    exact hst
  obtain ⟨e1, hg, -⟩ :=
    LLMClient.generateTestSteps_state env r.parse r.model description context s
  unfold tryCatchBlocks
  rcases hgen : LLMClient.generateTestSteps env r.parse r.model description context s
    with ⟨rg, s1⟩
  rw [hgen] at hg
  simp only at hg
  have hs1 : s1.page = true → s1.browser = true := by
    rw [hg]
    exact hinv
  cases rg with
  | error msg => exact hcatch msg 0 s1 hs1
  | ok plan =>
    simp only
    split
    · exact hcatch _ 0 s1 hs1
    · cases hlog : logSteps plan.steps.elems with
      | error msg => exact hcatch msg _ s1 hs1
      | ok u =>
        simp only
        have hex := TestExecutor.executeSteps_flags env r.cfg plan.steps.elems s1 hs1
        rcases hrun : TestExecutor.executeSteps env r.cfg plan.steps.elems s1 with ⟨re, s2⟩
        rw [hrun] at hex
        simp only at hex
        cases re with
        | error msg => exact hcatch msg _ s2 hex
        | ok rep =>
          simp only [clockRead]
          split
          · obtain ⟨evs, hsave, -⟩ := saveTestResults_state env
              (RunSummary.summary (rep.failedSteps == 0) description rep.totalSteps
                rep.completedSteps rep.failedSteps (env.clock s2.trace - startTime) plan.model
                plan.reasoning rep.results (env.clock (s2.trace ++ [.now])))
              { browser := s2.browser, page := s2.page, trace := s2.trace ++ [.now] ++ [.now] }
            rw [hsave]
            exact hex
          · exact hex

/-- C10 (scoped session release).  Start from an executor that holds no page
without a browser, as a new one does.  Whenever `runTest` returns, `browser` and
`page` are `null`.  On every exit path `close` has run on the state that the
`try` and `catch` blocks left: when a browser was open there, the last event of
the run is the command `browser.close()`; and `runTest` throws only when that
command is rejected, with its message, so no exception of the generator or the
executor leaves `runTest`. -/
theorem runTest_releases_session (env : Env) (r : Runner) (description : String)
    (context : JsVal) (s : State) (hinv : s.page = true → s.browser = true) :
    (∀ summary sEnd, runTest env r description context s = (.ok summary, sEnd) →
        sEnd.browser = false ∧ sEnd.page = false)
    ∧ (∀ result sEnd, runTest env r description context s = (result, sEnd) →
        (tryCatchBlocks env r (clockRead env s).1 description context
            (clockRead env s).2).2.browser = true →
        ∃ tr, sEnd.trace = tr ++ [.cmd .browserClose])
    ∧ (∀ msg sEnd, runTest env r description context s = (.error msg, sEnd) →
        ∃ tr, sEnd.trace = tr ++ [.cmd .browserClose]
          ∧ env.run tr .browserClose = some msg)
    ∧ ((runTest env r description context s).2.page = true →
        (runTest env r description context s).2.browser = true) := by
  have hflags := tryCatchBlocks_flags env r (clockRead env s).1 description context
    (clockRead env s).2 hinv
  unfold runTest
  simp only
  generalize (tryCatchBlocks env r (clockRead env s).1 description context
    (clockRead env s).2) = tc at hflags ⊢
  obtain ⟨summary0, sB⟩ := tc
  simp only at hflags ⊢
  unfold TestExecutor.close send
  by_cases hb : sB.browser = true
  · simp only [hb, if_true]
    cases hrun : env.run sB.trace .browserClose with
    | none =>
      simp only
      refine ⟨?_, ?_, ?_, ?_⟩
      · intro summary sEnd h
        simp only [Prod.mk.injEq] at h
        rw [← h.2]
        exact ⟨rfl, rfl⟩
      · intro result sEnd h _
        simp only [Prod.mk.injEq] at h
        rw [← h.2]
        exact ⟨sB.trace, rfl⟩
      · intro msg sEnd h
        simp at h
      · intro hp
        simp at hp
    | some e =>
      simp only
      refine ⟨?_, ?_, ?_, ?_⟩
      · intro summary sEnd h
        simp at h
      · intro result sEnd h _
        simp only [Prod.mk.injEq] at h
        rw [← h.2]
        exact ⟨sB.trace, rfl⟩
      · intro msg sEnd h
        simp only [Prod.mk.injEq, Except.error.injEq] at h
        rw [← h.2, ← h.1]
        exact ⟨sB.trace, rfl, hrun⟩
      · intro _
        trivial
  · have hb2 : sB.browser = false := by simpa using hb
    have hp2 : sB.page = false := by
      cases hp : sB.page with
      | false => rfl
      | true => exact absurd (hflags hp) hb
    simp only [hb2, Bool.false_eq_true, if_false]
    refine ⟨?_, ?_, ?_, ?_⟩
    · intro summary sEnd h
      simp only [Prod.mk.injEq] at h
      rw [← h.2]
      exact ⟨hb2, hp2⟩
    · intro result sEnd h hopen
      simp at hopen
    · intro msg sEnd h
      simp at h
    · intro hp
      rw [hp2] at hp
      exact absurd hp (by simp)

/-- C10 at a run that succeeds and at a run whose generator is unreachable: both
start from a new executor, return, and leave `browser` and `page` `null`. -/
theorem runTest_releases_session_witness :
    (∀ summary sEnd, runTest (Demo.serviceSays Demo.planText) Demo.runner "open the page"
        (.obj []) Demo.fresh = (.ok summary, sEnd) → sEnd.browser = false ∧ sEnd.page = false)
    ∧ ((runTest (Demo.serviceSays Demo.planText) Demo.runner "open the page" (.obj [])
        Demo.fresh).1.toOption.isSome = true)
    ∧ ((runTest Demo.calm Demo.runner "open the page" (.obj []) Demo.fresh).1.toOption.map
        RunSummary.success = some false) :=
  ⟨(runTest_releases_session (Demo.serviceSays Demo.planText) Demo.runner "open the page" (.obj [])
      Demo.fresh (by decide)).1, by decide, by decide⟩

/-! ## The claim about `runMultipleTests` -/

theorem catchBlock_description (env : Env) (r : Runner) (startTime : Int)
    (description msg : String) (count : Nat) (s : State) :
    (catchBlock env r startTime description msg count s).1.description = description := by
  obtain ⟨d, t, evs, h, -⟩ := catchBlock_state env r startTime description msg count s
  rw [h]
  rfl

/-- The summary that `runTest` is about to return carries the description. -/
theorem tryCatchBlocks_description (env : Env) (r : Runner) (startTime : Int)
    (description : String) (context : JsVal) (s : State) :
    (tryCatchBlocks env r startTime description context s).1.description = description := by
  unfold tryCatchBlocks
  rcases LLMClient.generateTestSteps env r.parse r.model description context s with ⟨rg, s1⟩
  cases rg with
  | error msg => exact catchBlock_description env r startTime description msg 0 s1
  | ok plan =>
    simp only
    split
    · exact catchBlock_description env r startTime description _ 0 s1
    · cases logSteps plan.steps.elems with
      | error msg => exact catchBlock_description env r startTime description msg _ s1
      | ok u =>
        simp only
        rcases TestExecutor.executeSteps env r.cfg plan.steps.elems s1 with ⟨re, s2⟩
        cases re with
        | error msg => exact catchBlock_description env r startTime description msg _ s2
        | ok rep => rfl

/-- When `browser.close()` is never rejected, `runTest` returns a summary of its
description. -/
theorem runTest_returns (env : Env) (r : Runner) (description : String) (context : JsVal)
    (s : State) (hclose : ∀ tr, env.run tr .browserClose = none) :
    ∃ summary s1, runTest env r description context s = (.ok summary, s1)
      ∧ summary.description = description := by
  unfold runTest
  simp only
  have hd := tryCatchBlocks_description env r (clockRead env s).1 description context
    (clockRead env s).2
  generalize (tryCatchBlocks env r (clockRead env s).1 description context
    (clockRead env s).2) = tc at hd ⊢
  obtain ⟨summary0, sB⟩ := tc
  simp only at hd ⊢
  unfold TestExecutor.close send
  by_cases hb : sB.browser = true
  · simp only [hb, if_true, hclose]
    exact ⟨_, _, rfl, hd⟩
  · simp only [hb, Bool.false_eq_true, if_false]
    exact ⟨_, _, rfl, hd⟩

/-- When `browser.close()` is never rejected, the loop of `runMultipleTests`
pushes one summary per description, in order. -/
theorem batchLoop_returns (env : Env) (r : Runner) (context : JsVal) (total : Nat)
    (hclose : ∀ tr, env.run tr .browserClose = none) :
    ∀ (descriptions : List String) (i : Nat) (acc : List RunSummary) (s : State),
      ∃ ext s1, batchLoop env r context total descriptions i acc s = (.ok (acc ++ ext), s1)
        ∧ ext.map RunSummary.description = descriptions := by
  intro descriptions
  induction descriptions with
  | nil =>
    intro i acc s
    exact ⟨[], s, by simp [batchLoop], rfl⟩
  | cons d rest ih =>
    intro i acc s
    obtain ⟨summary, s1, hrun, hd⟩ := runTest_returns env r d context s hclose
    obtain ⟨ext, s2, hloop, hmap⟩ := ih (i + 1) (acc ++ [summary])
      (if (i : Int) < (total : Int) - 1 then sleep 3000 s1 else s1)
    refine ⟨summary :: ext, s2, ?_, ?_⟩
    · unfold batchLoop
      rw [hrun]
      simp only [hloop, List.append_assoc, List.singleton_append]
    · simp only [List.map_cons, hd, hmap]

/-- C11 as amended (batch independence).  When no `browser.close()` is
rejected, then for every list of descriptions and whatever else the runs meet
(generator failures, failed steps, a browser that does not open),
`runMultipleTests` returns a batch summary with one run summary per description,
in description order, `totalTests = N`, `successful` the number of summaries
with `success` true, `failed = N - successful`, and, for a list that is not
empty, `successRate = successful / N`. -/
theorem runMultipleTests_batch (env : Env) (r : Runner) (descriptions : List String)
    (context : JsVal) (s : State) (hclose : ∀ tr, env.run tr .browserClose = none) :
    ∃ b s1, runMultipleTests env r descriptions context s = (.ok b, s1)
      ∧ b.results.length = descriptions.length
      ∧ b.results.map RunSummary.description = descriptions
      ∧ b.totalTests = descriptions.length
      ∧ b.successful = b.results.countP (fun x => x.success)
      ∧ b.failed = (descriptions.length : Int) - (b.successful : Int)
      ∧ (descriptions ≠ [] →
          b.successRate = some ((b.successful : ℚ) / (descriptions.length : ℚ))) := by
  obtain ⟨ext, s1, hloop, hmap⟩ :=
    batchLoop_returns env r context descriptions.length hclose descriptions 0 [] s
  simp only [List.nil_append] at hloop
  have hlen : ext.length = descriptions.length := by
    have := congrArg List.length hmap
    simpa using this
  unfold runMultipleTests
  rw [hloop]
  refine ⟨_, s1, rfl, ?_, ?_, ?_, ?_, ?_, ?_⟩
  · exact hlen
  · exact hmap
  · exact hlen
  · simp only [List.countP_eq_length_filter]
  · simp only [hlen]
  · intro hne
    have h0 : ext.length ≠ 0 := by
      rw [hlen]
      exact fun h => hne (List.length_eq_zero.mp h)
    rw [hlen] at h0
    simp only [hlen, if_neg h0]

theorem runMultipleTests_batch_witness :
    (∀ tr, (Demo.serviceSays Demo.planText).run tr .browserClose = none)
    ∧ ∃ b s1, runMultipleTests (Demo.serviceSays Demo.planText) Demo.runner
          ["abre la tienda", "abre la tienda otra vez"] (.obj []) Demo.fresh = (.ok b, s1)
      ∧ b.results.length = 2
      ∧ b.results.map RunSummary.description = ["abre la tienda", "abre la tienda otra vez"]
      ∧ b.totalTests = 2
      ∧ b.successful = b.results.countP (fun x => x.success)
      ∧ b.failed = (2 : Int) - (b.successful : Int)
      ∧ (["abre la tienda", "abre la tienda otra vez"] ≠ [] →
          b.successRate = some ((b.successful : ℚ) / ((2 : Nat) : ℚ))) :=
  ⟨fun _ => rfl,
   runMultipleTests_batch (Demo.serviceSays Demo.planText) Demo.runner
     ["abre la tienda", "abre la tienda otra vez"] (.obj []) Demo.fresh (fun _ => rfl)⟩

/-- C11 as written fails when the session cannot be closed: `runTest` rejects
from its `finally` block and `runMultipleTests` has no handler, so with two
descriptions and a browser that rejects `browser.close()` the batch rejects
with that error during the first run and no batch summary is returned. -/
theorem runMultipleTests_close_failure :
    (runMultipleTests Demo.closeRejects Demo.runner
        ["abre la tienda", "abre la tienda otra vez"] (.obj []) Demo.fresh).1.toOption.isSome
      = false
    ∧ (match (runMultipleTests Demo.closeRejects Demo.runner
        ["abre la tienda", "abre la tienda otra vez"] (.obj []) Demo.fresh).1 with
       | .error e => e == Demo.closedMsg
       | .ok _ => false) = true
    ∧ ((runMultipleTests Demo.closeRejects Demo.runner
        ["abre la tienda", "abre la tienda otra vez"] (.obj []) Demo.fresh).2.trace.filter
          (fun ev => match ev with
            | .cmd (.generate _ _ _ _ _) => true
            | _ => false)).length = 1 := by
  refine ⟨by decide, by decide, by decide⟩

end TestRunner

/-! ## The closed vocabulary of `executeStep` -/

theorem avoids_pure {α : Type} (msg : String) (x : α) : Avoids msg (Pure.pure x : M α) := by
  intro s h
  cases h

theorem avoids_ok {α : Type} (msg : String) (f : State → α × State) :
    Avoids msg (fun s => (.ok (f s).1, (f s).2) : M α) := by
  intro s h
  cases h

theorem avoids_bind {α β : Type} (msg : String) (m : M α) (f : α → M β)
    (hm : Avoids msg m) (hf : ∀ x, Avoids msg (f x)) : Avoids msg (m >>= f) := by
  intro s
  show (M.andThen m f s).1 ≠ _
  unfold M.andThen
  have h1 := hm s
  rcases hms : m s with ⟨r, s1⟩
  rw [hms] at h1
  cases r with
  | error e =>
    intro h
    apply h1
    simp only [Except.error.injEq] at h ⊢
    exact h
  | ok x => exact hf x s1

theorem avoids_ite {α : Type} (msg : String) (c : Prop) [Decidable c] (m1 m2 : M α)
    (h1 : Avoids msg m1) (h2 : Avoids msg m2) : Avoids msg (if c then m1 else m2) := by
  split
  · exact h1
  · exact h2

theorem avoids_raise {α : Type} (msg e : String) (h : e ≠ msg) :
    Avoids msg (M.raise e : M α) := by
  intro s h1
  simp only [M.raise, Except.error.injEq] at h1
  exact h h1

theorem avoids_lift_ok {α : Type} (msg : String) (x : α) : Avoids msg (M.lift (.ok x) : M α) := by
  intro s h
  cases h

theorem avoids_send (env : Env) (msg : String) (c : Cmd)
    (henv : ∀ tr c, env.run tr c ≠ some msg) : Avoids msg (send env c) := by
  intro s
  unfold PlaywrightLLM.send
  have := henv s.trace c
  cases h : env.run s.trace c with
  | none => simp
  | some e =>
    rw [h] at this
    simpa using this

theorem head_ne {x y : String} (h : x.data.head? ≠ y.data.head?) : x ≠ y := by
  intro hxy
  exact h (by rw [hxy])

theorem unknown_head (a : String) : ("Acción desconocida: " ++ a).data.head? = some 'A' := by
  rw [String.data_append]
  rfl

theorem avoids_onPage {α : Type} (a : String) (method : String) (m : M α)
    (hm : Avoids ("Acción desconocida: " ++ a) m) :
    Avoids ("Acción desconocida: " ++ a) (onPage method m) := by
  intro s
  unfold PlaywrightLLM.onPage
  split
  · exact hm s
  · intro h
    simp only [Except.error.injEq] at h
    have := congrArg (fun x => x.data.head?) h
    simp only [String.data_append, List.append_assoc] at this
    cases this

theorem avoids_raise_head {α : Type} (a e : String) (h : e.data.head? ≠ some 'A') :
    Avoids ("Acción desconocida: " ++ a) (M.raise e : M α) := by
  refine avoids_raise _ _ (head_ne ?_)
  rw [unknown_head]
  exact h

theorem avoids_tryCatch {α : Type} (msg : String) (body : M α) (handler : String → M α)
    (h : ∀ e, Avoids msg (handler e)) : Avoids msg (M.tryCatch body handler) := by
  intro s
  unfold M.tryCatch
  rcases body s with ⟨r, s1⟩
  cases r with
  | error e => exact h e s1
  | ok x =>
    intro h1
    cases h1

theorem destructure_avoids (step : JsVal) (k a : String) :
    Avoids ("Acción desconocida: " ++ a) (M.lift (TestExecutor.destructure step k)) := by
  intro s h
  have h1 : TestExecutor.destructure step k = .error ("Acción desconocida: " ++ a) := h
  unfold TestExecutor.destructure at h1
  split at h1
  · simp only [Except.error.injEq] at h1
    have := congrArg (fun x => x.data.head?) h1
    simp only [String.data_append, List.append_assoc] at this
    cases this
  · simp only [Except.error.injEq] at h1
    have := congrArg (fun x => x.data.head?) h1
    simp only [String.data_append, List.append_assoc] at this
    cases this
  · cases h1

theorem lift_ok_bind {α β : Type} (x : α) (f : α → M β) : (M.lift (.ok x) >>= f) = f x := rfl

namespace TestExecutor

theorem executeVerification_avoids (env : Env) (step : JsVal) (a : String) :
    Avoids ("Acción desconocida: " ++ a) (executeVerification env step) := by
  unfold executeVerification
  repeat (first
    | exact destructure_avoids _ _ _
    | exact avoids_tryCatch _ _ _ fun e => avoids_raise_head _ _ (by
        rw [String.data_append]
        intro h
        cases h)
    | refine avoids_bind _ _ _ ?_ ?_
    | intro _
    | dsimp only)

theorem caseLabels_eq : caseLabels =
    ["navigate", "goto", "click", "fill", "type", "press", "wait", "screenshot", "scroll",
     "verify", "assert", "select", "hover"] := rfl

theorem destructure_of_get {step action : JsVal} {k : String} (h : step.get k = .ok action)
    (j : String) : destructure step j = .ok (step.prop j) := by
  cases step <;> simp_all [JsVal.get, destructure]

theorem prop_of_get {step action : JsVal} {k : String} (h : step.get k = .ok action) :
    step.prop k = action := by
  cases step <;> simp_all [JsVal.get]

theorem executeStep_known (env : Env) (cfg : Options) (step : JsVal) (a : String)
    (henv : ∀ tr c, env.run tr c ≠ some ("Acción desconocida: " ++ a))
    (ha : step.get "action" = .ok (.str a))
    (hk : jsToLower a ∈ caseLabels) :
    Avoids ("Acción desconocida: " ++ a) (executeStep env cfg step) := by
  unfold executeStep
  simp only [destructure_of_get ha, prop_of_get ha, actionToLowerCase, lift_ok_bind]
  simp only [caseLabels_eq, List.mem_cons, List.mem_singleton, List.mem_nil_iff, or_false] at hk
  rcases hk with h | h | h | h | h | h | h | h | h | h | h | h | h <;> rw [h] <;>
    simp +decide only [if_true, if_false, true_or, or_true, or_self]
  all_goals
    repeat (first
      | exact executeVerification_avoids _ _ _
      | exact avoids_send _ _ _ henv
      | exact avoids_pure _ _
      | exact avoids_ok _ _
      | exact avoids_ok _ (fun s => ((), takeScreenshot env cfg .stepAction _ s))
      | refine avoids_onPage _ _ _ ?_
      | refine avoids_bind _ _ _ ?_ ?_
      | refine avoids_ite _ _ _ _ ?_ ?_
      | intro _
      | dsimp only)

theorem executeStep_unknown (env : Env) (cfg : Options) (step : JsVal)
    (a : String) (s : State) (ha : step.get "action" = .ok (.str a))
    (hk : jsToLower a ∉ caseLabels) :
    executeStep env cfg step s = (.error ("Acción desconocida: " ++ a), s) := by
  simp only [caseLabels_eq, List.mem_cons, List.mem_singleton, List.mem_nil_iff, or_false,
    not_or] at hk
  unfold executeStep
  simp only [destructure_of_get ha, prop_of_get ha, actionToLowerCase, lift_ok_bind, hk, false_or,
    if_false, or_self, M.raise, toStr_str]

theorem executeVerification_congr (env : Env) (step step' : JsVal)
    (hsel : destructure step' "selector" = destructure step "selector")
    (hval : destructure step' "value" = destructure step "value")
    (hopt : destructure step' "options" = destructure step "options") :
    executeVerification env step' = executeVerification env step := by
  unfold executeVerification
  rw [hsel, hval, hopt]

/-- C12 as amended (aliases and case).  Take two steps that are alike except
for `action`, a string in both, where the second action is a case variant of the
first (same lower-case form) or lower-cases to a label of the same `case` group
(`navigate`/`goto`, `fill`/`type`, `verify`/`assert`).  If the lower-cased
action is one of the labels, `executeStep` does the same on both from every
state: the same commands in the same order and the same message or the same
error.  If it is not, both calls throw the unknown-action error without a
command, each with its own action as written. -/
theorem executeStep_alias_case (env : Env) (cfg : Options) (step step' : JsVal) (a a' : String)
    (s : State)
    (ha : step.get "action" = .ok (.str a))
    (ha' : step'.get "action" = .ok (.str a'))
    (hsame : ∀ k, k ≠ "action" → step'.prop k = step.prop k)
    (hvar : jsToLower a' = jsToLower a
      ∨ ∃ g ∈ caseGroups, jsToLower a ∈ g ∧ jsToLower a' ∈ g) :
    (jsToLower a ∈ caseLabels → executeStep env cfg step' s = executeStep env cfg step s)
    ∧ (jsToLower a ∉ caseLabels →
        executeStep env cfg step s = (.error ("Acción desconocida: " ++ a), s)
        ∧ executeStep env cfg step' s = (.error ("Acción desconocida: " ++ a'), s)) := by
  have hgroup : ∀ g ∈ caseGroups, ∀ x ∈ g, x ∈ caseLabels := by decide
  have hv : jsToLower a ∈ caseLabels →
      ∃ g ∈ caseGroups, jsToLower a ∈ g ∧ jsToLower a' ∈ g := by
    intro hk
    rcases hvar with h | h
    · rw [h]
      simp only [caseLabels, List.mem_flatten] at hk
      obtain ⟨g, hg, hag⟩ := hk
      exact ⟨g, hg, hag, hag⟩
    · exact h
  have hv' : jsToLower a ∉ caseLabels → jsToLower a' ∉ caseLabels := by
    intro hk hk'
    rcases hvar with h | ⟨g, hg, hag, -⟩
    · rw [h] at hk'
      exact hk hk'
    · exact hk (hgroup g hg _ hag)
  refine ⟨fun hk => ?_, fun hk =>
    ⟨executeStep_unknown env cfg step a s ha hk, executeStep_unknown env cfg step' a' s ha' (hv' hk)⟩⟩
  obtain ⟨g, hg, hag, hag'⟩ := hv hk
  have hver := executeVerification_congr env step step'
    (by rw [destructure_of_get ha, destructure_of_get ha', hsame _ (by decide)])
    (by rw [destructure_of_get ha, destructure_of_get ha', hsame _ (by decide)])
    (by rw [destructure_of_get ha, destructure_of_get ha', hsame _ (by decide)])
  unfold executeStep
  simp only [destructure_of_get ha, destructure_of_get ha', prop_of_get ha, prop_of_get ha',
    hsame "selector" (by decide), hsame "value" (by decide), actionToLowerCase, lift_ok_bind]
  simp only [caseGroups, List.mem_cons, List.mem_singleton, List.mem_nil_iff, or_false] at hg
  rcases hg with h | h | h | h | h | h | h | h | h | h <;> subst h <;>
    simp only [List.mem_cons, List.mem_singleton, List.mem_nil_iff, or_false] at hag hag' <;>
    first
      | (simp +decide only [hag, hag', if_true, if_false, true_or, or_true, or_self]; done)
      | (rcases hag with h1 | h1 <;> rcases hag' with h2 | h2 <;>
          simp +decide only [h1, h2, if_true, if_false, true_or, or_true, or_self, hver])

theorem executeStep_alias_case_witness :
    executeStep Demo.calm Options.default Demo.gotoStep Demo.ready
      = executeStep Demo.calm Options.default Demo.navigateStep Demo.ready
    ∧ (executeStep Demo.calm Options.default Demo.gotoStep Demo.ready).1.toOption
      = some "Navegado a: https://x" :=
  ⟨(executeStep_alias_case Demo.calm Options.default Demo.navigateStep Demo.gotoStep
      "navigate" "GoTo" Demo.ready rfl rfl
      (by
        intro k hk
        simp only [Demo.gotoStep, Demo.navigateStep, JsVal.prop, JsVal.lookupLast,
          if_neg (Ne.symm hk)])
      (Or.inr ⟨["navigate", "goto"], by decide, by decide, by decide⟩)).1 (by decide),
   by decide⟩

/-- C12 as written fails for an action outside the vocabulary: the error of the
`default` clause echoes the action as the step wrote it, so `Dance` and `dance`,
which have the same lower-case form, fail with different messages. -/
theorem executeStep_case_echo :
    jsToLower "Dance" = jsToLower "dance"
    ∧ (executeStep Demo.calm Options.default Demo.bogusStepCapital Demo.ready).1
        = .error "Acción desconocida: Dance"
    ∧ (executeStep Demo.calm Options.default Demo.bogusStep Demo.ready).1
        = .error "Acción desconocida: dance"
    ∧ "Acción desconocida: Dance" ≠ "Acción desconocida: dance" := by
  refine ⟨by decide, rfl, rfl, by decide⟩

/-- C13 (closed vocabulary), for a step whose `action` is a string.  Provided
the browser does not itself reject a command with that very message,
`executeStep` throws `Acción desconocida: <action>` exactly when the lower-cased
action is none of the thirteen `case` labels.  In that case the state is
unchanged (no command is issued), and the turn of the loop of `executeSteps` at
any index `i`, after any earlier entries `results`, calls the error screenshot
and pushes one failed entry numbered `i + 1` with that message after the earlier
entries; the loop goes on with the next step when `critical` is `false` and ends
there otherwise. -/
theorem executeStep_closed_vocabulary (env : Env) (cfg : Options) (step : JsVal) (a : String)
    (rest : List JsVal) (total i : Nat) (results : List StepResult) (s : State)
    (ha : step.get "action" = .ok (.str a)) :
    ((∀ tr c, env.run tr c ≠ some ("Acción desconocida: " ++ a)) →
      ((executeStep env cfg step s).1 = .error ("Acción desconocida: " ++ a)
        ↔ jsToLower a ∉ caseLabels))
    ∧ (jsToLower a ∉ caseLabels →
        executeStep env cfg step s = (.error ("Acción desconocida: " ++ a), s)
        ∧ ∃ evs, (∀ ev ∈ evs, ev.isShot = false)
          ∧ iteration env cfg total i step results s
            = (.ok (results ++ [failureResult i (.str a) ("Acción desconocida: " ++ a)
                  (env.clock (s.trace
                    ++ .shot .errorStep ("error-step-" ++ toString (i + 1)) :: evs))],
                !(step.prop "critical").isFalse),
              { s with trace := s.trace
                  ++ (.shot .errorStep ("error-step-" ++ toString (i + 1)) :: evs ++ [.now]) })
          ∧ stepLoop env cfg total (step :: rest) i results s
            = if (step.prop "critical").isFalse then
                stepLoop env cfg total rest (i + 1)
                  (results ++ [failureResult i (.str a) ("Acción desconocida: " ++ a)
                    (env.clock (s.trace
                      ++ .shot .errorStep ("error-step-" ++ toString (i + 1)) :: evs))])
                  { s with trace := s.trace
                      ++ (.shot .errorStep ("error-step-" ++ toString (i + 1)) :: evs ++ [.now]) }
              else
                (.ok (results ++ [failureResult i (.str a) ("Acción desconocida: " ++ a)
                    (env.clock (s.trace
                      ++ .shot .errorStep ("error-step-" ++ toString (i + 1)) :: evs))]),
                  { s with trace := s.trace
                      ++ (.shot .errorStep ("error-step-" ++ toString (i + 1)) :: evs
                        ++ [.now]) })) := by
  refine ⟨fun henv => ⟨fun h => ?_, fun hk => ?_⟩, fun hk => ?_⟩
  · intro hk
    exact executeStep_known env cfg step a henv ha hk s h
  · rw [executeStep_unknown env cfg step a s ha hk]
  · have hex := executeStep_unknown env cfg step a s ha hk
    refine ⟨hex, ?_⟩
    obtain ⟨evs, hevs, hcb⟩ := catchBlock_eq env cfg i step (.str a)
      ("Acción desconocida: " ++ a) results s
    have hit : iteration env cfg total i step results s
        = (.ok (catchBlock env cfg i step (.str a) ("Acción desconocida: " ++ a) results s).1,
            (catchBlock env cfg i step (.str a) ("Acción desconocida: " ++ a) results s).2) := by
      unfold iteration
      rw [ha]
      simp only [hex]
    rw [hcb] at hit
    refine ⟨evs, hevs, hit, ?_⟩
    cases hc : (step.prop "critical").isFalse <;> rw [hc] at hit <;>
      simp only [stepLoop, hit, Bool.not_true, Bool.not_false, if_true, Bool.false_eq_true,
        if_false]

theorem executeStep_closed_vocabulary_witness :
    ((executeStep Demo.calm Options.default Demo.bogusStep Demo.ready).1
        = .error ("Acción desconocida: " ++ "dance")
      ↔ jsToLower "dance" ∉ caseLabels)
    ∧ jsToLower "dance" ∉ caseLabels
    ∧ executeStep Demo.calm Options.default Demo.bogusStep Demo.ready
        = (.error ("Acción desconocida: " ++ "dance"), Demo.ready) :=
  ⟨(executeStep_closed_vocabulary Demo.calm Options.default Demo.bogusStep "dance"
      [Demo.navigateStep] 2 0 [] Demo.ready rfl).1 (fun _ _ h => by cases h),
   by decide,
   ((executeStep_closed_vocabulary Demo.calm Options.default Demo.bogusStep "dance"
      [Demo.navigateStep] 2 0 [] Demo.ready rfl).2 (by decide)).1⟩

/-! ## The claims about `executeVerification` -/

theorem destructure_of_not_nullish {step : JsVal} (h : step.nullish = false) (k : String) :
    destructure step k = .ok (step.prop k) := by
  cases step <;> simp_all [JsVal.nullish, destructure]

/-- The body of `executeVerification` on a step and options that are objects. -/
theorem executeVerification_eq (env : Env) (step : JsVal) (hstep : step.nullish = false)
    (hopts : (optionsOf step).nullish = false) :
    executeVerification env step = M.tryCatch
    (do
      if ((optionsOf step).prop "text").truthy then
        onPage "waitForSelector" (send env (.waitForSelector (step.prop "selector") 5000))
        let content ← query (.textContent (step.prop "selector"))
          (fun tr => env.textContent tr (step.prop "selector"))
        match content with
        | none => M.raise "Cannot read properties of null (reading \x27includes\x27)"
        | some t =>
          if !includes t (toStr env.numToString (step.prop "value")) then
            M.raise ("Texto esperado \x27" ++ toStr env.numToString (step.prop "value")
              ++ "\x27 no encontrado en \x27" ++ t ++ "\x27")
          else pure ("Verificado texto \x27" ++ toStr env.numToString (step.prop "value")
            ++ "\x27 en: " ++ toStr env.numToString (step.prop "selector"))
      else
        if ((optionsOf step).prop "visible").isDefined then
          let isVisible ← onPage "isVisible" (query (.isVisible (step.prop "selector"))
            (fun tr => env.isVisible tr (step.prop "selector")))
          if !((optionsOf step).prop "visible").strictEqBool isVisible then
            M.raise ("Elemento " ++ toStr env.numToString (step.prop "selector") ++ " debería estar "
              ++ (if ((optionsOf step).prop "visible").truthy then "visible" else "oculto"))
          else pure ("Verificado visibilidad de: " ++ toStr env.numToString (step.prop "selector"))
        else
          if ((optionsOf step).prop "enabled").isDefined then
            let isEnabled ← onPage "isEnabled" (query (.isEnabled (step.prop "selector"))
              (fun tr => env.isEnabled tr (step.prop "selector")))
            if !((optionsOf step).prop "enabled").strictEqBool isEnabled then
              M.raise ("Elemento " ++ toStr env.numToString (step.prop "selector")
                ++ " debería estar "
                ++ (if ((optionsOf step).prop "enabled").truthy then "habilitado"
                    else "deshabilitado"))
            else pure ("Verificado estado de: " ++ toStr env.numToString (step.prop "selector"))
          else
            onPage "waitForSelector" (send env (.waitForSelector (step.prop "selector") 5000))
            pure ("Verificado elemento existe: " ++ toStr env.numToString (step.prop "selector")))
    (fun msg => M.raise ("Verificación falló: " ++ msg)) := by
  unfold executeVerification
  simp only [destructure_of_not_nullish hstep, lift_ok_bind]
  have h : ∀ k, (if (step.prop "options").isDefined = true then step.prop "options"
      else JsVal.obj []).get k = .ok ((optionsOf step).prop k) := fun k =>
    get_of_not_nullish _ k hopts
  simp only [h, lift_ok_bind]

/-- C14 (verification priority).  An option counts as set the way the code
tests it: `text` when it is truthy, `visible` and `enabled` when they are not
`undefined`.  Take a step that is an object whose `options` is absent or an
object, and an open page.  (1) When `text` is set, a second step with the same
`selector`, `value` and `options.text`, whatever its `visible` and `enabled`,
has the same outcome from the same state.  (2) When `text` is not set and
`visible` is set, the step fails exactly when the visibility `b` that the page
reports is not strictly equal to `options.visible`; `enabled` plays no part.
(3) When only `enabled` is set, the step fails exactly when the reported
enabled-state is not strictly equal to `options.enabled`.  (4) When none is
set, the step succeeds exactly when the wait for the selector is fulfilled. -/
theorem executeVerification_priority (env : Env) (step step' : JsVal) (s : State)
    (hstep : step.nullish = false) (hopts : (optionsOf step).nullish = false)
    (hstep' : step'.nullish = false) (hopts' : (optionsOf step').nullish = false)
    (hsel : step'.prop "selector" = step.prop "selector")
    (hval : step'.prop "value" = step.prop "value")
    (htext : (optionsOf step').prop "text" = (optionsOf step).prop "text")
    (hpage : s.page = true) :
    (((optionsOf step).prop "text").truthy = true →
      executeVerification env step' s = executeVerification env step s)
    ∧ (((optionsOf step).prop "text").truthy = false →
        ((optionsOf step).prop "visible").isDefined = true →
        ∀ b, env.isVisible s.trace (step.prop "selector") = .ok b →
          ((executeVerification env step s).1.toOption.isNone = true
            ↔ ((optionsOf step).prop "visible").strictEqBool b = false))
    ∧ (((optionsOf step).prop "text").truthy = false →
        ((optionsOf step).prop "visible").isDefined = false →
        ((optionsOf step).prop "enabled").isDefined = true →
        ∀ b, env.isEnabled s.trace (step.prop "selector") = .ok b →
          ((executeVerification env step s).1.toOption.isNone = true
            ↔ ((optionsOf step).prop "enabled").strictEqBool b = false))
    ∧ (((optionsOf step).prop "text").truthy = false →
        ((optionsOf step).prop "visible").isDefined = false →
        ((optionsOf step).prop "enabled").isDefined = false →
          ((executeVerification env step s).1.toOption.isSome = true
            ↔ env.run s.trace (.waitForSelector (step.prop "selector") 5000) = none)) := by
  refine ⟨fun ht => ?_, fun ht hv b hb => ?_, fun ht hv he b hb => ?_, fun ht hv he => ?_⟩
  · rw [executeVerification_eq env step hstep hopts, executeVerification_eq env step' hstep' hopts',
      hsel, hval, htext]
    simp only [ht, if_true]
  · rw [executeVerification_eq env step hstep hopts]
    simp only [ht, hv, if_true, Bool.false_eq_true, if_false]
    simp only [M.tryCatch, bind, M.andThen, onPage, query, hpage, hb, if_true]
    cases ((optionsOf step).prop "visible").strictEqBool b <;>
      simp [M.raise, pure, M.ret, Except.toOption]
  · rw [executeVerification_eq env step hstep hopts]
    simp only [ht, hv, he, if_true, Bool.false_eq_true, if_false]
    simp only [M.tryCatch, bind, M.andThen, onPage, query, hpage, hb, if_true]
    cases ((optionsOf step).prop "enabled").strictEqBool b <;>
      simp [M.raise, pure, M.ret, Except.toOption]
  · rw [executeVerification_eq env step hstep hopts]
    simp only [ht, hv, he, if_true, Bool.false_eq_true, if_false]
    simp only [M.tryCatch, bind, M.andThen, onPage, send, hpage, if_true]
    cases env.run s.trace (.waitForSelector (step.prop "selector") 5000) <;>
      simp [M.raise, pure, M.ret, Except.toOption]

theorem executeVerification_priority_witness :
    executeVerification Demo.titled Demo.textHiddenStep Demo.ready
      = executeVerification Demo.titled Demo.textStep Demo.ready
    ∧ (executeVerification Demo.titled Demo.textHiddenStep Demo.ready).1.toOption
      = some "Verificado texto \x27Swag Labs\x27 en: .login_logo"
    ∧ (executeVerification Demo.titled Demo.hiddenStep Demo.ready).1.toOption.isNone = true
    ∧ (executeVerification Demo.titled Demo.disabledStep Demo.ready).1.toOption.isNone = true
    ∧ (executeVerification Demo.titled Demo.presenceStep Demo.ready).1.toOption.isSome = true :=
  ⟨(executeVerification_priority Demo.titled Demo.textStep Demo.textHiddenStep Demo.ready
      rfl rfl rfl rfl rfl rfl rfl rfl).1 rfl,
   by decide,
   ((executeVerification_priority Demo.titled Demo.hiddenStep Demo.hiddenStep Demo.ready
      rfl rfl rfl rfl rfl rfl rfl rfl).2.1 rfl rfl true rfl).mpr rfl,
   ((executeVerification_priority Demo.titled Demo.disabledStep Demo.disabledStep Demo.ready
      rfl rfl rfl rfl rfl rfl rfl rfl).2.2.1 rfl rfl rfl true rfl).mpr rfl,
   ((executeVerification_priority Demo.titled Demo.presenceStep Demo.presenceStep Demo.ready
      rfl rfl rfl rfl rfl rfl rfl rfl).2.2.2 rfl rfl rfl).mpr rfl⟩

theorem includesChars_iff (t s : List Char) : includesChars t s = true ↔ s <:+: t := by
  induction t with
  | nil =>
    cases s <;> simp [includesChars]
  | cons c t ih =>
    rw [includesChars, Bool.or_eq_true, ih, List.infix_cons_iff, List.isPrefixOf_iff_prefix]

/-- C15 as amended (text verification).  Take a step that is an object whose
`options` is absent or an object with a truthy `text`, an open page on which
the selector appears within the wait, and let `t` be the text content read.
The string that is searched in `t` is `step.value`, converted to a string, not
`options.text`, which is only tested for truthiness.  If `t` contains it as a
substring the step returns its message; otherwise it throws the verification
error.  In both cases the commands sent are the wait and the reading. -/
theorem executeVerification_text (env : Env) (step : JsVal) (s : State) (t : String)
    (hstep : step.nullish = false) (hopts : (optionsOf step).nullish = false)
    (htext : ((optionsOf step).prop "text").truthy = true)
    (hpage : s.page = true)
    (hwait : env.run s.trace (.waitForSelector (step.prop "selector") 5000) = none)
    (hcontent : env.textContent
      (s.trace ++ [.cmd (.waitForSelector (step.prop "selector") 5000)]) (step.prop "selector")
        = .ok (some t)) :
    ((toStr env.numToString (step.prop "value")).toList <:+: t.toList →
      executeVerification env step s
        = (.ok ("Verificado texto \x27" ++ toStr env.numToString (step.prop "value")
              ++ "\x27 en: " ++ toStr env.numToString (step.prop "selector")),
            { s with trace := s.trace
                ++ [.cmd (.waitForSelector (step.prop "selector") 5000),
                    .cmd (.textContent (step.prop "selector"))] }))
    ∧ (¬ (toStr env.numToString (step.prop "value")).toList <:+: t.toList →
      executeVerification env step s
        = (.error ("Verificación falló: " ++ ("Texto esperado \x27"
              ++ toStr env.numToString (step.prop "value")
              ++ "\x27 no encontrado en \x27" ++ t ++ "\x27")),
            { s with trace := s.trace
                ++ [.cmd (.waitForSelector (step.prop "selector") 5000),
                    .cmd (.textContent (step.prop "selector"))] })) := by
  rw [executeVerification_eq env step hstep hopts]
  simp only [htext, if_true]
  simp only [M.tryCatch, bind, M.andThen, onPage, send, query, hpage, hwait, hcontent, if_true]
  constructor
  · intro h
    have hi : includes t (toStr env.numToString (step.prop "value")) = true :=
      (includesChars_iff _ _).mpr h
    simp [hi, pure, M.ret]
  · intro h
    have hi : includes t (toStr env.numToString (step.prop "value")) = false := by
      cases hc : includes t (toStr env.numToString (step.prop "value"))
      · rfl
      · exact absurd ((includesChars_iff _ _).mp hc) h
    simp [hi, M.raise]

theorem executeVerification_text_witness :
    executeVerification Demo.titled Demo.textStep Demo.ready
      = (.ok "Verificado texto \x27Swag Labs\x27 en: .login_logo",
          { Demo.ready with trace :=
              [.cmd (.waitForSelector (.str ".login_logo") 5000),
               .cmd (.textContent (.str ".login_logo"))] }) :=
  (executeVerification_text Demo.titled Demo.textStep Demo.ready "Swag Labs"
    rfl rfl rfl rfl rfl rfl).1 (List.infix_refl _)

/-- C15 as written fails, in both directions, on a page whose element has the
text `Swag Labs`.  A step with `options.text = "Swag"` and no `value` fails
although the text contains `Swag`: the string searched is `undefined`.  A step
with `options.text = "Sauce"` and `value = "Labs"` succeeds although the text
does not contain `Sauce`. -/
theorem executeVerification_text_flag :
    includes "Swag Labs" "Swag" = true
    ∧ (executeVerification Demo.titled Demo.textInOptionsStep Demo.ready).1
        = .error ("Verificación falló: Texto esperado \x27undefined\x27 no encontrado en "
            ++ "\x27Swag Labs\x27")
    ∧ includes "Swag Labs" "Sauce" = false
    ∧ (executeVerification Demo.titled Demo.textFlagStep Demo.ready).1
        = .ok "Verificado texto \x27Labs\x27 en: .login_logo" := by
  refine ⟨by decide, rfl, by decide, rfl⟩

/-! ## The claim about the pause between steps -/

/-- The `catch` block of the loop sends no `waitForTimeout`. -/
theorem catchBlock_no_wait (env : Env) (cfg : Options) (i : Nat) (step action : JsVal)
    (msg : String) (results : List StepResult) (s : State) :
    ∃ evs, (catchBlock env cfg i step action msg results s).2
        = { s with trace := s.trace ++ evs }
      ∧ ∀ ev ∈ evs, ev.isWaitForTimeout = false := by
  have h : Appends (fun ev => ev.isWaitForTimeout = false)
      (do
        send env (.mkdir cfg.screenshotDir)
        let t ← now env
        let dir ← M.lift (pathJoinDir cfg.screenshotDir)
        onPage "screenshot" (send env (.screenshot dir
          (toStr env.numToString (.str ("error-step-" ++ toString (i + 1)))) t)) : M Unit) := by
    repeat (first
      | refine Appends.bind _ _ ?_ ?_
      | exact Appends.send _ _ rfl
      | exact Appends.now _ rfl
      | exact Appends.lift _
      | refine Appends.onPage _ _ ?_
      | intro _)
  obtain ⟨evs, h1, h2⟩ := h.frame { s with trace := s.trace ++ [.shot .errorStep
    (toStr env.numToString (.str ("error-step-" ++ toString (i + 1))))] }
  refine ⟨.shot .errorStep (toStr env.numToString (.str ("error-step-" ++ toString (i + 1))))
    :: evs ++ [.now], ?_, ?_⟩
  · unfold catchBlock takeScreenshot clockRead
    simp only [h1, List.append_assoc, List.singleton_append, List.cons_append, List.nil_append]
  · intro ev hev
    simp only [List.cons_append, List.mem_cons, List.mem_append, List.mem_singleton,
      List.not_mem_nil, or_false] at hev
    rcases hev with he | he | he
    · rw [he]; rfl
    · exact h2 ev he
    · rw [he]; rfl

/-- C16 as amended (inter-step pause).  Take a truthy `slowMo`, an open page
and the turn of the loop of `executeSteps` for the step at index `i` of a plan
of `total` steps, the step being an object.  The turn returns.  If
`executeStep` returns and the step is not the last one, the pause is sent
exactly once, right after the clock reading of the entry: the events after the
step are that reading, `waitForTimeout(slowMo)`, and events that are no
`waitForTimeout` (those of the `catch` block when the pause is rejected).  If
`executeStep` returns on the last step, only the clock is read: no pause.  If
`executeStep` throws, whether the step is critical or not, no `waitForTimeout`
follows the step in this turn: the pause is on the success path only. -/
theorem iteration_pause (env : Env) (cfg : Options) (total i : Nat) (step : JsVal)
    (results : List StepResult) (s : State)
    (hstep : step.nullish = false) (hslow : cfg.slowMo.truthy = true) (hpage : s.page = true) :
    ∃ out s1, iteration env cfg total i step results s = (.ok out, s1)
      ∧ (∀ result sa, executeStep env cfg step s = (.ok result, sa) → i + 1 < total →
          ∃ rest, s1.trace = sa.trace ++ [.now, .cmd (.waitForTimeout cfg.slowMo)] ++ rest
            ∧ ∀ ev ∈ rest, ev.isWaitForTimeout = false)
      ∧ (∀ result sa, executeStep env cfg step s = (.ok result, sa) → ¬ i + 1 < total →
          s1.trace = sa.trace ++ [.now])
      ∧ (∀ msg sa, executeStep env cfg step s = (.error msg, sa) →
          ∃ rest, s1.trace = sa.trace ++ rest ∧ ∀ ev ∈ rest, ev.isWaitForTimeout = false) := by
  have hget := get_of_not_nullish step "action" hstep
  rcases hex : executeStep env cfg step s with ⟨re, sa⟩
  obtain ⟨evs0, hsa, -⟩ := executeStep_state hex
  have hpa : sa.page = true := by rw [hsa]; exact hpage
  cases re with
  | error msg =>
    obtain ⟨evs, h1, h2⟩ := catchBlock_no_wait env cfg i step (step.prop "action") msg results sa
    have hit : iteration env cfg total i step results s
        = (.ok (catchBlock env cfg i step (step.prop "action") msg results sa).1,
            (catchBlock env cfg i step (step.prop "action") msg results sa).2) := by
      unfold iteration
      rw [hget]
      simp only [hex]
    refine ⟨_, _, hit, ?_, ?_, ?_⟩
    · intro result sb h
      cases h
    · intro result sb h
      cases h
    · intro msg1 sb h
      simp only [Prod.mk.injEq, Except.error.injEq] at h
      obtain ⟨-, rfl⟩ := h
      exact ⟨evs, by rw [h1], h2⟩
  | ok result =>
    by_cases hlast : i + 1 < total
    · have hcond : (cfg.slowMo.truthy && decide ((i : Int) < (total : Int) - 1)) = true := by
        rw [hslow, Bool.true_and, decide_eq_true_eq]
        omega
      have hp : pause env cfg total i (clockRead env sa).2
          = send env (.waitForTimeout cfg.slowMo) (clockRead env sa).2 := by
        unfold pause
        rw [if_pos hcond]
        unfold onPage
        rw [if_pos (by exact hpa)]
      cases hrun : env.run (clockRead env sa).2.trace (.waitForTimeout cfg.slowMo) with
      | none =>
        have hp1 : pause env cfg total i (clockRead env sa).2
            = (.ok (), { (clockRead env sa).2 with trace := (clockRead env sa).2.trace
                ++ [.cmd (.waitForTimeout cfg.slowMo)] }) := by
          rw [hp]
          unfold send
          simp only [hrun]
        have hit : iteration env cfg total i step results s
            = (.ok (results ++ [successResult i (step.prop "action") result (clockRead env sa).1],
                false), { (clockRead env sa).2 with trace := (clockRead env sa).2.trace
                ++ [.cmd (.waitForTimeout cfg.slowMo)] }) := by
          unfold iteration
          rw [hget]
          simp only [hex, hp1]
        refine ⟨_, _, hit, ?_, ?_, ?_⟩
        · intro result1 sb h _
          simp only [Prod.mk.injEq, Except.ok.injEq] at h
          obtain ⟨-, rfl⟩ := h
          exact ⟨[], by simp [clockRead], by simp⟩
        · intro result1 sb h hn
          exact absurd hlast hn
        · intro msg sb h
          cases h
      | some msg =>
        have hp1 : pause env cfg total i (clockRead env sa).2
            = (.error msg, { (clockRead env sa).2 with trace := (clockRead env sa).2.trace
                ++ [.cmd (.waitForTimeout cfg.slowMo)] }) := by
          rw [hp]
          unfold send
          simp only [hrun]
        obtain ⟨evs, h1, h2⟩ := catchBlock_no_wait env cfg i step (step.prop "action") msg
          (results ++ [successResult i (step.prop "action") result (clockRead env sa).1])
          { (clockRead env sa).2 with trace := (clockRead env sa).2.trace
                ++ [.cmd (.waitForTimeout cfg.slowMo)] }
        have hit : iteration env cfg total i step results s
            = (.ok (catchBlock env cfg i step (step.prop "action") msg
                (results ++ [successResult i (step.prop "action") result (clockRead env sa).1])
                { (clockRead env sa).2 with trace := (clockRead env sa).2.trace
                  ++ [.cmd (.waitForTimeout cfg.slowMo)] }).1,
              (catchBlock env cfg i step (step.prop "action") msg
                (results ++ [successResult i (step.prop "action") result (clockRead env sa).1])
                { (clockRead env sa).2 with trace := (clockRead env sa).2.trace
                  ++ [.cmd (.waitForTimeout cfg.slowMo)] }).2) := by
          unfold iteration
          rw [hget]
          simp only [hex, hp1]
        refine ⟨_, _, hit, ?_, ?_, ?_⟩
        · intro result1 sb h _
          simp only [Prod.mk.injEq, Except.ok.injEq] at h
          obtain ⟨-, rfl⟩ := h
          exact ⟨evs, by rw [h1]; simp [clockRead], h2⟩
        · intro result1 sb h hn
          exact absurd hlast hn
        · intro msg sb h
          cases h
    · have hcond : (cfg.slowMo.truthy && decide ((i : Int) < (total : Int) - 1)) = false := by
        rw [hslow, Bool.true_and, decide_eq_false_iff_not]
        omega
      have hp : pause env cfg total i (clockRead env sa).2 = (.ok (), (clockRead env sa).2) := by
        unfold pause
        rw [if_neg (by rw [hcond]; decide)]
      have hit : iteration env cfg total i step results s
          = (.ok (results ++ [successResult i (step.prop "action") result (clockRead env sa).1],
              false), (clockRead env sa).2) := by
        unfold iteration
        rw [hget]
        simp only [hex, hp]
      refine ⟨_, _, hit, ?_, ?_, ?_⟩
      · intro result1 sb h hlt
        exact absurd hlt hlast
      · intro result1 sb h _
        simp only [Prod.mk.injEq, Except.ok.injEq] at h
        obtain ⟨-, rfl⟩ := h
        rfl
      · intro msg sb h
        cases h

theorem iteration_pause_witness :
    ∃ out s1, iteration Demo.calm Options.default 2 0 Demo.navigateStep [] Demo.ready
        = (.ok out, s1)
      ∧ ∃ rest, s1.trace
          = [.cmd (.goto (.str "https://x") 30000), .now, .cmd (.waitForTimeout (.num 1000 0))]
            ++ rest
        ∧ ∀ ev ∈ rest, ev.isWaitForTimeout = false := by
  obtain ⟨out, s1, h, h1, -, -⟩ := iteration_pause Demo.calm Options.default 2 0
    Demo.navigateStep [] Demo.ready rfl rfl rfl
  exact ⟨out, s1, h, h1 "Navegado a: https://x"
    { Demo.ready with trace := [.cmd (.goto (.str "https://x") 30000)] } rfl (by decide)⟩

/-- C16 as written fails after a step that fails without being critical.  Under
the default `slowMo` of 1000 the plan of two steps, an unknown action with
`critical: false` and a navigation, is executed through its last step: the
report has two entries, the first failed and the second successful.  No
`waitForTimeout` is sent at all, so there is no pause after step 1. -/
theorem executeSteps_no_pause_after_failure :
    Options.default.slowMo.truthy = true
    ∧ (executeSteps Demo.calm Options.default [Demo.softBogusStep, Demo.navigateStep]
        Demo.fresh).1.toOption.map (fun r => r.results.map (fun x => (x.step, x.success)))
      = some [(1, false), (2, true)]
    ∧ (executeSteps Demo.calm Options.default [Demo.softBogusStep, Demo.navigateStep]
        Demo.fresh).2.trace.any Event.isWaitForTimeout = false := by
  refine ⟨by decide, by decide, by decide⟩

end TestExecutor
/-! ## The reference parser reads from the front of its input -/

namespace Json

theorem skipWs_append_cons (e : List Char) :
    ∀ (cs : List Char) (c : Char) (r : List Char), skipWs cs = c :: r →
      skipWs (cs ++ e) = c :: (r ++ e) := by
  intro cs
  induction cs with
  | nil =>
    intro c r h
    simp [skipWs] at h
  | cons d cs ih =>
    intro c r h
    simp only [List.cons_append, skipWs] at h ⊢
    split at h
    · rename_i hd
      rw [if_pos hd]
      exact ih c r h
    · rename_i hd
      rw [if_neg hd]
      simp only [List.cons.injEq] at h
      rw [h.1, h.2]
      rfl

theorem skipWs_append_nil (e : List Char) :
    ∀ (cs : List Char), skipWs cs = [] → skipWs (cs ++ e) = skipWs e := by
  intro cs
  induction cs with
  | nil => intro _; rfl
  | cons d cs ih =>
    intro h
    simp only [List.cons_append, skipWs] at h ⊢
    split at h
    · rename_i hd
      rw [if_pos hd]
      exact ih h
    · simp at h

theorem takeDigits_append (e : List Char) :
    ∀ (cs : List Char) (acc n a m : Nat) (c : Char) (rest : List Char),
      takeDigits cs acc n = (a, m, c :: rest) →
      takeDigits (cs ++ e) acc n = (a, m, c :: (rest ++ e)) := by
  intro cs
  induction cs with
  | nil =>
    intro acc n a m c rest h
    simp [takeDigits] at h
  | cons d cs ih =>
    intro acc n a m c rest h
    simp only [List.cons_append, takeDigits] at h ⊢
    split at h
    · rename_i hd
      rw [if_pos hd]
      exact ih _ _ _ _ _ _ h
    · rename_i hd
      rw [if_neg hd]
      simp only [Prod.mk.injEq, List.cons.injEq] at h
      obtain ⟨h1, h2, h3, h4⟩ := h
      rw [h1, h2, h3, h4]
      rfl

/-- What `takeDigits` leaves is a suffix: nothing is left of an empty input. -/
theorem takeDigits_nil_of_nil (acc n : Nat) : takeDigits [] acc n = (acc, n, []) := rfl

theorem parseNumber_eq (cs : List Char) :
    parseNumber cs = match cs with
      | '-' :: r => numBody true r
      | _ => numBody false cs := by
  have key : ∀ (neg : Bool) (cs0 : List Char),
      (match cs0 with
        | [] => Except.error unexpectedEnd
        | c :: r =>
          if (!isDigit c) = true then Except.error unexpectedToken
          else
            match
              if (c == '0') = true then (0, r)
              else
                let t := takeDigits (c :: r) 0 0;
                (t.1, t.2.2) with
            | (ip, cs1) => numTail neg ip cs1) = numBody neg cs0 := by
    intro neg cs0
    unfold numBody
    split
    · rfl
    · rename_i c r
      by_cases hd : (!isDigit c) = true
      · rw [if_pos hd, if_pos hd]
      · rw [if_neg hd, if_neg hd]
        by_cases hz : (c == '0') = true
        · rw [if_pos hz, if_pos hz]
        · rw [if_neg hz, if_neg hz]
  unfold parseNumber
  split
  rename_i h0
  split at h0
  · cases h0
    exact key true _
  · cases h0
    rename_i hcs
    exact key false cs

theorem takeDigits_rest_ne (cs : List Char) (acc n a m : Nat) (c : Char) (rest : List Char)
    (h : takeDigits cs acc n = (a, m, c :: rest)) : cs ≠ [] := by
  intro hc
  subst hc
  simp [takeDigits] at h

theorem expSign_append (e : List Char) (r2 : List Char) (h : (expSign r2).2 ≠ []) :
    expSign (r2 ++ e) = ((expSign r2).1, (expSign r2).2 ++ e) := by
  unfold expSign at h ⊢
  split at h
  · rfl
  · rfl
  · rename_i h1 h2
    cases r2 with
    | nil => exact absurd rfl h
    | cons x r =>
      simp only [List.cons_append]
      split
      · rename_i r4 heq
        simp only [List.cons.injEq] at heq
        exact absurd (by rw [← heq.1]) (h1 r)
      · rename_i r4 heq
        simp only [List.cons.injEq] at heq
        exact absurd (by rw [← heq.1]) (h2 r)
      · rfl

theorem numExp_append (e : List Char) (cs2 : List Char) (ex : Int) (c : Char)
    (rest : List Char) (h : numExp cs2 = .ok (ex, c :: rest)) :
    numExp (cs2 ++ e) = .ok (ex, c :: (rest ++ e)) := by
  cases cs2 with
  | nil => simp [numExp] at h
  | cons e0 r2 =>
    simp only [List.cons_append]
    unfold numExp at h ⊢
    simp only at h ⊢
    by_cases he : (e0 == 'e' || e0 == 'E') = true
    · rw [if_pos he] at h ⊢
      rcases ht : takeDigits (expSign r2).2 0 0 with ⟨a, m, rr⟩
      rw [ht] at h
      simp only at h
      split at h
      · simp at h
      · rename_i hm
        simp only [Except.ok.injEq, Prod.mk.injEq] at h
        obtain ⟨h1, h2⟩ := h
        subst h2
        have hne : (expSign r2).2 ≠ [] := takeDigits_rest_ne _ _ _ _ _ _ _ ht
        rw [expSign_append e r2 hne]
        simp only
        rw [takeDigits_append e _ _ _ _ _ _ _ ht]
        simp only [hm, Bool.false_eq_true, if_false, h1]
    · rw [if_neg he] at h ⊢
      simp only [Except.ok.injEq, Prod.mk.injEq, List.cons.injEq] at h
      obtain ⟨h1, h2, h3⟩ := h
      rw [h1, h2, h3]

theorem numFrac_append (e : List Char) (ip : Nat) (cs1 : List Char) (mant nfrac : Nat)
    (c : Char) (rest : List Char) (h : numFrac ip cs1 = .ok (mant, nfrac, c :: rest)) :
    numFrac ip (cs1 ++ e) = .ok (mant, nfrac, c :: (rest ++ e)) := by
  unfold numFrac at h
  split at h
  · rename_i r1
    rcases ht : takeDigits r1 ip 0 with ⟨a, m, rr⟩
    rw [ht] at h
    simp only at h
    split at h
    · simp at h
    · rename_i hm
      simp only [Except.ok.injEq, Prod.mk.injEq] at h
      obtain ⟨h1, h2, h3⟩ := h
      subst h1 h2 h3
      unfold numFrac
      simp only [List.cons_append]
      rw [takeDigits_append e _ _ _ _ _ _ _ ht]
      simp only [hm, Bool.false_eq_true, if_false]
  · rename_i hdot
    simp only [Except.ok.injEq, Prod.mk.injEq] at h
    obtain ⟨h1, h2, h3⟩ := h
    subst h1 h2 h3
    unfold numFrac
    simp only [List.cons_append]
    split
    · rename_i r1 heq
      simp only [List.cons.injEq] at heq
      exact absurd (by rw [← heq.1]) (hdot rest)
    · rfl

theorem numTail_append (e : List Char) (neg : Bool) (ip : Nat) (cs1 : List Char) (v : JsVal)
    (c : Char) (rest : List Char) (h : numTail neg ip cs1 = .ok (v, c :: rest)) :
    numTail neg ip (cs1 ++ e) = .ok (v, c :: (rest ++ e)) := by
  unfold numTail at h
  cases hf : numFrac ip cs1 with
  | error msg => simp [hf] at h
  | ok t =>
    obtain ⟨mant, nfrac, cs2⟩ := t
    rw [hf] at h
    simp only at h
    cases hx : numExp cs2 with
    | error msg => simp [hx] at h
    | ok u =>
      obtain ⟨ex, cs3⟩ := u
      rw [hx] at h
      simp only [Except.ok.injEq, Prod.mk.injEq] at h
      obtain ⟨h1, h2⟩ := h
      subst h2
      cases cs2 with
      | nil => simp [numExp] at hx
      | cons c2 r2 =>
        unfold numTail
        rw [numFrac_append e ip cs1 mant nfrac c2 r2 hf]
        simp only
        rw [← List.cons_append, numExp_append e (c2 :: r2) ex c rest hx]
        simp only [h1]

theorem numBody_append (e : List Char) (neg : Bool) (cs0 : List Char) (v : JsVal)
    (c : Char) (rest : List Char) (h : numBody neg cs0 = .ok (v, c :: rest)) :
    numBody neg (cs0 ++ e) = .ok (v, c :: (rest ++ e)) := by
  cases cs0 with
  | nil => simp [numBody] at h
  | cons d r =>
    simp only [List.cons_append]
    unfold numBody at h ⊢
    simp only at h ⊢
    by_cases hd : (!isDigit d) = true
    · rw [if_pos hd] at h
      simp at h
    · rw [if_neg hd] at h ⊢
      by_cases hz : (d == '0') = true
      · rw [if_pos hz] at h ⊢
        exact numTail_append e neg 0 r v c rest h
      · rw [if_neg hz] at h ⊢
        rcases ht : takeDigits (d :: r) 0 0 with ⟨a, m, rr⟩
        rw [ht] at h
        simp only at h
        cases rr with
        | nil =>
          simp [numTail, numFrac, numExp] at h
        | cons c1 r1 =>
          have := takeDigits_append e (d :: r) 0 0 a m c1 r1 ht
          simp only [List.cons_append] at this
          rw [this]
          simp only
          rw [← List.cons_append]
          exact numTail_append e neg a (c1 :: r1) v c rest h

theorem parseNumber_append (e : List Char) (cs : List Char) (v : JsVal) (c : Char)
    (rest : List Char) (h : parseNumber cs = .ok (v, c :: rest)) :
    parseNumber (cs ++ e) = .ok (v, c :: (rest ++ e)) := by
  rw [parseNumber_eq] at h ⊢
  split at h
  · rename_i r
    simp only [List.cons_append]
    exact numBody_append e true r v c rest h
  · rename_i hcs
    have hb := numBody_append e false cs v c rest h
    split
    · rename_i r heq
      cases cs with
      | nil => simp [numBody] at h
      | cons d r0 =>
        simp only [List.cons_append, List.cons.injEq] at heq
        exact absurd (by rw [heq.1]) (hcs r0)
    · exact hb

theorem expectLit_append (e lit cs rest : List Char) (h : expectLit lit cs = .ok rest) :
    expectLit lit (cs ++ e) = .ok (rest ++ e) := by
  unfold expectLit at h ⊢
  split at h
  · rename_i hp
    simp only [Except.ok.injEq] at h
    have hpre : lit <+: cs := List.isPrefixOf_iff_prefix.mp hp
    have hp2 : lit.isPrefixOf (cs ++ e) = true :=
      List.isPrefixOf_iff_prefix.mpr (hpre.trans (List.prefix_append cs e))
    rw [if_pos hp2, ← h, List.drop_append_of_le_length hpre.length_le]
  · simp at h

/-- A string body that begins with the escape `\u` and is read to its end has
the four digits of the escape. -/
theorem parseStringBody_escape_length (e : List Char) (f : Nat) (cs acc : List Char)
    (r : String × List Char) (h : parseStringBody f cs acc = .ok r) (l : List Char)
    (heq : cs ++ e = backslash :: 'u' :: l) : 6 ≤ cs.length := by
  cases f with
  | zero => simp [parseStringBody] at h
  | succ f =>
    cases cs with
    | nil => simp [parseStringBody] at h
    | cons c cs =>
      simp only [List.cons_append, List.cons.injEq] at heq
      obtain ⟨hc, heq⟩ := heq
      subst hc
      cases cs with
      | nil =>
        unfold parseStringBody at h
        simp [backslash, dquote] at h
      | cons x cs =>
        simp only [List.cons_append, List.cons.injEq] at heq
        obtain ⟨hx, heq⟩ := heq
        subst hx
        rcases cs with _ | ⟨y1, _ | ⟨y2, _ | ⟨y3, _ | ⟨y4, ys⟩⟩⟩⟩
        · unfold parseStringBody at h
          simp [backslash, dquote] at h
        · unfold parseStringBody at h
          simp [backslash, dquote] at h
        · unfold parseStringBody at h
          simp [backslash, dquote] at h
        · unfold parseStringBody at h
          simp [backslash, dquote] at h
        · simp

theorem parseStringBody_append (e : List Char) :
    ∀ (f : Nat) (cs acc : List Char) (s : String) (rest : List Char),
      parseStringBody f cs acc = .ok (s, rest) →
      ∀ f', f ≤ f' → parseStringBody f' (cs ++ e) acc = .ok (s, rest ++ e) := by
  intro f
  induction f with
  | zero =>
    intro cs acc s rest h
    simp [parseStringBody] at h
  | succ f ih =>
    intro cs acc s rest h f' hf
    obtain ⟨f1, rfl⟩ : ∃ f1, f' = f1 + 1 := ⟨f' - 1, by omega⟩
    have hf1 : f ≤ f1 := by omega
    cases cs with
    | nil => simp [parseStringBody] at h
    | cons c cs =>
      simp only [List.cons_append]
      unfold parseStringBody at h ⊢
      by_cases hq : (c == dquote) = true
      · rw [if_pos hq] at h ⊢
        simp only [Except.ok.injEq, Prod.mk.injEq] at h
        rw [h.1, h.2]
      · rw [if_neg hq] at h ⊢
        by_cases hb : (c == backslash) = true
        · rw [if_pos hb] at h ⊢
          cases cs with
          | nil => simp at h
          | cons x cs1 =>
            simp only [List.cons_append] at h ⊢
            by_cases h0 : (x == dquote) = true
            · rw [if_pos h0] at h ⊢
              exact ih _ _ _ _ h f1 hf1
            rw [if_neg h0] at h ⊢
            by_cases h1 : (x == backslash) = true
            · rw [if_pos h1] at h ⊢
              exact ih _ _ _ _ h f1 hf1
            rw [if_neg h1] at h ⊢
            by_cases h2 : (x == '/') = true
            · rw [if_pos h2] at h ⊢
              exact ih _ _ _ _ h f1 hf1
            rw [if_neg h2] at h ⊢
            by_cases h3 : (x == 'b') = true
            · rw [if_pos h3] at h ⊢
              exact ih _ _ _ _ h f1 hf1
            rw [if_neg h3] at h ⊢
            by_cases h4 : (x == 'f') = true
            · rw [if_pos h4] at h ⊢
              exact ih _ _ _ _ h f1 hf1
            rw [if_neg h4] at h ⊢
            by_cases h5 : (x == 'n') = true
            · rw [if_pos h5] at h ⊢
              exact ih _ _ _ _ h f1 hf1
            rw [if_neg h5] at h ⊢
            by_cases h6 : (x == 'r') = true
            · rw [if_pos h6] at h ⊢
              exact ih _ _ _ _ h f1 hf1
            rw [if_neg h6] at h ⊢
            by_cases h7 : (x == 't') = true
            · rw [if_pos h7] at h ⊢
              exact ih _ _ _ _ h f1 hf1
            rw [if_neg h7] at h ⊢
            by_cases hu : (x == 'u') = true
            · rw [if_pos hu] at h ⊢
              rcases cs1 with _ | ⟨a, _ | ⟨b, _ | ⟨c1, _ | ⟨d, cs2⟩⟩⟩⟩
              · simp at h
              · simp at h
              · simp at h
              · simp at h
              · simp only [List.cons_append] at h ⊢
                cases hh : hex4 a b c1 d with
                | none => simp [hh] at h
                | some hi =>
                  rw [hh] at h
                  simp only at h ⊢
                  by_cases hs : 0xD800 ≤ hi ∧ hi < 0xDC00
                  · rw [if_pos hs] at h ⊢
                    split at h
                    · rename_i b1 u1 a2 b2 c2 d2 cs3
                      simp only [List.cons_append]
                      split at h
                      · rename_i lo hlo
                        by_cases hr : 0xDC00 ≤ lo ∧ lo < 0xE000
                        · rw [if_pos hr] at h ⊢
                          exact ih _ _ _ _ h f1 hf1
                        · rw [if_neg hr] at h ⊢
                          exact ih _ _ _ _ h f1 hf1
                      · exact ih _ _ _ _ h f1 hf1
                    · rename_i hshort
                      have hk := ih _ _ _ _ h f1 hf1
                      split
                      · rename_i b1 u1 a2 b2 c2 d2 cs3 heq
                        split
                        · rename_i lo hlo
                          exfalso
                          split at hlo
                          · rename_i hcond
                            simp only [Bool.and_eq_true, beq_iff_eq] at hcond
                            obtain ⟨hb1, hu1⟩ := hcond
                            subst hb1 hu1
                            have hlen := parseStringBody_escape_length e f cs2 _ _ h _ heq
                            rcases cs2 with _ | ⟨y1, _ | ⟨y2, _ | ⟨y3, _ | ⟨y4, _ | ⟨y5, _ | ⟨y6, ys⟩⟩⟩⟩⟩⟩
                            · simp at hlen
                            · simp at hlen
                            · simp at hlen
                            · simp at hlen
                            · simp at hlen
                            · simp at hlen
                            · exact hshort _ _ _ _ _ _ _ rfl
                          · simp at hlo
                        · exact hk
                      · exact hk
                  · rw [if_neg hs] at h ⊢
                    by_cases hl : 0xDC00 ≤ hi ∧ hi < 0xE000
                    · rw [if_pos hl] at h ⊢
                      exact ih _ _ _ _ h f1 hf1
                    · rw [if_neg hl] at h ⊢
                      exact ih _ _ _ _ h f1 hf1
            · rw [if_neg hu] at h
              simp at h
        · rw [if_neg hb] at h ⊢
          by_cases hlt : c.toNat < 32
          · rw [if_pos hlt] at h
            simp at h
          · rw [if_neg hlt] at h ⊢
            exact ih _ _ _ _ h f1 hf1

theorem skipWs_ne_nil {cs : List Char} {c : Char} {r : List Char} (h : skipWs cs = c :: r) :
    cs ≠ [] := by
  intro hc
  subst hc
  simp [skipWs] at h

/-- The three parsers read a value, the members of an object and the elements
of an array from the front of the input: with more fuel and more input after it
they read the same and leave the added input. -/
theorem parse_append (e : List Char) :
    ∀ f : Nat,
      (∀ (cs : List Char) (v : JsVal) (rest : List Char),
        parseValue f cs = .ok (v, rest) →
        (rest ≠ [] ∨ (skipWs cs).head? = some lbrace) →
        ∀ f', f ≤ f' → parseValue f' (cs ++ e) = .ok (v, rest ++ e))
      ∧ (∀ (cs : List Char) (acc kvs : List (String × JsVal)) (rest : List Char),
        parseMembers f cs acc = .ok (kvs, rest) →
        ∀ f', f ≤ f' → parseMembers f' (cs ++ e) acc = .ok (kvs, rest ++ e))
      ∧ (∀ (cs : List Char) (acc xs : List JsVal) (rest : List Char),
        parseElements f cs acc = .ok (xs, rest) →
        ∀ f', f ≤ f' → parseElements f' (cs ++ e) acc = .ok (xs, rest ++ e)) := by
  intro f
  induction f with
  | zero =>
    refine ⟨?_, ?_, ?_⟩
    · intro cs v rest h
      simp [parseValue] at h
    · intro cs acc kvs rest h
      simp [parseMembers] at h
    · intro cs acc xs rest h
      simp [parseElements] at h
  | succ f ih =>
    obtain ⟨ihV, ihM, ihE⟩ := ih
    refine ⟨?_, ?_, ?_⟩
    · intro cs v rest h hcond f' hf
      obtain ⟨f1, rfl⟩ : ∃ f1, f' = f1 + 1 := ⟨f' - 1, by omega⟩
      have hf1 : f ≤ f1 := by omega
      unfold parseValue at h ⊢
      cases hsk : skipWs cs with
      | nil => simp [hsk] at h
      | cons c r =>
        rw [hsk] at h hcond
        rw [skipWs_append_cons e cs c r hsk]
        simp only at h ⊢
        by_cases hc1 : (c == lbrace) = true
        · rw [if_pos hc1] at h ⊢
          cases hsk2 : skipWs r with
          | nil => simp [hsk2] at h
          | cons c1 r1 =>
            rw [hsk2] at h
            rw [skipWs_append_cons e r c1 r1 hsk2]
            simp only at h ⊢
            by_cases hc2 : (c1 == rbrace) = true
            · rw [if_pos hc2] at h ⊢
              simp only [Except.ok.injEq, Prod.mk.injEq] at h
              rw [h.1, h.2]
            · rw [if_neg hc2] at h ⊢
              cases hm : parseMembers f (c1 :: r1) [] with
              | error msg => simp [hm] at h
              | ok p =>
                obtain ⟨kvs, rest1⟩ := p
                rw [hm] at h
                simp only [Except.ok.injEq, Prod.mk.injEq] at h
                have := ihM _ _ _ _ hm f1 hf1
                simp only [List.cons_append] at this
                rw [this]
                simp only [h.1, h.2]
        · rw [if_neg hc1] at h ⊢
          by_cases hc3 : (c == lbracket) = true
          · rw [if_pos hc3] at h ⊢
            cases hsk2 : skipWs r with
            | nil => simp [hsk2] at h
            | cons c1 r1 =>
              rw [hsk2] at h
              rw [skipWs_append_cons e r c1 r1 hsk2]
              simp only at h ⊢
              by_cases hc2 : (c1 == rbracket) = true
              · rw [if_pos hc2] at h ⊢
                simp only [Except.ok.injEq, Prod.mk.injEq] at h
                rw [h.1, h.2]
              · rw [if_neg hc2] at h ⊢
                cases hm : parseElements f (c1 :: r1) [] with
                | error msg => simp [hm] at h
                | ok p =>
                  obtain ⟨xs, rest1⟩ := p
                  rw [hm] at h
                  simp only [Except.ok.injEq, Prod.mk.injEq] at h
                  have := ihE _ _ _ _ hm f1 hf1
                  simp only [List.cons_append] at this
                  rw [this]
                  simp only [h.1, h.2]
          · rw [if_neg hc3] at h ⊢
            by_cases hc4 : (c == dquote) = true
            · rw [if_pos hc4] at h ⊢
              cases hm : parseStringBody (r.length + 1) r [] with
              | error msg => simp [hm] at h
              | ok p =>
                obtain ⟨str, rest1⟩ := p
                rw [hm] at h
                simp only [Except.ok.injEq, Prod.mk.injEq] at h
                rw [parseStringBody_append e _ _ _ _ _ hm ((r ++ e).length + 1)
                  (by simp)]
                simp only [h.1, h.2]
            · rw [if_neg hc4] at h ⊢
              by_cases hct : (c == 't') = true
              · rw [if_pos hct] at h ⊢
                generalize "true".toList = lit at h ⊢
                cases hm : expectLit lit (c :: r) with
                | error msg => simp [hm, Except.map] at h
                | ok rest1 =>
                  rw [hm] at h
                  simp only [Except.map, Except.ok.injEq, Prod.mk.injEq] at h
                  have := expectLit_append e _ _ _ hm
                  simp only [List.cons_append] at this
                  rw [this]
                  simp only [Except.map, h.1, h.2]
              rw [if_neg hct] at h ⊢
              by_cases hcf : (c == 'f') = true
              · rw [if_pos hcf] at h ⊢
                generalize "false".toList = lit at h ⊢
                cases hm : expectLit lit (c :: r) with
                | error msg => simp [hm, Except.map] at h
                | ok rest1 =>
                  rw [hm] at h
                  simp only [Except.map, Except.ok.injEq, Prod.mk.injEq] at h
                  have := expectLit_append e _ _ _ hm
                  simp only [List.cons_append] at this
                  rw [this]
                  simp only [Except.map, h.1, h.2]
              rw [if_neg hcf] at h ⊢
              by_cases hcn : (c == 'n') = true
              · rw [if_pos hcn] at h ⊢
                generalize "null".toList = lit at h ⊢
                cases hm : expectLit lit (c :: r) with
                | error msg => simp [hm, Except.map] at h
                | ok rest1 =>
                  rw [hm] at h
                  simp only [Except.map, Except.ok.injEq, Prod.mk.injEq] at h
                  have := expectLit_append e _ _ _ hm
                  simp only [List.cons_append] at this
                  rw [this]
                  simp only [Except.map, h.1, h.2]
              rw [if_neg hcn] at h ⊢
              have hrest : rest ≠ [] := by
                rcases hcond with hr | hr
                · exact hr
                · simp only [List.head?_cons, Option.some.injEq] at hr
                  rw [hr] at hc1
                  simp at hc1
              cases rest with
              | nil => exact absurd rfl hrest
              | cons c0 rest0 =>
                have := parseNumber_append e (c :: r) v c0 rest0 h
                simp only [List.cons_append] at this ⊢
                exact this
    · intro cs acc kvs rest h f' hf
      obtain ⟨f1, rfl⟩ : ∃ f1, f' = f1 + 1 := ⟨f' - 1, by omega⟩
      have hf1 : f ≤ f1 := by omega
      unfold parseMembers at h ⊢
      cases hsk : skipWs cs with
      | nil => simp [hsk] at h
      | cons c r =>
        rw [hsk] at h
        rw [skipWs_append_cons e cs c r hsk]
        simp only at h ⊢
        by_cases hc1 : (c == dquote) = true
        · rw [if_pos hc1] at h ⊢
          cases hm : parseStringBody (r.length + 1) r [] with
          | error msg => simp [hm] at h
          | ok p =>
            obtain ⟨k, r1⟩ := p
            rw [hm] at h
            rw [parseStringBody_append e _ _ _ _ _ hm ((r ++ e).length + 1) (by simp)]
            simp only at h ⊢
            cases hsk2 : skipWs r1 with
            | nil => simp [hsk2] at h
            | cons c2 r2 =>
              rw [hsk2] at h
              rw [skipWs_append_cons e r1 c2 r2 hsk2]
              simp only at h ⊢
              by_cases hc2 : (c2 == ':') = true
              · rw [if_pos hc2] at h ⊢
                cases hv : parseValue f r2 with
                | error msg => simp [hv] at h
                | ok q =>
                  obtain ⟨v, r3⟩ := q
                  rw [hv] at h
                  simp only at h
                  cases hsk3 : skipWs r3 with
                  | nil => simp [hsk3] at h
                  | cons c4 r4 =>
                    rw [hsk3] at h
                    rw [ihV r2 v r3 hv (Or.inl (skipWs_ne_nil hsk3)) f1 hf1]
                    simp only at h ⊢
                    rw [skipWs_append_cons e r3 c4 r4 hsk3]
                    simp only
                    by_cases hc4 : (c4 == rbrace) = true
                    · rw [if_pos hc4] at h ⊢
                      simp only [Except.ok.injEq, Prod.mk.injEq] at h
                      rw [h.1, h.2]
                    · rw [if_neg hc4] at h ⊢
                      by_cases hc5 : (c4 == ',') = true
                      · rw [if_pos hc5] at h ⊢
                        exact ihM _ _ _ _ h f1 hf1
                      · rw [if_neg hc5] at h
                        simp at h
              · rw [if_neg hc2] at h
                simp at h
        · rw [if_neg hc1] at h
          simp at h
    · intro cs acc xs rest h f' hf
      obtain ⟨f1, rfl⟩ : ∃ f1, f' = f1 + 1 := ⟨f' - 1, by omega⟩
      have hf1 : f ≤ f1 := by omega
      unfold parseElements at h ⊢
      cases hv : parseValue f cs with
      | error msg => simp [hv] at h
      | ok q =>
        obtain ⟨v, r3⟩ := q
        rw [hv] at h
        simp only at h
        cases hsk3 : skipWs r3 with
        | nil => simp [hsk3] at h
        | cons c4 r4 =>
          rw [hsk3] at h
          rw [ihV cs v r3 hv (Or.inl (skipWs_ne_nil hsk3)) f1 hf1]
          simp only at h ⊢
          rw [skipWs_append_cons e r3 c4 r4 hsk3]
          simp only
          by_cases hc4 : (c4 == rbracket) = true
          · rw [if_pos hc4] at h ⊢
            simp only [Except.ok.injEq, Prod.mk.injEq] at h
            rw [h.1, h.2]
          · rw [if_neg hc4] at h ⊢
            by_cases hc5 : (c4 == ',') = true
            · rw [if_pos hc5] at h ⊢
              exact ihE _ _ _ _ h f1 hf1
            · rw [if_neg hc5] at h
              simp at h

theorem parse_mk (cs : List Char) :
    parse (String.mk cs) = match parseValue (cs.length + 1) cs with
      | .error e => .error e
      | .ok (v, rest) =>
        match skipWs rest with
        | [] => .ok v
        | _ :: _ => .error unexpectedToken := rfl

/-- A text that begins with an opening brace and parses does not parse any more
when text that is not white space is added after it. -/
theorem parse_trailing (cs tail : List Char) (v : JsVal)
    (hv : parse (String.mk cs) = .ok v) (hobj : cs.head? = some lbrace)
    (htail : skipWs tail ≠ []) :
    parse (String.mk (cs ++ tail)) = .error unexpectedToken := by
  rw [parse_mk] at hv ⊢
  cases hp : parseValue (cs.length + 1) cs with
  | error msg => simp [hp] at hv
  | ok q =>
    obtain ⟨w, rest⟩ := q
    rw [hp] at hv
    simp only at hv
    cases hsk : skipWs rest with
    | cons c r => simp [hsk] at hv
    | nil =>
      have hhead : (skipWs cs).head? = some lbrace := by
        cases cs with
        | nil => simp at hobj
        | cons c r =>
          simp only [List.head?_cons, Option.some.injEq] at hobj
          subst hobj
          have hw : isWs lbrace = false := by decide
          simp only [skipWs, hw, Bool.false_eq_true, if_false, List.head?_cons]
      have hext := (parse_append tail (cs.length + 1)).1 cs w rest hp (Or.inr hhead)
        ((cs ++ tail).length + 1) (by rw [List.length_append]; omega)
      rw [hext]
      simp only
      rw [skipWs_append_nil tail rest hsk]
      cases ht : skipWs tail with
      | nil => exact absurd ht htail
      | cons c r => rfl

theorem skipWs_closing (tail : List Char) : skipWs (tail ++ [rbrace]) ≠ [] := by
  induction tail with
  | nil =>
    have hw : isWs rbrace = false := by decide
    simp [skipWs, hw]
  | cons c tail ih =>
    simp only [List.cons_append, skipWs]
    split
    · exact ih
    · simp

end Json

/-! ## The span that `parseJsonResponse` parses -/

namespace LLMClient

/-- A text with an opening brace and a closing brace after it splits at its
first opening brace and its last closing brace. -/
theorem braces_span (l x y z : List Char) (h : l = x ++ Json.lbrace :: y ++ Json.rbrace :: z) :
    ∃ pre mid post, l = pre ++ Json.lbrace :: mid ++ Json.rbrace :: post
      ∧ Json.lbrace ∉ pre ∧ Json.rbrace ∉ post := by
  have hmem : Json.lbrace ∈ l := by
    rw [h]
    simp
  obtain ⟨pre, r, hl, hpre⟩ := List.eq_append_cons_of_mem hmem
  have hr : Json.rbrace ∈ r := by
    have h2 : pre ++ Json.lbrace :: r = x ++ Json.lbrace :: (y ++ Json.rbrace :: z) := by
      rw [← hl, h]
      simp
    rcases List.append_eq_append_iff.mp h2 with ⟨a, hx, ha⟩ | ⟨c, hp, hc⟩
    · cases a with
      | nil =>
        simp only [List.nil_append, List.cons.injEq, true_and] at ha
        rw [ha]
        simp
      | cons d a =>
        simp only [List.cons_append, List.cons.injEq] at ha
        rw [ha.2]
        simp
    · cases c with
      | nil =>
        simp only [List.nil_append, List.cons.injEq, true_and] at hc
        rw [← hc]
        simp
      | cons d c =>
        simp only [List.cons_append, List.cons.injEq] at hc
        exact absurd (by rw [hp, ← hc.1]; simp) hpre
  have hr2 : Json.rbrace ∈ r.reverse := List.mem_reverse.mpr hr
  obtain ⟨as, bs, hrev, has⟩ := List.eq_append_cons_of_mem hr2
  refine ⟨pre, bs.reverse, as.reverse, ?_, hpre, fun hc => has (List.mem_reverse.mp hc)⟩
  have : r = bs.reverse ++ Json.rbrace :: as.reverse := by
    have := congrArg List.reverse hrev
    simpa using this
  rw [hl, this]
  simp

/-- C17 (extraction span).  Take a response that holds an opening brace followed
later by a closing brace.  (1) It splits at its first opening brace and its last
closing brace.  (2) For every such split `pre ++ "{" ++ mid ++ "}" ++ post`,
where `pre` has no opening brace and `post` no closing brace, the match of the
expression is `"{" ++ mid ++ "}"`, the `try` block parses that text and nothing
else, and `parseJsonResponse` returns its value when it parses and the error
fallback with the message of the parser otherwise.  (3) With the reference
parser: when a valid object is followed by text that holds a closing brace, be
it prose or a second object, the result is the error fallback.  (4) When a valid
object stands between a `pre` without opening brace and a `post` without closing
brace, the result is the value of the object. -/
theorem parseJsonResponse_span (parse : String → Except String JsVal) (text : String)
    (x y z : List Char) (h : text.toList = x ++ Json.lbrace :: y ++ Json.rbrace :: z) :
    (∃ pre mid post, text.toList = pre ++ Json.lbrace :: mid ++ Json.rbrace :: post
      ∧ Json.lbrace ∉ pre ∧ Json.rbrace ∉ post)
    ∧ (∀ pre mid post, text.toList = pre ++ Json.lbrace :: mid ++ Json.rbrace :: post →
        Json.lbrace ∉ pre → Json.rbrace ∉ post →
        regexMatch text.toList = some (Json.lbrace :: mid ++ [Json.rbrace])
        ∧ parseJsonResponseTry parse (.str text)
            = parse (String.mk (Json.lbrace :: mid ++ [Json.rbrace]))
        ∧ (∀ v, parse (String.mk (Json.lbrace :: mid ++ [Json.rbrace])) = .ok v →
            parseJsonResponse parse (.str text) = .ok v)
        ∧ (∀ msg, parse (String.mk (Json.lbrace :: mid ++ [Json.rbrace])) = .error msg →
            parseJsonResponse parse (.str text) = .ok (errorFallback msg)))
    ∧ (∀ (pre obj tail post : List Char) (v : JsVal),
        text.toList = pre ++ obj ++ tail ++ Json.rbrace :: post →
        Json.lbrace ∉ pre → Json.rbrace ∉ post →
        obj.head? = some Json.lbrace → Json.parse (String.mk obj) = .ok v →
        parseJsonResponse Json.parse (.str text) = .ok (errorFallback Json.unexpectedToken))
    ∧ (∀ (pre obj post : List Char) (v : JsVal),
        text.toList = pre ++ obj ++ post →
        Json.lbrace ∉ pre → Json.rbrace ∉ post →
        obj.head? = some Json.lbrace → obj.getLast? = some Json.rbrace →
        parse (String.mk obj) = .ok v →
        parseJsonResponse parse (.str text) = .ok v) := by
  have hspan : ∀ (q : String → Except String JsVal) (pre mid post : List Char),
      text.toList = pre ++ Json.lbrace :: mid ++ Json.rbrace :: post →
      Json.lbrace ∉ pre → Json.rbrace ∉ post →
      regexMatch text.toList = some (Json.lbrace :: mid ++ [Json.rbrace])
        ∧ parseJsonResponse q (.str text)
          = match q (String.mk (Json.lbrace :: mid ++ [Json.rbrace])) with
            | .ok parsed => .ok parsed
            | .error msg => .ok (errorFallback msg) := by
    intro q pre mid post hsplit hpre hpost
    have hm : regexMatch text.toList = some (Json.lbrace :: mid ++ [Json.rbrace]) := by
      rw [hsplit]
      exact regexMatch_span pre mid post hpre hpost
    exact ⟨hm, parseJsonResponse_of_match q text _ hm⟩
  refine ⟨braces_span text.toList x y z h, ?_, ?_, ?_⟩
  · intro pre mid post hsplit hpre hpost
    obtain ⟨hm, hres⟩ := hspan parse pre mid post hsplit hpre hpost
    refine ⟨hm, ?_, ?_, ?_⟩
    · simp only [parseJsonResponseTry, hm]
    · intro v hv
      rw [hres, hv]
    · intro msg hv
      rw [hres, hv]
  · intro pre obj tail post v hsplit hpre hpost hhead hv
    cases obj with
    | nil => simp at hhead
    | cons c obj1 =>
      simp only [List.head?_cons, Option.some.injEq] at hhead
      subst hhead
      have hsplit2 : text.toList
          = pre ++ Json.lbrace :: (obj1 ++ tail) ++ Json.rbrace :: post := by
        rw [hsplit]
        simp
      obtain ⟨-, hres⟩ := hspan Json.parse pre (obj1 ++ tail) post hsplit2 hpre hpost
      have hfail := Json.parse_trailing (Json.lbrace :: obj1) (tail ++ [Json.rbrace]) v hv rfl
        (Json.skipWs_closing tail)
      have hcand : Json.lbrace :: (obj1 ++ tail) ++ [Json.rbrace]
          = Json.lbrace :: obj1 ++ (tail ++ [Json.rbrace]) := by simp
      rw [hres, hcand, hfail]
  · intro pre obj post v hsplit hpre hpost hhead hlast hv
    obtain ⟨mid, hmid⟩ := braces_middle obj hhead hlast
    have hsplit2 : text.toList = pre ++ Json.lbrace :: mid ++ Json.rbrace :: post := by
      rw [hsplit, hmid]
      simp
    obtain ⟨-, hres⟩ := hspan parse pre mid post hsplit2 hpre hpost
    rw [hres, ← hmid, hv]

theorem parseJsonResponse_span_witness :
    parseJsonResponse Json.parse (.str Demo.proseWithBraces)
      = .ok (errorFallback Json.unexpectedToken)
    ∧ parseJsonResponse Json.parse (.str Demo.twoObjects)
      = .ok (errorFallback Json.unexpectedToken)
    ∧ parseJsonResponse Json.parse (.str ("Sure! Here you go: " ++ Demo.planText ++ " Done."))
      = .ok Demo.planObject :=
  ⟨(parseJsonResponse_span Json.parse Demo.proseWithBraces
        "Sure! Here you go: ".toList (Demo.planText.toList.tail.dropLast)
        " Replace \x7burl\x7d as needed.".toList (by decide)).2.2.1
      "Sure! Here you go: ".toList Demo.planText.toList " Replace \x7burl".toList
      " as needed.".toList Demo.planObject
      (by decide) (by decide) (by decide) (by decide) rfl,
   (parseJsonResponse_span Json.parse Demo.twoObjects
        [] "\"steps\":[]".toList " \x7b\"steps\":[]\x7d".toList (by decide)).2.2.1
      [] "\x7b\"steps\":[]\x7d".toList " \x7b\"steps\":[]".toList [] (.obj [("steps", .arr [])])
      (by decide) (by decide) (by decide) (by decide) rfl,
   (parseJsonResponse_span Json.parse ("Sure! Here you go: " ++ Demo.planText ++ " Done.")
        "Sure! Here you go: ".toList (Demo.planText.toList.tail.dropLast) " Done.".toList
        (by decide)).2.2.2
      "Sure! Here you go: ".toList Demo.planText.toList " Done.".toList Demo.planObject
      (by decide) (by decide) (by decide) (by decide) (by decide) rfl⟩

end LLMClient

end PlaywrightLLM
